import Mathlib

/-!
# Graph traversal visualizer (`src/main.cpp`)

A shallow embedding of the `GraphVisualizer` class: the node store, hit-testing,
the mouse / key handlers and the two traversals `runBFS` and `runDFS`.

Modelling conventions.

* `std::vector<Node>` is a `List Node`; `nodes[i]` with an `int` index `i` is defined only
  for `0 ≤ i < nodes.size()`.  Any other index is undefined behaviour in the source and is
  the error `Err.outOfBounds` here.
* `int` is `Int`.  The only arithmetic on `int` is the loop counter of `getNodeAtPosition`
  and the conversion of `nodes.size()` to the `int` id of a new node; a new node is created
  only after `getNodeAtPosition` has scanned the whole store without overflowing its counter,
  so in every defined execution these values are below `2^31` and no wrap-around occurs.
* `float` coordinates are `Int`: every coordinate the program computes is an integer pointer
  coordinate plus or minus `20`, which `float` represents exactly up to magnitude `2^24`.
  Beyond that the source rounds and the model does not, so the theorems on what
  `handleMousePress` and `handleMouseMove` store (C13, C17) take the bound as a hypothesis
  (`PointerExact`, `PositionExact`).
* `std::unordered_set<int>` is a `List Int` observed only through membership; `insert` is
  `List.insert`.  `std::queue<int>` is a `List Int` with the front at the head.
* `render()`, `setFillColor` and `sleep_for` are recorded, in program order, in a list of
  `Effect`s returned next to the new node store.  A frame records the node shapes; the edge
  list is not written by a traversal.
* The `while` loop of `runBFS` and the recursion of `runDFS` take a fuel argument (number of
  loop iterations, respectively recursion depth); running out of fuel is `Err.outOfFuel`.
* The bounding-box test `shape.getGlobalBounds().contains(x, y)` belongs to the graphics
  library; it is a parameter `contains` of everything that hit-tests.
-/

namespace GraphVisualizer

/-! ## Data model -/

/-- Fill colours used by the program (`sf::Color`). -/
inductive Color where
  | White
  | Green
  | Yellow
  | Red
  deriving DecidableEq

/-- A 2-D point (`sf::Vector2f` / `sf::Vector2i`). -/
structure Vector2 where
  x : Int
  y : Int
  deriving DecidableEq

/-- The part of `sf::CircleShape` the program writes: position and fill colour.  Radius
(`20`), outline thickness (`2`) and outline colour (black) are the same for every node. -/
structure CircleShape where
  position : Vector2
  fillColor : Color
  deriving DecidableEq

/-- Class `Node`. -/
structure Node where
  shape : CircleShape
  neighbors : List Int
  position : Vector2
  id : Int
  deriving DecidableEq

/-- Constructor `Node(float x, float y, int nodeId)`. -/
def Node.new (x y : Int) (nodeId : Int) : Node :=
  { shape := { position := ⟨x, y⟩, fillColor := Color.White }
    neighbors := []
    position := ⟨x, y⟩
    id := nodeId }

/-- Class `Edge`: the segment given to the constructor.  Length and rotation of the drawn
rectangle are functions of these two points. -/
structure Edge where
  start : Vector2
  stop : Vector2
  deriving DecidableEq

/-- Enumeration `TraversalType`. -/
inductive TraversalType where
  | NONE
  | BFS
  | DFS
  deriving DecidableEq

/-- Failure modes of the embedding. -/
inductive Err where
  | outOfBounds
  | outOfFuel
  deriving DecidableEq

/-- Observable actions of a traversal, in program order. -/
inductive Effect where
  | setFillColor (i : Int) (c : Color)
  | render (shapes : List CircleShape)
  | sleep (ms : Nat)
  deriving DecidableEq

/-- The fields of `GraphVisualizer` (the window apart). -/
structure State where
  nodes : List Node
  edges : List Edge
  isCreatingEdge : Bool
  selectedNodeId : Int
  isDragging : Bool
  draggedNodeId : Int
  currentTraversal : TraversalType
  deriving DecidableEq

/-- Constructor `GraphVisualizer()`. -/
def State.initial : State :=
  { nodes := []
    edges := []
    isCreatingEdge := false
    selectedNodeId := -1
    isDragging := false
    draggedNodeId := -1
    currentTraversal := TraversalType.NONE }

/-- Mouse buttons (`sf::Mouse::Button`). -/
inductive MouseButton where
  | Left
  | Right
  | Middle
  deriving DecidableEq

/-- Key codes (`sf::Keyboard::Key`); only `B` and `D` are distinguished. -/
inductive Key where
  | B
  | D
  | other (code : Nat)
  deriving DecidableEq

/-- Events polled by `handleEvents`.  A button event carries what the handler reads from
the environment: the pointer position returned by `sf::Mouse::getPosition(window)` and, for
a press, whether the left control key is down. -/
inductive Event where
  | Closed
  | MouseButtonPressed (button : MouseButton) (mousePos : Vector2) (lControl : Bool)
  | MouseButtonReleased (button : MouseButton) (mousePos : Vector2)
  | MouseMoved (x y : Int)
  | KeyPressed (code : Key)
  | Other
  deriving DecidableEq

/-! ## Node store access -/

/-- Read `nodes[i]` for an `int` index. -/
def nodeAt (nodes : List Node) (i : Int) : Except Err Node :=
  if 0 ≤ i then
    match nodes[i.toNat]? with
    | some n => .ok n
    | none => .error .outOfBounds
  else .error .outOfBounds

/-- The statement `nodes[i].shape.setFillColor(c)`. -/
def setFillColor (nodes : List Node) (i : Int) (c : Color) : Except Err (List Node) :=
  if 0 ≤ i then
    match nodes[i.toNat]? with
    | some n => .ok (nodes.set i.toNat { n with shape := { n.shape with fillColor := c } })
    | none => .error .outOfBounds
  else .error .outOfBounds

/-- What `render()` draws for the nodes: their shapes, in store order. -/
def shapes (nodes : List Node) : List CircleShape :=
  nodes.map Node.shape

/-! ## Hit testing -/

/-- The loop of `getNodeAtPosition`, from counter value `i` over the nodes not yet scanned. -/
def getNodeAtPositionFrom (contains : CircleShape → Vector2 → Bool) (mousePos : Vector2) :
    List Node → Int → Int
  | [], _ => -1
  | n :: rest, i =>
    if contains n.shape mousePos then i
    else getNodeAtPositionFrom contains mousePos rest (i + 1)

/-- Method `getNodeAtPosition`. -/
def getNodeAtPosition (contains : CircleShape → Vector2 → Bool) (nodes : List Node)
    (mousePos : Vector2) : Int :=
  getNodeAtPositionFrom contains mousePos nodes 0

/-! ## Traversals -/

/-- Local state of `runBFS`: the node store, the queue `q`, the set `visited`, and the
effects emitted so far. -/
structure BfsState where
  nodes : List Node
  q : List Int
  visited : List Int
  trace : List Effect
  deriving DecidableEq

/-- The inner `for` loop of `runBFS` over the neighbor list of the dequeued node. -/
def bfsVisitNeighbors : List Int → BfsState → Except Err BfsState
  | [], st => .ok st
  | neighbor :: rest, st =>
    if neighbor ∈ st.visited then bfsVisitNeighbors rest st
    else do
      let nodes1 ← setFillColor st.nodes neighbor Color.Yellow
      bfsVisitNeighbors rest
        { nodes := nodes1
          q := st.q ++ [neighbor]
          visited := st.visited.insert neighbor
          trace := st.trace ++ [Effect.setFillColor neighbor Color.Yellow,
                                Effect.render (shapes nodes1)] }

/-- One iteration of the `while` loop of `runBFS`, with `current` popped from the front of
the queue and `q1` the rest of the queue. -/
def bfsStep (st : BfsState) (current : Int) (q1 : List Int) : Except Err BfsState := do
  let nodes1 ← setFillColor st.nodes current Color.Green
  let cur ← nodeAt nodes1 current
  bfsVisitNeighbors cur.neighbors
    { nodes := nodes1
      q := q1
      visited := st.visited
      trace := st.trace ++ [Effect.setFillColor current Color.Green,
                            Effect.render (shapes nodes1), Effect.sleep 500] }

/-- The `while (!q.empty())` loop of `runBFS`; one unit of fuel per iteration. -/
def bfsLoop : Nat → BfsState → Except Err BfsState
  | 0, st =>
    match st.q with
    | [] => .ok st
    | _ :: _ => .error .outOfFuel
  | fuel + 1, st =>
    match st.q with
    | [] => .ok st
    | current :: q1 => do
      let st1 ← bfsStep st current q1
      bfsLoop fuel st1

/-- Method `runBFS(startNode)`: the final node store and the emitted effects. -/
def runBFS (fuel : Nat) (nodes : List Node) (startNode : Int) :
    Except Err (List Node × List Effect) := do
  let st ← bfsLoop fuel
    { nodes := nodes, q := [startNode], visited := ([] : List Int).insert startNode, trace := [] }
  return (st.nodes, st.trace)

/-- Local state threaded through `runDFS`: the node store, the set `visited` (passed by
reference in the source), and the effects emitted so far. -/
structure DfsState where
  nodes : List Node
  visited : List Int
  trace : List Effect
  deriving DecidableEq

/-- The `for` loop of `runDFS` over a neighbor list; `recurse` is the recursive call. -/
def dfsNeighbors (recurse : DfsState → Int → Except Err DfsState) :
    List Int → DfsState → Except Err DfsState
  | [], st => .ok st
  | neighbor :: rest, st =>
    if neighbor ∈ st.visited then dfsNeighbors recurse rest st
    else do
      let st1 ← recurse st neighbor
      dfsNeighbors recurse rest st1

/-- Method `runDFS(startNode, visited)`; one unit of fuel per level of recursion. -/
def runDFS : Nat → DfsState → Int → Except Err DfsState
  | 0, _, _ => .error .outOfFuel
  | fuel + 1, st, startNode => do
    let nodes1 ← setFillColor st.nodes startNode Color.Red
    let cur ← nodeAt nodes1 startNode
    dfsNeighbors (runDFS fuel) cur.neighbors
      { nodes := nodes1
        visited := st.visited.insert startNode
        trace := st.trace ++ [Effect.setFillColor startNode Color.Red,
                              Effect.render (shapes nodes1), Effect.sleep 500] }

/-! ## Edge geometry -/

/-- The inner loop of `updateEdges` for one node: one edge per neighbor entry, from the
centre of `node` to the centre of `nodes[neighborId]`. -/
def edgesOfNode (nodes : List Node) (node : Node) : List Int → Except Err (List Edge)
  | [] => .ok []
  | neighborId :: rest => do
    let target ← nodeAt nodes neighborId
    let tail ← edgesOfNode nodes node rest
    return { start := ⟨node.position.x + 20, node.position.y + 20⟩
             stop := ⟨target.position.x + 20, target.position.y + 20⟩ } :: tail

/-- The outer loop of `updateEdges` over the nodes still to be scanned. -/
def updateEdgesFrom (nodes : List Node) : List Node → Except Err (List Edge)
  | [] => .ok []
  | node :: rest => do
    let here ← edgesOfNode nodes node node.neighbors
    let tail ← updateEdgesFrom nodes rest
    return here ++ tail

/-- Method `updateEdges`: the new value of `edges`. -/
def updateEdges (nodes : List Node) : Except Err (List Edge) :=
  updateEdgesFrom nodes nodes

/-! ## Event handlers -/

/-- The statement `nodes[i].neighbors.push_back(j)`. -/
def pushNeighbor (nodes : List Node) (i j : Int) : Except Err (List Node) :=
  if 0 ≤ i then
    match nodes[i.toNat]? with
    | some n => .ok (nodes.set i.toNat { n with neighbors := n.neighbors ++ [j] })
    | none => .error .outOfBounds
  else .error .outOfBounds

/-- The two assignments of `handleMouseMove`: `nodes[i].position = p` followed by
`nodes[i].shape.setPosition(nodes[i].position)`. -/
def setPosition (nodes : List Node) (i : Int) (p : Vector2) : Except Err (List Node) :=
  if 0 ≤ i then
    match nodes[i.toNat]? with
    | some n =>
      .ok (nodes.set i.toNat { n with position := p, shape := { n.shape with position := p } })
    | none => .error .outOfBounds
  else .error .outOfBounds

/-- Method `handleMousePress`. -/
def handleMousePress (contains : CircleShape → Vector2 → Bool) (s : State)
    (button : MouseButton) (mousePos : Vector2) (lControl : Bool) : State :=
  if button = MouseButton.Left then
    let clickedNode := getNodeAtPosition contains s.nodes mousePos
    if clickedNode = -1 then
      { s with nodes := s.nodes ++ [Node.new (mousePos.x - 20) (mousePos.y - 20) s.nodes.length] }
    else if lControl then
      { s with isCreatingEdge := true, selectedNodeId := clickedNode }
    else
      { s with isDragging := true, draggedNodeId := clickedNode }
  else s

/-- The `if (isCreatingEdge)` block of `handleMouseRelease`. -/
def finishEdge (contains : CircleShape → Vector2 → Bool) (s : State) (mousePos : Vector2) :
    Except Err State :=
  if s.isCreatingEdge then do
    let targetNode := getNodeAtPosition contains s.nodes mousePos
    let s1 ←
      if targetNode ≠ -1 ∧ targetNode ≠ s.selectedNodeId then do
        let nodes1 ← pushNeighbor s.nodes s.selectedNodeId targetNode
        let nodes2 ← pushNeighbor nodes1 targetNode s.selectedNodeId
        let edges1 ← updateEdges nodes2
        pure { s with nodes := nodes2, edges := edges1 }
      else pure s
    return { s1 with isCreatingEdge := false, selectedNodeId := -1 }
  else .ok s

/-- Method `handleMouseRelease`. -/
def handleMouseRelease (contains : CircleShape → Vector2 → Bool) (s : State)
    (button : MouseButton) (mousePos : Vector2) : Except Err State :=
  if button = MouseButton.Left then do
    let s1 ← finishEdge contains s mousePos
    return { s1 with isDragging := false, draggedNodeId := -1 }
  else .ok s

/-- Method `handleMouseMove`. -/
def handleMouseMove (s : State) (x y : Int) : Except Err State :=
  if s.isDragging ∧ s.draggedNodeId ≠ -1 then do
    let nodes1 ← setPosition s.nodes s.draggedNodeId ⟨x - 20, y - 20⟩
    let edges1 ← updateEdges nodes1
    return { s with nodes := nodes1, edges := edges1 }
  else .ok s

/-- Method `handleKeyPress`: the new state and the effects emitted by the traversal. -/
def handleKeyPress (fuel : Nat) (s : State) (code : Key) : Except Err (State × List Effect) :=
  match code with
  | Key.B =>
    if s.nodes ≠ [] then do
      let r ← runBFS fuel s.nodes 0
      return ({ s with currentTraversal := TraversalType.BFS, nodes := r.1 }, r.2)
    else .ok ({ s with currentTraversal := TraversalType.BFS }, [])
  | Key.D =>
    if s.nodes ≠ [] then do
      let r ← runDFS fuel { nodes := s.nodes, visited := [], trace := [] } 0
      return ({ s with currentTraversal := TraversalType.DFS, nodes := r.nodes }, r.trace)
    else .ok ({ s with currentTraversal := TraversalType.DFS }, [])
  | Key.other _ => .ok (s, [])

/-- One iteration of the `pollEvent` loop of `handleEvents`: dispatch on the event type. -/
def handleEvent (contains : CircleShape → Vector2 → Bool) (fuel : Nat) (s : State) :
    Event → Except Err (State × List Effect)
  | Event.Closed => .ok (s, [])
  | Event.MouseButtonPressed button mousePos lControl =>
    .ok (handleMousePress contains s button mousePos lControl, [])
  | Event.MouseButtonReleased button mousePos => do
    let s1 ← handleMouseRelease contains s button mousePos
    return (s1, [])
  | Event.MouseMoved x y => do
    let s1 ← handleMouseMove s x y
    return (s1, [])
  | Event.KeyPressed code => handleKeyPress fuel s code
  | Event.Other => .ok (s, [])

/-- States the program can be in: the constructor's state, closed under handling any event
for which the handler returns. -/
inductive Reachable (contains : CircleShape → Vector2 → Bool) : State → Prop where
  | initial : Reachable contains State.initial
  | step {s s1 : State} {fuel : Nat} {e : Event} {tr : List Effect} :
      Reachable contains s → handleEvent contains fuel s e = .ok (s1, tr) →
      Reachable contains s1

/-- Handle a list of events in order, with the same fuel for every traversal; the effects
of all handlers are concatenated. -/
def handleEventList (contains : CircleShape → Vector2 → Bool) (fuel : Nat) :
    State → List Event → Except Err (State × List Effect)
  | s, [] => .ok (s, [])
  | s, e :: rest => do
    let r ← handleEvent contains fuel s e
    let r1 ← handleEventList contains fuel r.1 rest
    return (r1.1, r.2 ++ r1.2)

/-- Modelled from the spec: the hit region of a node, which the source obtains from the
graphics library as `shape.getGlobalBounds().contains(x, y)`.  The spec gives it as the
region of fixed radius `20` around the node; here it is the square that bounds the circle of
radius `20` whose top-left corner is the position of the shape.  It is used for concrete
runs only: every general theorem holds for an arbitrary hit test `contains`. -/
def boxContains (shape : CircleShape) (p : Vector2) : Bool :=
  decide (shape.position.x ≤ p.x) && decide (p.x ≤ shape.position.x + 40) &&
  decide (shape.position.y ≤ p.y) && decide (p.y ≤ shape.position.y + 40)

/-! ## Notions used to state the properties -/

/-- Every entry of every neighbor list is an index into the node store. -/
def ValidGraph (nodes : List Node) : Prop :=
  ∀ n ∈ nodes, ∀ j ∈ n.neighbors, 0 ≤ j ∧ j < (nodes.length : Int)

instance (nodes : List Node) : Decidable (ValidGraph nodes) := by
  unfold ValidGraph
  infer_instance

/-- The neighbor list of node `i`; empty when `i` is not an index of the store. -/
def neighborsOf (nodes : List Node) (i : Int) : List Int :=
  match nodeAt nodes i with
  | .ok n => n.neighbors
  | .error _ => []

/-- The relation `ReachIn nodes k a b`: `b` is reached from `a` by following `k` neighbor
entries. -/
inductive ReachIn (nodes : List Node) : Nat → Int → Int → Prop where
  | refl (a : Int) : ReachIn nodes 0 a a
  | step {k : Nat} {a b c : Int} :
      ReachIn nodes k a b → c ∈ neighborsOf nodes b → ReachIn nodes (k + 1) a c

/-- Node `b` is reachable from node `a` by following neighbor lists. -/
def Reach (nodes : List Node) (a b : Int) : Prop :=
  ∃ k, ReachIn nodes k a b

/-- The shortest-path distance of `v` from node `0` is `d`. -/
def IsDist (nodes : List Node) (v : Int) (d : Nat) : Prop :=
  ReachIn nodes d 0 v ∧ ∀ k, ReachIn nodes k 0 v → d ≤ k

/-- The nodes given colour `c` by a run, in the order of the `setFillColor` calls. -/
def colouredWith (c : Color) (trace : List Effect) : List Int :=
  trace.filterMap fun e =>
    match e with
    | Effect.setFillColor i c1 => if c1 = c then some i else none
    | _ => none

/-- The frames drawn by a run, in order. -/
def frames (trace : List Effect) : List (List CircleShape) :=
  trace.filterMap fun e =>
    match e with
    | Effect.render fr => some fr
    | _ => none

/-- The fill colour of node `i`, if `i` is an index of the store. -/
def fillColorAt (nodes : List Node) (i : Int) : Option Color :=
  match nodeAt nodes i with
  | .ok n => some n.shape.fillColor
  | .error _ => none

/-- The node with its fill colour forgotten: what a traversal must leave unchanged. -/
def Node.uncoloured (n : Node) : Node :=
  { n with shape := { n.shape with fillColor := Color.White } }

/-! ## Invariants and specifications used in the proofs -/

/-- The ids and neighbor lists of the store after an event: either those before it, or those
before it followed by one new node without neighbors, or those before it with one entry
appended to each of two neighbor lists. -/
inductive StoreChange (s : State) (s1 : State) : Prop where
  | same : s1.nodes.map Node.id = s.nodes.map Node.id →
      s1.nodes.map Node.neighbors = s.nodes.map Node.neighbors → StoreChange s s1
  | added (x y : Int) : s1.nodes = s.nodes ++ [Node.new x y s.nodes.length] → StoreChange s s1
  | linked (a b : Int) : s1.nodes.map Node.id = s.nodes.map Node.id →
      s1.nodes.length = s.nodes.length →
      s.isCreatingEdge = true → a = s.selectedNodeId →
      0 ≤ b → b < (s.nodes.length : Int) → b ≠ a →
      (∀ t, neighborsOf s1.nodes t =
        if t = b then neighborsOf s.nodes t ++ [a]
        else if t = a then neighborsOf s.nodes t ++ [b]
        else neighborsOf s.nodes t) → StoreChange s s1

/-- Ids are the indices of the store. -/
def IdsDense (nodes : List Node) : Prop :=
  ∀ (k : Nat) (n : Node), nodes[k]? = some n → n.id = (k : Int)

/-- Invariant of the node store and of the two interaction modes. -/
structure Inv (s : State) : Prop where
  ids : IdsDense s.nodes
  valid : ValidGraph s.nodes
  symm : ∀ i j, j ∈ neighborsOf s.nodes i → i ∈ neighborsOf s.nodes j
  irrefl : ∀ i, i ∉ neighborsOf s.nodes i
  sel : s.isCreatingEdge = true →
    0 ≤ s.selectedNodeId ∧ s.selectedNodeId < (s.nodes.length : Int)
  drag : s.isDragging = true →
    0 ≤ s.draggedNodeId ∧ s.draggedNodeId < (s.nodes.length : Int)

/-- A function `dist` gives the distance from node `0` of every reachable node. -/
def DistSpec (nodes : List Node) (dist : Int → Nat) : Prop :=
  ∀ v, Reach nodes 0 v → IsDist nodes v (dist v)

/-- Loop invariant of `runBFS` on the store `nodes0`, with `dist` the distance from node
`0`.  The dequeued nodes are those coloured green so far. -/
structure BfsInv (nodes0 : List Node) (dist : Int → Nat) (st : BfsState) : Prop where
  unc : st.nodes.map Node.uncoloured = nodes0.map Node.uncoloured
  vis_range : ∀ v ∈ st.visited, 0 ≤ v ∧ v < (nodes0.length : Int)
  vis_nodup : st.visited.Nodup
  perm : (colouredWith Color.Green st.trace ++ st.q).Perm st.visited
  untouched : ∀ k : Nat, (k : Int) ∉ st.visited → st.nodes[k]? = nodes0[k]?
  green : ∀ v ∈ colouredWith Color.Green st.trace, fillColorAt st.nodes v = some Color.Green
  reach : ∀ v ∈ st.visited, Reach nodes0 0 v
  closed : ∀ v ∈ colouredWith Color.Green st.trace, ∀ w ∈ neighborsOf nodes0 v,
    w ∈ st.visited
  sorted : (colouredWith Color.Green st.trace ++ st.q).Pairwise fun u v => dist u ≤ dist v
  window : ∀ c q1, st.q = c :: q1 →
    ∀ x ∈ colouredWith Color.Green st.trace ++ st.q, dist x ≤ dist c + 1
  complete : ∀ c q1, st.q = c :: q1 →
    ∀ w, Reach nodes0 0 w → dist w ≤ dist c → w ∈ st.visited
  start : (0 : Int) ∈ st.visited

/-- The calls of `runDFS` made by one `for` loop, in order: `cons v children siblings` is a
call on `v` whose own loop makes the calls `children`, followed by the later calls
`siblings` of the same loop. -/
inductive CallForest where
  | nil : CallForest
  | cons (v : Int) (children : CallForest) (siblings : CallForest) : CallForest

/-- The nodes of a forest of calls, every call before the calls it makes and before the
later calls of the same loop. -/
def CallForest.preorder : CallForest → List Int
  | CallForest.nil => []
  | CallForest.cons v children siblings => v :: (children.preorder ++ siblings.preorder)

/-- The nodes of the top-level calls of a forest. -/
def CallForest.roots : CallForest → List Int
  | CallForest.nil => []
  | CallForest.cons v _ siblings => v :: siblings.roots

/-- Every call in the forest makes its recursive calls on entries of the neighbor list of
its node, in the order of that list. -/
def CallForest.Follows (nodes : List Node) : CallForest → Prop
  | CallForest.nil => True
  | CallForest.cons v children siblings =>
    children.roots.Sublist (neighborsOf nodes v) ∧ children.Follows nodes ∧
      siblings.Follows nodes

/-- What `runDFS` assumes of its state on the store `nodes0`. -/
structure DfsPre (nodes0 : List Node) (st : DfsState) : Prop where
  unc : st.nodes.map Node.uncoloured = nodes0.map Node.uncoloured
  vis_nodup : st.visited.Nodup
  vis_range : ∀ v ∈ st.visited, 0 ≤ v ∧ v < (nodes0.length : Int)

/-- The state `st1` is `st` after visiting, in order, the nodes `block`. -/
structure DfsPost (nodes0 : List Node) (st : DfsState) (block : List Int) (st1 : DfsState) :
    Prop where
  unc : st1.nodes.map Node.uncoloured = st.nodes.map Node.uncoloured
  visited : st1.visited = block.reverse ++ st.visited
  red : colouredWith Color.Red st1.trace = colouredWith Color.Red st.trace ++ block
  nodup : block.Nodup
  fresh : ∀ x ∈ block, x ∉ st.visited
  range : ∀ x ∈ block, 0 ≤ x ∧ x < (nodes0.length : Int)
  coloured : ∀ x ∈ block, fillColorAt st1.nodes x = some Color.Red
  untouched : ∀ k : Nat, (k : Int) ∉ block → st1.nodes[k]? = st.nodes[k]?
  reach : ∀ x ∈ block, Reach nodes0 0 x

/-- All calls of a forest, each with the calls of its own loop. -/
def CallForest.calls : CallForest → List (Int × CallForest)
  | CallForest.nil => []
  | CallForest.cons v children siblings => (v, children) :: (children.calls ++ siblings.calls)

/-- Every call of the forest `f`, made by a loop that starts in state `st`, is a call of
`runDFS`: for a call on `v` whose loop makes the calls `calls`, the nodes visited by the
forest are `pre`, then `v` and the nodes of `calls`, then `post`; and `runDFS` called on `v`
in a state in which exactly the nodes of `pre` have been visited since `st` returns after
visiting exactly `v` and the nodes of `calls`, in this order. -/
def CallsRun (nodes0 : List Node) (st : DfsState) (f : CallForest) : Prop :=
  ∀ p ∈ f.calls, ∃ (pre post : List Int) (fuel : Nat) (stp stp1 : DfsState),
    f.preorder = pre ++ (p.1 :: p.2.preorder) ++ post ∧
    stp.nodes.map Node.uncoloured = nodes0.map Node.uncoloured ∧
    stp.visited = pre.reverse ++ st.visited ∧
    colouredWith Color.Red stp.trace = colouredWith Color.Red st.trace ++ pre ∧
    runDFS fuel stp p.1 = .ok stp1 ∧
    colouredWith Color.Red stp1.trace =
      colouredWith Color.Red stp.trace ++ (p.1 :: p.2.preorder)

/-! ## Concrete runs -/

/-- Three clicks on empty space followed by a control-click on node `0` released over node
`1`: nodes `0`, `1`, `2` and the single edge `(0, 1)`. -/
def demoEvents : List Event :=
  [Event.MouseButtonPressed MouseButton.Left ⟨0, 0⟩ false,
   Event.MouseButtonPressed MouseButton.Left ⟨100, 100⟩ false,
   Event.MouseButtonPressed MouseButton.Left ⟨200, 100⟩ false,
   Event.MouseButtonPressed MouseButton.Left ⟨0, 1⟩ true,
   Event.MouseButtonReleased MouseButton.Left ⟨101, 101⟩]

/-- The node store built by `demoEvents`. -/
def demoNodes : List Node :=
  [{ shape := ⟨⟨-20, -20⟩, Color.White⟩, neighbors := [1], position := ⟨-20, -20⟩, id := 0 },
   { shape := ⟨⟨80, 80⟩, Color.White⟩, neighbors := [0], position := ⟨80, 80⟩, id := 1 },
   { shape := ⟨⟨180, 80⟩, Color.White⟩, neighbors := [], position := ⟨180, 80⟩, id := 2 }]

/-- The state after `demoEvents`. -/
def demoState : State :=
  { nodes := demoNodes
    edges := [⟨⟨0, 0⟩, ⟨100, 100⟩⟩, ⟨⟨100, 100⟩, ⟨0, 0⟩⟩]
    isCreatingEdge := false
    selectedNodeId := -1
    isDragging := false
    draggedNodeId := -1
    currentTraversal := TraversalType.NONE }

/-- The state after `demoEvents` followed by a control-click on node `0`: edge creation
from node `0` is in progress. -/
def demoLinking : State :=
  { demoState with isCreatingEdge := true, selectedNodeId := 0 }

/-- A path `0 - 1 - 2` with a second branch `0 - 3`. -/
def layeredNodes : List Node :=
  [{ shape := ⟨⟨0, 0⟩, Color.White⟩, neighbors := [1, 3], position := ⟨0, 0⟩, id := 0 },
   { shape := ⟨⟨50, 0⟩, Color.White⟩, neighbors := [0, 2], position := ⟨50, 0⟩, id := 1 },
   { shape := ⟨⟨100, 0⟩, Color.White⟩, neighbors := [1], position := ⟨100, 0⟩, id := 2 },
   { shape := ⟨⟨0, 50⟩, Color.White⟩, neighbors := [0], position := ⟨0, 50⟩, id := 3 }]

/-- The state after `demoEvents` followed by key `B`: nodes `0` and `1` are green. -/
def demoVisited : State :=
  { demoState with
    nodes :=
      [{ shape := ⟨⟨-20, -20⟩, Color.Green⟩, neighbors := [1], position := ⟨-20, -20⟩, id := 0 },
       { shape := ⟨⟨80, 80⟩, Color.Green⟩, neighbors := [0], position := ⟨80, 80⟩, id := 1 },
       { shape := ⟨⟨180, 80⟩, Color.White⟩, neighbors := [], position := ⟨180, 80⟩, id := 2 }]
    currentTraversal := TraversalType.BFS }


/-! ## First occurrences and discovery groups -/

/-- The entries of `l` that are not in `seen`, each kept at its first occurrence only. -/
def dedupFrom (seen : List Int) : List Int → List Int
  | [] => []
  | x :: rest =>
    if x ∈ seen then dedupFrom seen rest else x :: dedupFrom (x :: seen) rest

/-- The list `l` with every occurrence of an id after its first deleted. -/
def keepFirst (l : List Int) : List Int :=
  dedupFrom [] l

/-- The store in which every neighbor list has lost every occurrence of an id after its
first. -/
def dedupGraph (nodes : List Node) : List Node :=
  nodes.map fun n => { n with neighbors := keepFirst n.neighbors }

/-- The local state of `runBFS` over the store without duplicate neighbor entries. -/
def BfsState.deduped (st : BfsState) : BfsState :=
  { st with nodes := dedupGraph st.nodes }

/-- The local state of `runDFS` over the store without duplicate neighbor entries. -/
def DfsState.deduped (st : DfsState) : DfsState :=
  { st with nodes := dedupGraph st.nodes }

/-- An effect other than colouring a node green. -/
def notGreenFill (e : Effect) : Bool :=
  match e with
  | Effect.setFillColor _ Color.Green => false
  | _ => true

/-- The run cut at its dequeues: every node coloured green, in order, with the nodes coloured
yellow after it and before the next node is coloured green, in order. -/
def discoveredFrom : List Effect → List (Int × List Int)
  | [] => []
  | e :: rest =>
    match e with
    | Effect.setFillColor c Color.Green =>
      (c, colouredWith Color.Yellow (rest.takeWhile notGreenFill)) :: discoveredFrom rest
    | _ => discoveredFrom rest

/-- The colour changes of a run, in order: which node was given which colour. -/
def colourChanges (trace : List Effect) : List (Int × Color) :=
  trace.filterMap fun e =>
    match e with
    | Effect.setFillColor i c => some (i, c)
    | _ => none

/-- The nodes discovered before the `k`-th dequeue of a run cut into `groups`: the start node
`0` and the nodes coloured yellow after the earlier dequeues. -/
def discoveredBefore (groups : List (Int × List Int)) (k : Nat) : List Int :=
  0 :: ((groups.take k).map Prod.snd).flatten

/-- Every dequeued node discovers, in order, the first occurrences of the entries of its
neighbor list that were not discovered before. -/
def GroupsFollow (nodes : List Node) (groups : List (Int × List Int)) : Prop :=
  ∀ (k : Nat) (c : Int) (ys : List Int), groups[k]? = some (c, ys) →
    ys = keepFirst ((neighborsOf nodes c).filter
      fun x => decide (x ∉ discoveredBefore groups k))

/-- Invariant of the loop of `runBFS` on the store `nodes0` that relates the order of
discovery to the order of the dequeues. -/
structure BfsOrder (nodes0 : List Node) (st : BfsState) : Prop where
  unc : st.nodes.map Node.uncoloured = nodes0.map Node.uncoloured
  visited : st.visited = (0 :: colouredWith Color.Yellow st.trace).reverse
  queue : colouredWith Color.Green st.trace ++ st.q = 0 :: colouredWith Color.Yellow st.trace
  fst : (discoveredFrom st.trace).map Prod.fst = colouredWith Color.Green st.trace
  snd : ((discoveredFrom st.trace).map Prod.snd).flatten = colouredWith Color.Yellow st.trace
  follow : GroupsFollow nodes0 (discoveredFrom st.trace)

/-- Every node of the store that is not reachable from node `0` is white. -/
def UnreachedWhite (nodes : List Node) : Prop :=
  ∀ (k : Nat) (n : Node), nodes[k]? = some n → ¬ Reach nodes 0 (k : Int) →
    n.shape.fillColor = Color.White

/-! ## Edge segments -/

/-- The centre of the shape of node `i`: its position plus the radius `20` in both
coordinates (the origin when `i` is not an index of the store). -/
def centreAt (nodes : List Node) (i : Int) : Vector2 :=
  match nodeAt nodes i with
  | .ok n => ⟨n.position.x + 20, n.position.y + 20⟩
  | .error _ => ⟨0, 0⟩

/-- The pairs `(i, j)` with `j` an entry of the `i`-th of the given neighbor lists, counted
from index `i0`, in the order in which `updateEdges` scans them. -/
def edgePairsFrom : List (List Int) → Nat → List (Int × Int)
  | [], _ => []
  | l :: rest, i0 => l.map (fun j => ((i0 : Int), j)) ++ edgePairsFrom rest (i0 + 1)

/-- The pairs `(i, j)` with `j` an entry of `nodes[i].neighbors`, in scan order: one per edge
segment. -/
def edgePairs (nodes : List Node) : List (Int × Int) :=
  edgePairsFrom (nodes.map Node.neighbors) 0

/-- The segment between the centres of the two nodes of a pair. -/
def segmentOf (centre : Int → Vector2) (p : Int × Int) : Edge :=
  { start := centre p.1, stop := centre p.2 }

/-- The edge list is the one `updateEdges` computes from the current store. -/
def EdgesFresh (s : State) : Prop :=
  s.edges = (edgePairs s.nodes).map (segmentOf (centreAt s.nodes))

/-! ## Coordinates that `float` holds exactly

The source computes `mousePos.x - 20.f`, `event.mouseMove.x - 20.f` and
`position + Vector2f(20.f, 20.f)` in `float`, whereas the handlers above compute in `Int`.
The two agree when every operand and result is an integer of magnitude at most `2^24`;
beyond that `float` rounds.  The theorems on the position a handler stores carry these
bounds as hypotheses. -/

/-- An integer of magnitude at most `2^24 = 16777216`: `float` holds it exactly. -/
def ExactFloat (v : Int) : Prop :=
  -16777216 ≤ v ∧ v ≤ 16777216

instance (v : Int) : Decidable (ExactFloat v) := by
  unfold ExactFloat
  infer_instance

/-- A pointer position for which `mousePos - Vector2f(20.f, 20.f)` is computed without
rounding: each `int` coordinate and each difference is held exactly. -/
def PointerExact (p : Vector2) : Prop :=
  ExactFloat p.x ∧ ExactFloat (p.x - 20) ∧ ExactFloat p.y ∧ ExactFloat (p.y - 20)

instance (p : Vector2) : Decidable (PointerExact p) := by
  unfold PointerExact
  infer_instance

/-- A stored position for which `position + Vector2f(20.f, 20.f)` in `updateEdges` is
computed without rounding. -/
def PositionExact (p : Vector2) : Prop :=
  ExactFloat p.x ∧ ExactFloat (p.x + 20) ∧ ExactFloat p.y ∧ ExactFloat (p.y + 20)

instance (p : Vector2) : Decidable (PositionExact p) := by
  unfold PositionExact
  infer_instance

/-- What handling one event does to the node store and the edge list. -/
inductive EventFrame (s s1 : State) : Prop where
  | same : s1.nodes = s.nodes → s1.edges = s.edges → EventFrame s s1
  | added (x y : Int) : s1.nodes = s.nodes ++ [Node.new x y s.nodes.length] →
      s1.edges = s.edges → EventFrame s s1
  | redrawn : updateEdges s1.nodes = .ok s1.edges →
      s1.nodes.map (fun n => n.shape.fillColor) = s.nodes.map (fun n => n.shape.fillColor) →
      EventFrame s s1
  | recoloured : s1.edges = s.edges →
      s1.nodes.map Node.uncoloured = s.nodes.map Node.uncoloured →
      (∀ k : Nat, ¬ Reach s.nodes 0 (k : Int) → s1.nodes[k]? = s.nodes[k]?) →
      EventFrame s s1

/-! ## Histories of events -/

/-- The state `s` is reached from the constructor's state by handling the events `es`, in
order. -/
inductive ReachableBy (contains : CircleShape → Vector2 → Bool) : List Event → State → Prop where
  | initial : ReachableBy contains [] State.initial
  | step {es : List Event} {s s1 : State} {fuel : Nat} {e : Event} {tr : List Effect} :
      ReachableBy contains es s → handleEvent contains fuel s e = .ok (s1, tr) →
      ReachableBy contains (es ++ [e]) s1

/-- Follow the left mouse button through one event: `some true` when it is down, `some false`
when it is up, and `none` once a left-button press has arrived while it was down. -/
def trackLeftButton (down : Option Bool) (e : Event) : Option Bool :=
  match down, e with
  | none, _ => none
  | some true, Event.MouseButtonPressed MouseButton.Left _ _ => none
  | some false, Event.MouseButtonPressed MouseButton.Left _ _ => some true
  | some _, Event.MouseButtonReleased MouseButton.Left _ => some false
  | some d, _ => some d

/-- No left-button press of the history arrives while the left button is down: between any
two left-button presses there is a left-button release. -/
def PressesAlternate (es : List Event) : Prop :=
  es.foldl trackLeftButton (some false) ≠ none

instance (es : List Event) : Decidable (PressesAlternate es) := by
  unfold PressesAlternate
  infer_instance

/-- What handling the event `e` does to the two mode flags: a left-button press leaves them
or turns exactly one of them on, a left-button release turns both off, and every other event
leaves them as they are. -/
def FlagsStep (e : Event) (s s1 : State) : Prop :=
  match e with
  | Event.MouseButtonPressed MouseButton.Left _ _ =>
    (s1.isDragging = s.isDragging ∧ s1.isCreatingEdge = s.isCreatingEdge) ∨
    (s1.isDragging = s.isDragging ∧ s1.isCreatingEdge = true) ∨
    (s1.isDragging = true ∧ s1.isCreatingEdge = s.isCreatingEdge)
  | Event.MouseButtonReleased MouseButton.Left _ =>
    s1.isDragging = false ∧ s1.isCreatingEdge = false
  | _ => s1.isDragging = s.isDragging ∧ s1.isCreatingEdge = s.isCreatingEdge

/-- The state after `demoEvents` followed by a control-click on node `0` and, with no release
in between, a plain click on node `1`. -/
def demoBothModes : State :=
  { demoState with
    isCreatingEdge := true
    selectedNodeId := 0
    isDragging := true
    draggedNodeId := 1 }

/-- Node `0` with the neighbor list `[2, 1]`, and nodes `1` and `2` linked back to it. -/
def orderNodes : List Node :=
  [{ shape := ⟨⟨0, 0⟩, Color.White⟩, neighbors := [2, 1], position := ⟨0, 0⟩, id := 0 },
   { shape := ⟨⟨50, 0⟩, Color.White⟩, neighbors := [0], position := ⟨50, 0⟩, id := 1 },
   { shape := ⟨⟨100, 0⟩, Color.White⟩, neighbors := [0], position := ⟨100, 0⟩, id := 2 }]

/-- A store with duplicate neighbor entries: the edges `(0, 1)` twice, `(0, 2)` and
`(1, 2)`. -/
def dupNodes : List Node :=
  [{ shape := ⟨⟨0, 0⟩, Color.White⟩, neighbors := [1, 1, 2], position := ⟨0, 0⟩, id := 0 },
   { shape := ⟨⟨50, 0⟩, Color.White⟩, neighbors := [0, 0, 2], position := ⟨50, 0⟩, id := 1 },
   { shape := ⟨⟨100, 0⟩, Color.White⟩, neighbors := [0, 1], position := ⟨100, 0⟩, id := 2 }]

/-- The state after `demoEvents` followed by a plain click on node `0`: node `0` is being
dragged. -/
def demoDragging : State :=
  { demoState with isDragging := true, draggedNodeId := 0 }

/-- A click on empty space, its release, and a plain click on the new node `0`: every press
is released before the next one. -/
def dragEvents : List Event :=
  [Event.MouseButtonPressed MouseButton.Left ⟨0, 0⟩ false,
   Event.MouseButtonReleased MouseButton.Left ⟨0, 0⟩,
   Event.MouseButtonPressed MouseButton.Left ⟨3, 4⟩ false]

/-- The state after `dragEvents`: node `0` is being dragged. -/
def dragState : State :=
  { nodes := [Node.new (-20) (-20) 0]
    edges := []
    isCreatingEdge := false
    selectedNodeId := -1
    isDragging := true
    draggedNodeId := 0
    currentTraversal := TraversalType.NONE }

/-! # Theorems -/

theorem nodeAt_eq_ok {nodes : List Node} {i : Int} {n : Node} :
    nodeAt nodes i = .ok n ↔ 0 ≤ i ∧ nodes[i.toNat]? = some n := by
  unfold nodeAt
  by_cases h : 0 ≤ i
  · cases hn : nodes[i.toNat]? <;> simp [h]
  · simp [h]

theorem nodeAt_ok_of_lt (nodes : List Node) {i : Int} (h0 : 0 ≤ i)
    (h1 : i < (nodes.length : Int)) : ∃ n, nodeAt nodes i = .ok n ∧ nodes[i.toNat]? = some n := by
  have hlt : i.toNat < nodes.length := by omega
  refine ⟨nodes[i.toNat], ?_, ?_⟩
  · rw [nodeAt_eq_ok]; exact ⟨h0, List.getElem?_eq_getElem hlt⟩
  · exact List.getElem?_eq_getElem hlt

theorem setFillColor_eq_ok {nodes nodes1 : List Node} {i : Int} {c : Color} :
    setFillColor nodes i c = .ok nodes1 ↔
      ∃ n, 0 ≤ i ∧ nodes[i.toNat]? = some n ∧
        nodes1 = nodes.set i.toNat { n with shape := { n.shape with fillColor := c } } := by
  unfold setFillColor
  by_cases h : 0 ≤ i
  · cases hn : nodes[i.toNat]? with
    | none => simp [h]
    | some n =>
      simp only [h, if_true, Except.ok.injEq, Option.some.injEq, true_and, exists_eq_left']
      exact eq_comm
  · simp [h]

theorem neighborsOf_eq (nodes : List Node) (i : Int) :
    neighborsOf nodes i =
      if 0 ≤ i then ((nodes.map Node.neighbors)[i.toNat]?).getD [] else [] := by
  unfold neighborsOf nodeAt
  by_cases h : 0 ≤ i
  · cases hn : nodes[i.toNat]? <;> simp [h, hn]
  · simp [h]

theorem neighborsOf_congr {nodes nodes1 : List Node}
    (h : nodes1.map Node.neighbors = nodes.map Node.neighbors) (i : Int) :
    neighborsOf nodes1 i = neighborsOf nodes i := by
  rw [neighborsOf_eq, neighborsOf_eq, h]

/-! ## Neighbor lists and validity -/

theorem neighborsOf_of_getElem? {nodes : List Node} {i : Int} {n : Node} (h0 : 0 ≤ i)
    (h : nodes[i.toNat]? = some n) : neighborsOf nodes i = n.neighbors := by
  unfold neighborsOf
  rw [nodeAt_eq_ok.mpr ⟨h0, h⟩]

theorem validGraph_iff (nodes : List Node) :
    ValidGraph nodes ↔ ∀ i j, j ∈ neighborsOf nodes i → 0 ≤ j ∧ j < (nodes.length : Int) := by
  constructor
  · intro hv i j hj
    unfold neighborsOf at hj
    cases hn : nodeAt nodes i with
    | error e => rw [hn] at hj; simp at hj
    | ok n =>
      rw [hn] at hj
      exact hv n (List.getElem?_mem (nodeAt_eq_ok.mp hn).2) j hj
  · intro h n hn j hj
    obtain ⟨k, hk⟩ := List.getElem?_of_mem hn
    apply h (k : Int) j
    rw [neighborsOf_of_getElem? (by omega) (by simpa using hk)]
    exact hj

theorem neighborsOf_set {nodes : List Node} {k : Nat} (hk : k < nodes.length) (m : Node)
    (i : Int) :
    neighborsOf (nodes.set k m) i =
      if i = (k : Int) then m.neighbors else neighborsOf nodes i := by
  by_cases hi : i = (k : Int)
  · subst hi
    rw [if_pos rfl]
    apply neighborsOf_of_getElem? (by omega)
    simp [List.getElem?_set, hk]
  · rw [if_neg hi, neighborsOf_eq, neighborsOf_eq]
    by_cases h0 : 0 ≤ i
    · have hne : k ≠ i.toNat := by omega
      simp [h0, List.getElem?_set, hne]
    · simp [h0]

theorem pushNeighbor_eq_ok {nodes nodes1 : List Node} {i j : Int} :
    pushNeighbor nodes i j = .ok nodes1 ↔
      ∃ n, 0 ≤ i ∧ nodes[i.toNat]? = some n ∧
        nodes1 = nodes.set i.toNat { n with neighbors := n.neighbors ++ [j] } := by
  unfold pushNeighbor
  by_cases h : 0 ≤ i
  · cases hn : nodes[i.toNat]? with
    | none => simp [h]
    | some n =>
      simp only [h, if_true, Except.ok.injEq, Option.some.injEq, true_and, exists_eq_left']
      exact eq_comm
  · simp [h]

/-- On an index of the store `pushNeighbor` succeeds, keeps the size, appends to the one
neighbor list and keeps the others. -/
theorem pushNeighbor_ok (nodes : List Node) {i : Int} (j : Int) (h0 : 0 ≤ i)
    (h1 : i < (nodes.length : Int)) :
    ∃ nodes1, pushNeighbor nodes i j = .ok nodes1 ∧ nodes1.length = nodes.length ∧
      ∀ t, neighborsOf nodes1 t =
        if t = i then neighborsOf nodes i ++ [j] else neighborsOf nodes t := by
  obtain ⟨n, _, hn⟩ := nodeAt_ok_of_lt nodes h0 h1
  have hlt : i.toNat < nodes.length := by omega
  refine ⟨_, pushNeighbor_eq_ok.mpr ⟨n, h0, hn, rfl⟩, by simp, ?_⟩
  intro t
  rw [neighborsOf_set hlt, neighborsOf_of_getElem? h0 hn]
  have : ((i.toNat : Nat) : Int) = i := by omega
  rw [this]

theorem edgesOfNode_ok (nodes : List Node) (node : Node) :
    ∀ l : List Int, (∀ j ∈ l, 0 ≤ j ∧ j < (nodes.length : Int)) →
      ∃ es, edgesOfNode nodes node l = .ok es := by
  intro l
  induction l with
  | nil => intro _; exact ⟨[], rfl⟩
  | cons j rest ih =>
    intro h
    obtain ⟨n, hn, _⟩ := nodeAt_ok_of_lt nodes (h j (List.mem_cons_self _ _)).1
      (h j (List.mem_cons_self _ _)).2
    obtain ⟨es, hes⟩ := ih (fun x hx => h x (List.mem_cons_of_mem _ hx))
    simp [edgesOfNode, hn, hes, bind, Except.bind, pure, Except.pure]

theorem updateEdgesFrom_ok (nodes : List Node) :
    ∀ l : List Node, (∀ n ∈ l, ∀ j ∈ n.neighbors, 0 ≤ j ∧ j < (nodes.length : Int)) →
      ∃ es, updateEdgesFrom nodes l = .ok es := by
  intro l
  induction l with
  | nil => intro _; exact ⟨[], rfl⟩
  | cons n rest ih =>
    intro h
    obtain ⟨e1, he1⟩ := edgesOfNode_ok nodes n n.neighbors (h n (List.mem_cons_self _ _))
    obtain ⟨e2, he2⟩ := ih (fun x hx => h x (List.mem_cons_of_mem _ hx))
    simp [updateEdgesFrom, he1, he2, bind, Except.bind, pure, Except.pure]

/-- On a graph with valid neighbor ids `updateEdges` indexes the store in bounds. -/
theorem updateEdges_ok {nodes : List Node} (hv : ValidGraph nodes) :
    ∃ es, updateEdges nodes = .ok es :=
  updateEdgesFrom_ok nodes nodes hv


/-! ## Hit testing -/

theorem getNodeAtPositionFrom_spec (contains : CircleShape → Vector2 → Bool) (p : Vector2) :
    ∀ (rest : List Node) (i : Int), 0 ≤ i →
      ((getNodeAtPositionFrom contains p rest i = -1 ∧
          ∀ n ∈ rest, contains n.shape p = false) ∨
       (∃ (k : Nat) (n : Node), getNodeAtPositionFrom contains p rest i = i + k ∧
          rest[k]? = some n ∧ contains n.shape p = true ∧
          ∀ (j : Nat) (m : Node), j < k → rest[j]? = some m → contains m.shape p = false)) := by
  intro rest
  induction rest with
  | nil =>
    intro i _
    left
    simp [getNodeAtPositionFrom]
  | cons a rest ih =>
    intro i hi
    by_cases ha : contains a.shape p = true
    · right
      refine ⟨0, a, ?_, by simp, ha, ?_⟩
      · simp [getNodeAtPositionFrom, ha]
      · intro j m hj
        omega
    · have ha' : contains a.shape p = false := by simpa using ha
      rcases ih (i + 1) (by omega) with ⟨h1, h2⟩ | ⟨k, n, h1, h2, h3, h4⟩
      · left
        refine ⟨?_, ?_⟩
        · simp [getNodeAtPositionFrom, ha', h1]
        · intro n hn
          rcases List.mem_cons.mp hn with rfl | hn
          · exact ha'
          · exact h2 n hn
      · right
        refine ⟨k + 1, n, ?_, ?_, h3, ?_⟩
        · simp only [getNodeAtPositionFrom, ha', Bool.false_eq_true, if_false, h1]
          push_cast
          omega
        · simpa using h2
        · intro j m hj hm
          cases j with
          | zero =>
            simp at hm
            subst hm
            exact ha'
          | succ j =>
            simp only [List.getElem?_cons_succ] at hm
            exact h4 j m (by omega) hm

/-- The result of `getNodeAtPosition` is `-1` or an index of the store. -/
theorem getNodeAtPosition_range (contains : CircleShape → Vector2 → Bool) (nodes : List Node)
    (p : Vector2) :
    getNodeAtPosition contains nodes p = -1 ∨
      (0 ≤ getNodeAtPosition contains nodes p ∧
        getNodeAtPosition contains nodes p < (nodes.length : Int)) := by
  rcases getNodeAtPositionFrom_spec contains p nodes 0 (le_refl 0) with ⟨h1, _⟩ | ⟨k, n, h1, h2, _, _⟩
  · left; exact h1
  · right
    have hk : k < nodes.length := by
      by_contra hk
      rw [List.getElem?_eq_none (by omega)] at h2
      cases h2
    unfold getNodeAtPosition
    rw [h1]
    omega

/-- C9: `getNodeAtPosition` returns `-1` exactly when no node's hit region contains the
point, and otherwise the smallest index whose node's hit region contains it; so a point
inside several overlapping regions yields the lowest of their ids. -/
theorem getNodeAtPosition_least (contains : CircleShape → Vector2 → Bool) (nodes : List Node)
    (p : Vector2) :
    (getNodeAtPosition contains nodes p = -1 ↔ ∀ n ∈ nodes, contains n.shape p = false) ∧
    (∀ (i : Nat) (n : Node), nodes[i]? = some n → contains n.shape p = true →
      ∃ (k : Nat) (m : Node), getNodeAtPosition contains nodes p = (k : Int) ∧ k ≤ i ∧
        nodes[k]? = some m ∧ contains m.shape p = true ∧
        ∀ (j : Nat) (m1 : Node), j < k → nodes[j]? = some m1 → contains m1.shape p = false) := by
  have key := getNodeAtPositionFrom_spec contains p nodes 0 (le_refl 0)
  refine ⟨⟨?_, ?_⟩, ?_⟩
  · intro h
    rcases key with ⟨_, h2⟩ | ⟨k, n, h1, _, _, _⟩
    · exact h2
    · unfold getNodeAtPosition at h
      rw [h1] at h
      omega
  · intro h
    rcases key with ⟨h1, _⟩ | ⟨k, n, _, h2, h3, _⟩
    · exact h1
    · have := h n (List.getElem?_mem h2)
      rw [this] at h3
      cases h3
  · intro i n hi hn
    rcases key with ⟨_, h2⟩ | ⟨k, m, h1, h2, h3, h4⟩
    · have := h2 n (List.getElem?_mem hi)
      rw [this] at hn
      cases hn
    · refine ⟨k, m, ?_, ?_, h2, h3, h4⟩
      · unfold getNodeAtPosition
        rw [h1]
        omega
      · by_contra hlt
        have := h4 i n (by omega) hi
        rw [this] at hn
        cases hn



theorem map_set_of_eq {α β : Type} (f : α → β) {l : List α} {k : Nat} {a b : α}
    (h : l[k]? = some a) (hf : f b = f a) : (l.set k b).map f = l.map f := by
  apply List.ext_getElem?
  intro t
  by_cases ht : k = t
  · subst ht
    have hk : k < l.length := by
      by_contra hk
      rw [List.getElem?_eq_none (by omega)] at h
      cases h
    have hka : l[k] = a := by
      rw [List.getElem?_eq_getElem hk] at h
      exact Option.some.inj h
    simp [List.getElem?_set, hk, hf, hka]
  · simp [List.getElem?_set, ht]

/-- The rest of every node is untouched by `pushNeighbor`. -/
theorem pushNeighbor_frame {nodes nodes1 : List Node} {i j : Int}
    (h : pushNeighbor nodes i j = .ok nodes1) :
    nodes1.map Node.id = nodes.map Node.id ∧ nodes1.map Node.shape = nodes.map Node.shape ∧
      nodes1.map Node.position = nodes.map Node.position := by
  obtain ⟨n, _, hn, rfl⟩ := pushNeighbor_eq_ok.mp h
  exact ⟨map_set_of_eq _ hn rfl, map_set_of_eq _ hn rfl, map_set_of_eq _ hn rfl⟩

/-- The `if (isCreatingEdge)` block when the release is over a node other than the source:
both `push_back`s and `updateEdges` are in bounds, and the neighbor lists change as the two
`push_back`s say. -/
theorem finishEdge_add (contains : CircleShape → Vector2 → Bool) (s : State) (p : Vector2)
    (hmode : s.isCreatingEdge = true) (hv : ValidGraph s.nodes)
    (ha0 : 0 ≤ s.selectedNodeId) (ha1 : s.selectedNodeId < (s.nodes.length : Int))
    (ht1 : getNodeAtPosition contains s.nodes p ≠ -1)
    (ht2 : getNodeAtPosition contains s.nodes p ≠ s.selectedNodeId) :
    ∃ s1, finishEdge contains s p = .ok s1 ∧ s1.nodes.length = s.nodes.length ∧
      (∀ t, neighborsOf s1.nodes t =
        if t = getNodeAtPosition contains s.nodes p then
          neighborsOf s.nodes t ++ [s.selectedNodeId]
        else if t = s.selectedNodeId then
          neighborsOf s.nodes t ++ [getNodeAtPosition contains s.nodes p]
        else neighborsOf s.nodes t) ∧
      s1.nodes.map Node.id = s.nodes.map Node.id ∧
      s1.nodes.map Node.shape = s.nodes.map Node.shape ∧
      s1.nodes.map Node.position = s.nodes.map Node.position ∧
      ValidGraph s1.nodes ∧
      s1.isCreatingEdge = false ∧ s1.selectedNodeId = -1 ∧
      s1.isDragging = s.isDragging ∧ s1.draggedNodeId = s.draggedNodeId ∧
      s1.currentTraversal = s.currentTraversal := by
  have hb : 0 ≤ getNodeAtPosition contains s.nodes p ∧
      getNodeAtPosition contains s.nodes p < (s.nodes.length : Int) := by
    rcases getNodeAtPosition_range contains s.nodes p with h | h
    · exact absurd h ht1
    · exact h
  obtain ⟨b, hbdef⟩ : ∃ b, getNodeAtPosition contains s.nodes p = b := ⟨_, rfl⟩
  rw [hbdef] at ht1 ht2 hb ⊢
  obtain ⟨nodes1, h1, hl1, hn1⟩ := pushNeighbor_ok s.nodes b ha0 ha1
  obtain ⟨nodes2, h2, hl2, hn2⟩ :=
    pushNeighbor_ok nodes1 s.selectedNodeId hb.1 (by rw [hl1]; exact hb.2)
  have hnb : ∀ t, neighborsOf nodes2 t =
      if t = b then neighborsOf s.nodes t ++ [s.selectedNodeId]
      else if t = s.selectedNodeId then neighborsOf s.nodes t ++ [b]
      else neighborsOf s.nodes t := by
    intro t
    rw [hn2 t]
    by_cases htb : t = b
    · subst htb
      rw [if_pos rfl, if_pos rfl, hn1 t, if_neg ht2]
    · rw [if_neg htb, if_neg htb, hn1 t]
      by_cases hta : t = s.selectedNodeId
      · rw [if_pos hta, if_pos hta, hta]
      · rw [if_neg hta, if_neg hta]
  have hv2 : ValidGraph nodes2 := by
    rw [validGraph_iff]
    intro i j hj
    rw [hl2, hl1]
    rw [hnb i] at hj
    have hold := (validGraph_iff s.nodes).mp hv i j
    split_ifs at hj with hib hia
    · rcases List.mem_append.mp hj with hj | hj
      · exact hold hj
      · simp at hj; subst hj; exact ⟨ha0, ha1⟩
    · rcases List.mem_append.mp hj with hj | hj
      · exact hold hj
      · simp at hj; subst hj; exact hb
    · exact hold hj
  obtain ⟨es, hes⟩ := updateEdges_ok hv2
  obtain ⟨f1a, f1b, f1c⟩ := pushNeighbor_frame h1
  obtain ⟨f2a, f2b, f2c⟩ := pushNeighbor_frame h2
  refine ⟨{ s with nodes := nodes2, edges := es, isCreatingEdge := false, selectedNodeId := -1 },
    ?_, by simp [hl2, hl1], hnb, by rw [f2a, f1a], by rw [f2b, f1b], by rw [f2c, f1c], hv2,
    rfl, rfl, rfl, rfl, rfl⟩
  unfold finishEdge
  simp [hmode, hbdef, ht1, ht2, h1, h2, hes, bind, Except.bind, pure, Except.pure]

/-- The `if (isCreatingEdge)` block when the release is over the source or over no node:
only the two edge-creation fields change. -/
theorem finishEdge_reject (contains : CircleShape → Vector2 → Bool) (s : State) (p : Vector2)
    (hmode : s.isCreatingEdge = true)
    (ht : getNodeAtPosition contains s.nodes p = -1 ∨
      getNodeAtPosition contains s.nodes p = s.selectedNodeId) :
    finishEdge contains s p = .ok { s with isCreatingEdge := false, selectedNodeId := -1 } := by
  unfold finishEdge
  rcases ht with ht | ht
  · simp [hmode, ht, bind, Except.bind, pure, Except.pure]
  · simp [hmode, ht, bind, Except.bind, pure, Except.pure]

/-- Outside edge-creation mode the block is skipped. -/
theorem finishEdge_idle (contains : CircleShape → Vector2 → Bool) (s : State) (p : Vector2)
    (hmode : s.isCreatingEdge = false) : finishEdge contains s p = .ok s := by
  unfold finishEdge
  simp [hmode]


/-! ## Traversals change fill colours only -/

theorem bind_eq_ok {α β : Type} {x : Except Err α} {f : α → Except Err β} {b : β} :
    (x >>= f) = .ok b ↔ ∃ a, x = .ok a ∧ f a = .ok b := by
  cases x with
  | error e => simp [bind, Except.bind]
  | ok a => simp [bind, Except.bind]

theorem setFillColor_uncoloured {nodes nodes1 : List Node} {i : Int} {c : Color}
    (h : setFillColor nodes i c = .ok nodes1) :
    nodes1.map Node.uncoloured = nodes.map Node.uncoloured := by
  obtain ⟨n, _, hn, rfl⟩ := setFillColor_eq_ok.mp h
  exact map_set_of_eq _ hn rfl

theorem bfsVisitNeighbors_uncoloured :
    ∀ (l : List Int) (st st1 : BfsState), bfsVisitNeighbors l st = .ok st1 →
      st1.nodes.map Node.uncoloured = st.nodes.map Node.uncoloured := by
  intro l
  induction l with
  | nil =>
    intro st st1 h
    simp only [bfsVisitNeighbors, Except.ok.injEq] at h
    rw [h]
  | cons nb rest ih =>
    intro st st1 h
    rw [bfsVisitNeighbors] at h
    split_ifs at h with hmem
    · exact ih st st1 h
    · obtain ⟨nodes1, h1, h2⟩ := bind_eq_ok.mp h
      rw [ih _ st1 h2]
      exact setFillColor_uncoloured h1

theorem bfsStep_uncoloured {st st1 : BfsState} {c : Int} {q1 : List Int}
    (h : bfsStep st c q1 = .ok st1) :
    st1.nodes.map Node.uncoloured = st.nodes.map Node.uncoloured := by
  unfold bfsStep at h
  obtain ⟨nodes1, h1, h2⟩ := bind_eq_ok.mp h
  obtain ⟨cur, _, h4⟩ := bind_eq_ok.mp h2
  rw [bfsVisitNeighbors_uncoloured _ _ _ h4]
  exact setFillColor_uncoloured h1

theorem bfsLoop_uncoloured :
    ∀ (fuel : Nat) (st st1 : BfsState), bfsLoop fuel st = .ok st1 →
      st1.nodes.map Node.uncoloured = st.nodes.map Node.uncoloured := by
  intro fuel
  induction fuel with
  | zero =>
    intro st st1 h
    unfold bfsLoop at h
    cases hq : st.q with
    | nil => rw [hq] at h; simp only [Except.ok.injEq] at h; rw [h]
    | cons c q1 => rw [hq] at h; cases h
  | succ fuel ih =>
    intro st st1 h
    unfold bfsLoop at h
    cases hq : st.q with
    | nil => rw [hq] at h; simp only [Except.ok.injEq] at h; rw [h]
    | cons c q1 =>
      rw [hq] at h
      obtain ⟨st2, h1, h2⟩ := bind_eq_ok.mp h
      rw [ih _ _ h2]
      exact bfsStep_uncoloured h1

/-- A run of `runBFS` changes nothing but fill colours. -/
theorem runBFS_uncoloured {fuel : Nat} {nodes nodes1 : List Node} {start : Int}
    {tr : List Effect} (h : runBFS fuel nodes start = .ok (nodes1, tr)) :
    nodes1.map Node.uncoloured = nodes.map Node.uncoloured := by
  unfold runBFS at h
  obtain ⟨st, h1, h2⟩ := bind_eq_ok.mp h
  simp only [pure, Except.pure, Except.ok.injEq, Prod.mk.injEq] at h2
  rw [← h2.1]
  exact bfsLoop_uncoloured _ _ _ h1

theorem dfsNeighbors_uncoloured (recurse : DfsState → Int → Except Err DfsState)
    (hrec : ∀ st v st1, recurse st v = .ok st1 →
      st1.nodes.map Node.uncoloured = st.nodes.map Node.uncoloured) :
    ∀ (l : List Int) (st st1 : DfsState), dfsNeighbors recurse l st = .ok st1 →
      st1.nodes.map Node.uncoloured = st.nodes.map Node.uncoloured := by
  intro l
  induction l with
  | nil =>
    intro st st1 h
    simp only [dfsNeighbors, Except.ok.injEq] at h
    rw [h]
  | cons nb rest ih =>
    intro st st1 h
    rw [dfsNeighbors] at h
    split_ifs at h with hmem
    · exact ih st st1 h
    · obtain ⟨st2, h1, h2⟩ := bind_eq_ok.mp h
      rw [ih _ _ h2]
      exact hrec _ _ _ h1

/-- A run of `runDFS` changes nothing but fill colours. -/
theorem runDFS_uncoloured :
    ∀ (fuel : Nat) (st : DfsState) (v : Int) (st1 : DfsState), runDFS fuel st v = .ok st1 →
      st1.nodes.map Node.uncoloured = st.nodes.map Node.uncoloured := by
  intro fuel
  induction fuel with
  | zero => intro st v st1 h; cases h
  | succ fuel ih =>
    intro st v st1 h
    unfold runDFS at h
    obtain ⟨nodes1, h1, h2⟩ := bind_eq_ok.mp h
    obtain ⟨cur, _, h4⟩ := bind_eq_ok.mp h2
    rw [dfsNeighbors_uncoloured _ ih _ _ _ h4]
    exact setFillColor_uncoloured h1

theorem map_neighbors_of_uncoloured {nodes nodes1 : List Node}
    (h : nodes1.map Node.uncoloured = nodes.map Node.uncoloured) :
    nodes1.map Node.neighbors = nodes.map Node.neighbors := by
  have := congrArg (List.map Node.neighbors) h
  simpa [List.map_map, Function.comp_def, Node.uncoloured] using this

theorem map_id_of_uncoloured {nodes nodes1 : List Node}
    (h : nodes1.map Node.uncoloured = nodes.map Node.uncoloured) :
    nodes1.map Node.id = nodes.map Node.id := by
  have := congrArg (List.map Node.id) h
  simpa [List.map_map, Function.comp_def, Node.uncoloured] using this

theorem length_of_uncoloured {nodes nodes1 : List Node}
    (h : nodes1.map Node.uncoloured = nodes.map Node.uncoloured) :
    nodes1.length = nodes.length := by
  have := congrArg List.length h
  simpa using this


/-! ## What each handler does to the node store -/

theorem setPosition_eq_ok {nodes nodes1 : List Node} {i : Int} {p : Vector2} :
    setPosition nodes i p = .ok nodes1 ↔
      ∃ n, 0 ≤ i ∧ nodes[i.toNat]? = some n ∧
        nodes1 = nodes.set i.toNat
          { n with position := p, shape := { n.shape with position := p } } := by
  unfold setPosition
  by_cases h : 0 ≤ i
  · cases hn : nodes[i.toNat]? with
    | none => simp [h]
    | some n =>
      simp only [h, if_true, Except.ok.injEq, Option.some.injEq, true_and, exists_eq_left']
      exact eq_comm
  · simp [h]

theorem finishEdge_change (contains : CircleShape → Vector2 → Bool) (s s1 : State)
    (p : Vector2) (h : finishEdge contains s p = .ok s1) :
    StoreChange s s1 ∧ s1.isDragging = s.isDragging ∧ s1.draggedNodeId = s.draggedNodeId ∧
      s1.isCreatingEdge = false := by
  by_cases hmode : s.isCreatingEdge = true
  · by_cases ht : getNodeAtPosition contains s.nodes p = -1 ∨
        getNodeAtPosition contains s.nodes p = s.selectedNodeId
    · rw [finishEdge_reject contains s p hmode ht] at h
      simp only [Except.ok.injEq] at h
      subst h
      exact ⟨StoreChange.same rfl rfl, rfl, rfl, rfl⟩
    · have ht1 : getNodeAtPosition contains s.nodes p ≠ -1 := fun e => ht (Or.inl e)
      have ht2 : getNodeAtPosition contains s.nodes p ≠ s.selectedNodeId :=
        fun e => ht (Or.inr e)
      have hb : 0 ≤ getNodeAtPosition contains s.nodes p ∧
          getNodeAtPosition contains s.nodes p < (s.nodes.length : Int) := by
        rcases getNodeAtPosition_range contains s.nodes p with h | h
        · exact absurd h ht1
        · exact h
      unfold finishEdge at h
      simp only [hmode, if_true, ne_eq, ht1, ht2, not_false_eq_true, and_self] at h
      obtain ⟨nodes1, e1, h4⟩ := bind_eq_ok.mp h
      obtain ⟨nodes2, e2, h5⟩ := bind_eq_ok.mp h4
      obtain ⟨es, _, h6⟩ := bind_eq_ok.mp h5
      simp only [pure, Except.pure, bind, Except.bind, Except.ok.injEq] at h6
      subst h6
      obtain ⟨n1, ha0, hn1, rfl⟩ := pushNeighbor_eq_ok.mp e1
      have ha1 : s.selectedNodeId < (s.nodes.length : Int) := by
        have : s.selectedNodeId.toNat < s.nodes.length := by
          by_contra hk
          rw [List.getElem?_eq_none (by omega)] at hn1
          cases hn1
        omega
      obtain ⟨m1, q1, l1, r1⟩ := pushNeighbor_ok s.nodes (getNodeAtPosition contains s.nodes p) ha0 ha1
      rw [pushNeighbor_eq_ok.mpr ⟨n1, ha0, hn1, rfl⟩] at q1
      simp only [Except.ok.injEq] at q1
      subst q1
      obtain ⟨m2, q2, l2, r2⟩ := pushNeighbor_ok (s.nodes.set s.selectedNodeId.toNat
        { n1 with neighbors := n1.neighbors ++ [getNodeAtPosition contains s.nodes p] })
        s.selectedNodeId hb.1 (by rw [l1]; exact hb.2)
      rw [e2] at q2
      simp only [Except.ok.injEq] at q2
      subst q2
      obtain ⟨f1, _, _⟩ := pushNeighbor_frame e1
      obtain ⟨f2, _, _⟩ := pushNeighbor_frame e2
      refine ⟨StoreChange.linked s.selectedNodeId (getNodeAtPosition contains s.nodes p)
        (by rw [f2, f1]) (by rw [l2, l1]) hmode rfl hb.1 hb.2 ht2 ?_, rfl, rfl, rfl⟩
      intro t
      show neighborsOf nodes2 t = _
      rw [r2 t]
      by_cases htb : t = getNodeAtPosition contains s.nodes p
      · rw [if_pos htb, if_pos htb, r1, if_neg ht2, htb]
      · rw [if_neg htb, if_neg htb, r1 t]
        by_cases hta : t = s.selectedNodeId
        · rw [if_pos hta, if_pos hta, hta]
        · rw [if_neg hta, if_neg hta]
  · have hmode' : s.isCreatingEdge = false := by simpa using hmode
    rw [finishEdge_idle contains s p hmode'] at h
    simp only [Except.ok.injEq] at h
    subst h
    exact ⟨StoreChange.same rfl rfl, rfl, rfl, hmode'⟩


/-! ## The invariant of the interaction state machine -/

theorem idsDense_iff (nodes : List Node) :
    IdsDense nodes ↔ ∀ (k : Nat) (x : Int), (nodes.map Node.id)[k]? = some x → x = (k : Int) := by
  unfold IdsDense
  constructor
  · intro h k x hx
    rw [List.getElem?_map] at hx
    cases hn : nodes[k]? with
    | none => rw [hn] at hx; cases hx
    | some n =>
      rw [hn] at hx
      simp only [Option.map_some', Option.some.injEq] at hx
      rw [← hx]
      exact h k n hn
  · intro h k n hn
    apply h k
    rw [List.getElem?_map, hn]
    rfl

theorem neighborsOf_append_new (nodes : List Node) (x y id : Int) (i : Int) :
    neighborsOf (nodes ++ [Node.new x y id]) i = neighborsOf nodes i := by
  rw [neighborsOf_eq, neighborsOf_eq]
  by_cases h0 : 0 ≤ i
  · simp only [h0, if_true, List.map_append, List.map_cons, List.map_nil]
    by_cases hlt : i.toNat < nodes.length
    · rw [List.getElem?_append_left (by simpa using hlt)]
    · rw [List.getElem?_eq_none (l := List.map Node.neighbors nodes) (by simp; omega)]
      rw [List.getElem?_append_right (by simp; omega)]
      cases hk : i.toNat - (List.map Node.neighbors nodes).length with
      | zero => simp [Node.new]
      | succ k => simp
  · simp [h0]

/-- Every way an event changes the store keeps the store part of the invariant and never
shrinks the store. -/
theorem StoreChange.preserves {s s1 : State} (hc : StoreChange s s1) (hi : Inv s) :
    IdsDense s1.nodes ∧ ValidGraph s1.nodes ∧
      (∀ i j, j ∈ neighborsOf s1.nodes i → i ∈ neighborsOf s1.nodes j) ∧
      (∀ i, i ∉ neighborsOf s1.nodes i) ∧ s.nodes.length ≤ s1.nodes.length ∧
      (∀ (k : Nat) (n : Node), s.nodes[k]? = some n →
        ∃ n1, s1.nodes[k]? = some n1 ∧ n1.id = n.id) := by
  have hkeep : ∀ {l l1 : List Node}, l1.map Node.id = l.map Node.id →
      ∀ (k : Nat) (n : Node), l[k]? = some n → ∃ n1, l1[k]? = some n1 ∧ n1.id = n.id := by
    intro l l1 hid k n hn
    have h1 : (l1.map Node.id)[k]? = some n.id := by rw [hid, List.getElem?_map, hn]; rfl
    rw [List.getElem?_map] at h1
    cases hn1 : l1[k]? with
    | none => rw [hn1] at h1; cases h1
    | some n1 =>
      rw [hn1] at h1
      simp only [Option.map_some', Option.some.injEq] at h1
      exact ⟨n1, rfl, h1⟩
  cases hc with
  | same hid hnb =>
    have hlen : s1.nodes.length = s.nodes.length := by
      have := congrArg List.length hid
      simpa using this
    refine ⟨?_, ?_, ?_, ?_, by omega, hkeep hid⟩
    · rw [idsDense_iff, hid]; exact (idsDense_iff _).mp hi.ids
    · rw [validGraph_iff]
      intro i j hj
      rw [neighborsOf_congr hnb] at hj
      rw [hlen]
      exact (validGraph_iff _).mp hi.valid i j hj
    · intro i j hj
      rw [neighborsOf_congr hnb] at hj ⊢
      exact hi.symm i j hj
    · intro i hii
      rw [neighborsOf_congr hnb] at hii
      exact hi.irrefl i hii
  | added x y hn =>
    rw [hn]
    refine ⟨?_, ?_, ?_, ?_, by simp, ?_⟩
    · intro k n hk
      by_cases hlt : k < s.nodes.length
      · rw [List.getElem?_append_left hlt] at hk
        exact hi.ids k n hk
      · rw [List.getElem?_append_right (by omega)] at hk
        cases hd : k - s.nodes.length with
        | zero =>
          rw [hd] at hk
          simp only [List.getElem?_cons_zero, Option.some.injEq] at hk
          rw [← hk]
          simp only [Node.new]
          have : k = s.nodes.length := by omega
          rw [this]
        | succ d => rw [hd] at hk; simp at hk
    · rw [validGraph_iff]
      intro i j hj
      rw [neighborsOf_append_new] at hj
      have := (validGraph_iff _).mp hi.valid i j hj
      simp only [List.length_append, List.length_singleton]
      push_cast
      omega
    · intro i j hj
      rw [neighborsOf_append_new] at hj ⊢
      exact hi.symm i j hj
    · intro i hii
      rw [neighborsOf_append_new] at hii
      exact hi.irrefl i hii
    · intro k n hk
      have hlt : k < s.nodes.length := by
        by_contra hlt
        rw [List.getElem?_eq_none (by omega)] at hk
        cases hk
      exact ⟨n, by rw [List.getElem?_append_left hlt]; exact hk, rfl⟩
  | linked a b hid hlen hmode ha hb0 hb1 hba hnb =>
    have hsel := hi.sel hmode
    rw [← ha] at hsel
    have hold := (validGraph_iff _).mp hi.valid
    refine ⟨?_, ?_, ?_, ?_, by omega, hkeep hid⟩
    · rw [idsDense_iff, hid]; exact (idsDense_iff _).mp hi.ids
    · rw [validGraph_iff]
      intro i j hj
      rw [hlen]
      rw [hnb i] at hj
      split_ifs at hj with hib hia
      · rcases List.mem_append.mp hj with hj | hj
        · exact hold i j hj
        · simp at hj; subst hj; exact hsel
      · rcases List.mem_append.mp hj with hj | hj
        · exact hold i j hj
        · simp at hj; subst hj; exact ⟨hb0, hb1⟩
      · exact hold i j hj
    · intro i j hj
      rw [hnb i] at hj
      rw [hnb j]
      by_cases hib : i = b
      · rw [if_pos hib] at hj
        rcases List.mem_append.mp hj with hj | hj
        · have hs := hi.symm i j hj
          split_ifs
          · exact List.mem_append_left _ hs
          · exact List.mem_append_left _ hs
          · exact hs
        · simp at hj
          subst hj
          rw [if_neg (Ne.symm hba), if_pos rfl, hib]
          simp
      · rw [if_neg hib] at hj
        by_cases hia : i = a
        · rw [if_pos hia] at hj
          rcases List.mem_append.mp hj with hj | hj
          · have hs := hi.symm i j hj
            split_ifs
            · exact List.mem_append_left _ hs
            · exact List.mem_append_left _ hs
            · exact hs
          · simp at hj
            subst hj
            rw [if_pos rfl, hia]
            simp
        · rw [if_neg hia] at hj
          have hs := hi.symm i j hj
          split_ifs
          · exact List.mem_append_left _ hs
          · exact List.mem_append_left _ hs
          · exact hs
    · intro i hii
      rw [hnb i] at hii
      split_ifs at hii with hib hia
      · rcases List.mem_append.mp hii with h | h
        · exact hi.irrefl i h
        · simp at h; rw [hib] at h; exact hba h
      · rcases List.mem_append.mp hii with h | h
        · exact hi.irrefl i h
        · simp at h; rw [hia] at h; exact hba h.symm
      · exact hi.irrefl i hii


theorem setPosition_frame {nodes nodes1 : List Node} {i : Int} {p : Vector2}
    (h : setPosition nodes i p = .ok nodes1) :
    nodes1.map Node.id = nodes.map Node.id ∧
      nodes1.map Node.neighbors = nodes.map Node.neighbors := by
  obtain ⟨n, _, hn, rfl⟩ := setPosition_eq_ok.mp h
  exact ⟨map_set_of_eq _ hn rfl, map_set_of_eq _ hn rfl⟩

theorem handleMousePress_inv (contains : CircleShape → Vector2 → Bool) (s : State)
    (button : MouseButton) (p : Vector2) (ctrl : Bool) (hi : Inv s) :
    Inv (handleMousePress contains s button p ctrl) ∧
      StoreChange s (handleMousePress contains s button p ctrl) := by
  unfold handleMousePress
  by_cases hb : button = MouseButton.Left
  · rw [if_pos hb]
    by_cases hc : getNodeAtPosition contains s.nodes p = -1
    · simp only [hc, if_true]
      have hch : StoreChange s { s with nodes := s.nodes ++
          [Node.new (p.x - 20) (p.y - 20) s.nodes.length] } := StoreChange.added _ _ rfl
      obtain ⟨h1, h2, h3, h4, h5, _⟩ := hch.preserves hi
      refine ⟨⟨h1, h2, h3, h4, ?_, ?_⟩, hch⟩
      · intro hm
        have := hi.sel hm
        simp only [List.length_append, List.length_singleton]
        push_cast
        omega
      · intro hm
        have := hi.drag hm
        simp only [List.length_append, List.length_singleton]
        push_cast
        omega
    · have hr : 0 ≤ getNodeAtPosition contains s.nodes p ∧
          getNodeAtPosition contains s.nodes p < (s.nodes.length : Int) := by
        rcases getNodeAtPosition_range contains s.nodes p with h | h
        · exact absurd h hc
        · exact h
      simp only [hc, if_false]
      by_cases hctrl : ctrl = true
      · simp only [hctrl, if_true]
        exact ⟨⟨hi.ids, hi.valid, hi.symm, hi.irrefl, fun _ => hr, hi.drag⟩,
          StoreChange.same rfl rfl⟩
      · simp only [hctrl, if_false]
        exact ⟨⟨hi.ids, hi.valid, hi.symm, hi.irrefl, hi.sel, fun _ => hr⟩,
          StoreChange.same rfl rfl⟩
  · rw [if_neg hb]
    exact ⟨hi, StoreChange.same rfl rfl⟩

theorem handleMouseRelease_inv (contains : CircleShape → Vector2 → Bool) (s s1 : State)
    (button : MouseButton) (p : Vector2) (hi : Inv s)
    (h : handleMouseRelease contains s button p = .ok s1) :
    Inv s1 ∧ StoreChange s s1 := by
  unfold handleMouseRelease at h
  by_cases hb : button = MouseButton.Left
  · rw [if_pos hb] at h
    obtain ⟨s2, h2, h3⟩ := bind_eq_ok.mp h
    simp only [pure, Except.pure, Except.ok.injEq] at h3
    subst h3
    obtain ⟨hch, _, _, hm⟩ := finishEdge_change contains s s2 p h2
    have hch1 : StoreChange s { s2 with isDragging := false, draggedNodeId := -1 } := by
      cases hch with
      | same a b => exact StoreChange.same a b
      | added x y a => exact StoreChange.added x y a
      | linked a b c d e f g h i j => exact StoreChange.linked a b c d e f g h i j
    obtain ⟨h1, h2, h3, h4, _, _⟩ := hch1.preserves hi
    refine ⟨⟨h1, h2, h3, h4, ?_, ?_⟩, hch1⟩
    · intro hsel
      rw [show ({ s2 with isDragging := false, draggedNodeId := -1 } : State).isCreatingEdge
        = s2.isCreatingEdge from rfl, hm] at hsel
      cases hsel
    · intro hd
      cases hd
  · rw [if_neg hb] at h
    simp only [Except.ok.injEq] at h
    subst h
    exact ⟨hi, StoreChange.same rfl rfl⟩

theorem handleMouseMove_inv (s s1 : State) (x y : Int) (hi : Inv s)
    (h : handleMouseMove s x y = .ok s1) : Inv s1 ∧ StoreChange s s1 := by
  unfold handleMouseMove at h
  by_cases hc : s.isDragging = true ∧ s.draggedNodeId ≠ -1
  · rw [if_pos hc] at h
    obtain ⟨nodes1, h1, h2⟩ := bind_eq_ok.mp h
    obtain ⟨es, _, h3⟩ := bind_eq_ok.mp h2
    simp only [pure, Except.pure, Except.ok.injEq] at h3
    subst h3
    obtain ⟨f1, f2⟩ := setPosition_frame h1
    have hch : StoreChange s { s with nodes := nodes1, edges := es } := StoreChange.same f1 f2
    have hlen : nodes1.length = s.nodes.length := by
      have := congrArg List.length f1
      simpa using this
    obtain ⟨h1, h2, h3, h4, _, _⟩ := hch.preserves hi
    refine ⟨⟨h1, h2, h3, h4, ?_, ?_⟩, hch⟩
    · intro hm
      show _ ∧ _ < (nodes1.length : Int)
      rw [hlen]
      exact hi.sel hm
    · intro hm
      show _ ∧ _ < (nodes1.length : Int)
      rw [hlen]
      exact hi.drag hm
  · rw [if_neg hc] at h
    simp only [Except.ok.injEq] at h
    subst h
    exact ⟨hi, StoreChange.same rfl rfl⟩

theorem inv_of_recolour {s : State} {nodes1 : List Node} (t : TraversalType) (hi : Inv s)
    (hu : nodes1.map Node.uncoloured = s.nodes.map Node.uncoloured) :
    Inv { s with currentTraversal := t, nodes := nodes1 } ∧
      StoreChange s { s with currentTraversal := t, nodes := nodes1 } := by
  have hch : StoreChange s { s with currentTraversal := t, nodes := nodes1 } :=
    StoreChange.same (map_id_of_uncoloured hu) (map_neighbors_of_uncoloured hu)
  have hlen : nodes1.length = s.nodes.length := length_of_uncoloured hu
  obtain ⟨h1, h2, h3, h4, _, _⟩ := hch.preserves hi
  refine ⟨⟨h1, h2, h3, h4, ?_, ?_⟩, hch⟩
  · intro hm
    show _ ∧ _ < (nodes1.length : Int)
    rw [hlen]
    exact hi.sel hm
  · intro hm
    show _ ∧ _ < (nodes1.length : Int)
    rw [hlen]
    exact hi.drag hm

theorem handleKeyPress_inv (fuel : Nat) (s s1 : State) (code : Key) (tr : List Effect)
    (hi : Inv s) (h : handleKeyPress fuel s code = .ok (s1, tr)) :
    Inv s1 ∧ StoreChange s s1 := by
  unfold handleKeyPress at h
  cases code with
  | B =>
    simp only at h
    split_ifs at h with hne
    · obtain ⟨r, h1, h2⟩ := bind_eq_ok.mp h
      simp only [pure, Except.pure, Except.ok.injEq, Prod.mk.injEq] at h2
      rw [← h2.1]
      exact inv_of_recolour _ hi (runBFS_uncoloured (show runBFS fuel s.nodes 0 = .ok (r.1, r.2) from h1))
    · simp only [Except.ok.injEq, Prod.mk.injEq] at h
      rw [← h.1]
      exact ⟨⟨hi.ids, hi.valid, hi.symm, hi.irrefl, hi.sel, hi.drag⟩, StoreChange.same rfl rfl⟩
  | D =>
    simp only at h
    split_ifs at h with hne
    · obtain ⟨r, h1, h2⟩ := bind_eq_ok.mp h
      simp only [pure, Except.pure, Except.ok.injEq, Prod.mk.injEq] at h2
      rw [← h2.1]
      exact inv_of_recolour _ hi (runDFS_uncoloured _ _ _ _ h1)
    · simp only [Except.ok.injEq, Prod.mk.injEq] at h
      rw [← h.1]
      exact ⟨⟨hi.ids, hi.valid, hi.symm, hi.irrefl, hi.sel, hi.drag⟩, StoreChange.same rfl rfl⟩
  | other c =>
    simp only [Except.ok.injEq, Prod.mk.injEq] at h
    rw [← h.1]
    exact ⟨hi, StoreChange.same rfl rfl⟩

/-- Every handler keeps the invariant, and changes the store in one of the three ways of
`StoreChange`. -/
theorem handleEvent_inv (contains : CircleShape → Vector2 → Bool) (fuel : Nat) (s s1 : State)
    (e : Event) (tr : List Effect) (hi : Inv s)
    (h : handleEvent contains fuel s e = .ok (s1, tr)) : Inv s1 ∧ StoreChange s s1 := by
  cases e with
  | Closed =>
    simp only [handleEvent, Except.ok.injEq, Prod.mk.injEq] at h
    rw [← h.1]
    exact ⟨hi, StoreChange.same rfl rfl⟩
  | MouseButtonPressed button p ctrl =>
    simp only [handleEvent, Except.ok.injEq, Prod.mk.injEq] at h
    rw [← h.1]
    exact handleMousePress_inv contains s button p ctrl hi
  | MouseButtonReleased button p =>
    simp only [handleEvent] at h
    obtain ⟨s2, h1, h2⟩ := bind_eq_ok.mp h
    simp only [pure, Except.pure, Except.ok.injEq, Prod.mk.injEq] at h2
    rw [← h2.1]
    exact handleMouseRelease_inv contains s s2 button p hi h1
  | MouseMoved x y =>
    simp only [handleEvent] at h
    obtain ⟨s2, h1, h2⟩ := bind_eq_ok.mp h
    simp only [pure, Except.pure, Except.ok.injEq, Prod.mk.injEq] at h2
    rw [← h2.1]
    exact handleMouseMove_inv s s2 x y hi h1
  | KeyPressed code =>
    simp only [handleEvent] at h
    exact handleKeyPress_inv fuel s s1 code tr hi h
  | Other =>
    simp only [handleEvent, Except.ok.injEq, Prod.mk.injEq] at h
    rw [← h.1]
    exact ⟨hi, StoreChange.same rfl rfl⟩

theorem inv_initial : Inv State.initial := by
  refine ⟨?_, ?_, ?_, ?_, ?_, ?_⟩
  · intro k n h; simp [State.initial] at h
  · intro n hn; simp [State.initial] at hn
  · intro i j h; simp [State.initial, neighborsOf, nodeAt] at h
  · intro i h; simp [State.initial, neighborsOf, nodeAt] at h
  · intro h; simp [State.initial] at h
  · intro h; simp [State.initial] at h

/-- The invariant holds in every reachable state. -/
theorem reachable_inv (contains : CircleShape → Vector2 → Bool) {s : State}
    (h : Reachable contains s) : Inv s := by
  induction h with
  | initial => exact inv_initial
  | step _ hstep ih => exact (handleEvent_inv contains _ _ _ _ _ ih hstep).1


/-! ## Reachability of concrete states -/

/-- A list of events that the handlers accept leads from a reachable state to a reachable
state. -/
theorem reachable_handleEventList (contains : CircleShape → Vector2 → Bool) (fuel : Nat) :
    ∀ (es : List Event) (s s1 : State), Reachable contains s →
      (handleEventList contains fuel s es).toOption.map Prod.fst = some s1 →
      Reachable contains s1 := by
  intro es
  induction es with
  | nil =>
    intro s s1 hs h
    simp [handleEventList, Except.toOption] at h
    rw [← h]
    exact hs
  | cons e rest ih =>
    intro s s1 hs h
    rw [handleEventList] at h
    cases h1 : handleEvent contains fuel s e with
    | error err => rw [h1] at h; simp [bind, Except.bind, Except.toOption] at h
    | ok r =>
      rw [h1] at h
      simp only [bind, Except.bind] at h
      cases h2 : handleEventList contains fuel r.1 rest with
      | error err => rw [h2] at h; simp [bind, Except.bind, Except.toOption] at h
      | ok r1 =>
        rw [h2] at h
        simp [bind, Except.bind, Except.toOption, pure, Except.pure] at h
        apply ih r.1 s1 (Reachable.step hs (show handleEvent contains fuel s e = .ok (r.1, r.2)
          from h1))
        rw [h2]
        simp [Except.toOption, h]

/-- The events `demoEvents` lead from the initial state to `demoState`. -/
theorem demoState_reachable : Reachable boxContains demoState :=
  reachable_handleEventList boxContains 0 demoEvents State.initial demoState
    Reachable.initial (by decide)

/-- A control-click on node `0` leads from `demoState` to `demoLinking`. -/
theorem demoLinking_reachable : Reachable boxContains demoLinking :=
  reachable_handleEventList boxContains 0
    [Event.MouseButtonPressed MouseButton.Left ⟨0, 1⟩ true] demoState demoLinking
    demoState_reachable (by decide)

/-! ## C5 -/

/-- C5: in every reachable state the neighbor lists are symmetric and without self-loops:
if `j` is an entry of `nodes[i].neighbors` then `j ≠ i`, `nodes[j]` exists and `i` is an entry
of `nodes[j].neighbors`. -/
theorem reachable_neighbors_symmetric (contains : CircleShape → Vector2 → Bool) (s : State)
    (h : Reachable contains s) :
    ∀ (i : Nat) (n : Node), s.nodes[i]? = some n → ∀ j ∈ n.neighbors,
      j ≠ (i : Int) ∧ ∃ m, nodeAt s.nodes j = .ok m ∧ (i : Int) ∈ m.neighbors := by
  have hi := reachable_inv contains h
  intro i n hn j hj
  have hnb : neighborsOf s.nodes (i : Int) = n.neighbors :=
    neighborsOf_of_getElem? (by omega) (by simpa using hn)
  have hj1 : j ∈ neighborsOf s.nodes (i : Int) := by rw [hnb]; exact hj
  refine ⟨?_, ?_⟩
  · intro hji
    rw [hji] at hj1
    exact hi.irrefl _ hj1
  · have hr := (validGraph_iff _).mp hi.valid _ _ hj1
    obtain ⟨m, hm, hm1⟩ := nodeAt_ok_of_lt s.nodes hr.1 hr.2
    refine ⟨m, hm, ?_⟩
    rw [← neighborsOf_of_getElem? hr.1 hm1]
    exact hi.symm _ _ hj1

/-- The previous theorem on the state built by `demoEvents`, which has the edge `(0, 1)`. -/
theorem reachable_neighbors_symmetric_witness :
    Reachable boxContains demoState ∧
    ∀ (i : Nat) (n : Node), demoState.nodes[i]? = some n → ∀ j ∈ n.neighbors,
      j ≠ (i : Int) ∧ ∃ m, nodeAt demoState.nodes j = .ok m ∧ (i : Int) ∈ m.neighbors :=
  ⟨demoState_reachable, reachable_neighbors_symmetric boxContains demoState demoState_reachable⟩

/-! ## C6 -/

/-- C6: a left-button release that ends edge creation from source `a` over a different node
`b` appends `b` to the neighbor list of `a` and `a` to the neighbor list of `b`, and leaves
every other neighbor list and the size of the store unchanged; nothing is assumed about
whether `b` is already a neighbor of `a`. -/
theorem handleMouseRelease_appends_edge (contains : CircleShape → Vector2 → Bool) (s : State)
    (p : Vector2) (a b : Int) (hmode : s.isCreatingEdge = true) (hsel : s.selectedNodeId = a)
    (hv : ValidGraph s.nodes) (ha : 0 ≤ a ∧ a < (s.nodes.length : Int))
    (hb : getNodeAtPosition contains s.nodes p = b) (hb1 : b ≠ -1) (hab : b ≠ a) :
    ∃ s1, handleMouseRelease contains s MouseButton.Left p = .ok s1 ∧
      s1.nodes.length = s.nodes.length ∧
      neighborsOf s1.nodes a = neighborsOf s.nodes a ++ [b] ∧
      neighborsOf s1.nodes b = neighborsOf s.nodes b ++ [a] ∧
      ∀ t, t ≠ a → t ≠ b → neighborsOf s1.nodes t = neighborsOf s.nodes t := by
  subst hsel
  subst hb
  obtain ⟨s1, h1, hlen, hnb, _⟩ := finishEdge_add contains s p hmode hv ha.1 ha.2 hb1 hab
  refine ⟨{ s1 with isDragging := false, draggedNodeId := -1 }, ?_, hlen, ?_, ?_, ?_⟩
  · simp [handleMouseRelease, h1, bind, Except.bind, pure, Except.pure]
  · show neighborsOf s1.nodes _ = _
    rw [hnb, if_neg (Ne.symm hab), if_pos rfl]
  · show neighborsOf s1.nodes _ = _
    rw [hnb, if_pos rfl]
  · intro t hta htb
    show neighborsOf s1.nodes _ = _
    rw [hnb, if_neg htb, if_neg hta]

/-- The previous theorem on a release over node `1` while the edge `(0, 1)` already exists:
both neighbor lists get a duplicate entry. -/
theorem handleMouseRelease_appends_edge_witness :
    ∃ s1, handleMouseRelease boxContains demoLinking MouseButton.Left ⟨101, 101⟩ = .ok s1 ∧
      s1.nodes.length = 3 ∧
      neighborsOf s1.nodes 0 = [1, 1] ∧ neighborsOf s1.nodes 1 = [0, 0] ∧
      ∀ t, t ≠ 0 → t ≠ 1 → neighborsOf s1.nodes t = neighborsOf demoLinking.nodes t :=
  handleMouseRelease_appends_edge boxContains demoLinking ⟨101, 101⟩ 0 1 (by decide)
    (by decide) (by decide) (by decide) (by decide) (by decide) (by decide)

/-! ## C7 -/

/-- C7: in edge-creation mode, a left-button release at a point where hit-testing returns
the source id or no node succeeds and leaves the node store, hence every neighbor list, as
it was. -/
theorem handleMouseRelease_rejects_edge (contains : CircleShape → Vector2 → Bool) (s : State)
    (p : Vector2) (hmode : s.isCreatingEdge = true)
    (ht : getNodeAtPosition contains s.nodes p = s.selectedNodeId ∨
      getNodeAtPosition contains s.nodes p = -1) :
    ∃ s1, handleMouseRelease contains s MouseButton.Left p = .ok s1 ∧ s1.nodes = s.nodes ∧
      ∀ t, neighborsOf s1.nodes t = neighborsOf s.nodes t := by
  let s1 : State :=
    { nodes := s.nodes
      edges := s.edges
      isCreatingEdge := false
      selectedNodeId := -1
      isDragging := false
      draggedNodeId := -1
      currentTraversal := s.currentTraversal }
  refine ⟨s1, ?_, rfl, fun _ => rfl⟩
  simp [s1, handleMouseRelease, finishEdge_reject contains s p hmode ht.symm, bind, Except.bind,
    pure, Except.pure]

/-- The previous theorem on a release over the source node `0` and on a release over empty
space. -/
theorem handleMouseRelease_rejects_edge_witness :
    (∃ s1, handleMouseRelease boxContains demoLinking MouseButton.Left ⟨5, 5⟩ = .ok s1 ∧
      s1.nodes = demoLinking.nodes ∧
      ∀ t, neighborsOf s1.nodes t = neighborsOf demoLinking.nodes t) ∧
    (∃ s1, handleMouseRelease boxContains demoLinking MouseButton.Left ⟨500, 500⟩ = .ok s1 ∧
      s1.nodes = demoLinking.nodes ∧
      ∀ t, neighborsOf s1.nodes t = neighborsOf demoLinking.nodes t) :=
  ⟨handleMouseRelease_rejects_edge boxContains demoLinking ⟨5, 5⟩ (by decide)
      (Or.inl (by decide)),
   handleMouseRelease_rejects_edge boxContains demoLinking ⟨500, 500⟩ (by decide)
      (Or.inr (by decide))⟩

/-! ## C10 -/

/-- C10: in every reachable state the node at index `i` has id `i`, and no event removes a
node or changes the id of an existing node. -/
theorem reachable_ids_are_indices (contains : CircleShape → Vector2 → Bool) (s : State)
    (h : Reachable contains s) :
    (∀ (i : Nat) (n : Node), s.nodes[i]? = some n → n.id = (i : Int)) ∧
    ∀ (fuel : Nat) (e : Event) (s1 : State) (tr : List Effect),
      handleEvent contains fuel s e = .ok (s1, tr) →
      s.nodes.length ≤ s1.nodes.length ∧
      ∀ (i : Nat) (n : Node), s.nodes[i]? = some n →
        ∃ n1, s1.nodes[i]? = some n1 ∧ n1.id = n.id := by
  have hi := reachable_inv contains h
  refine ⟨hi.ids, ?_⟩
  intro fuel e s1 tr hstep
  obtain ⟨_, hch⟩ := handleEvent_inv contains fuel s s1 e tr hi hstep
  obtain ⟨_, _, _, _, h5, h6⟩ := hch.preserves hi
  exact ⟨h5, h6⟩

/-- The previous theorem on the state built by `demoEvents`. -/
theorem reachable_ids_are_indices_witness :
    Reachable boxContains demoState ∧
    (∀ (i : Nat) (n : Node), demoState.nodes[i]? = some n → n.id = (i : Int)) ∧
    ∀ (fuel : Nat) (e : Event) (s1 : State) (tr : List Effect),
      handleEvent boxContains fuel demoState e = .ok (s1, tr) →
      demoState.nodes.length ≤ s1.nodes.length ∧
      ∀ (i : Nat) (n : Node), demoState.nodes[i]? = some n →
        ∃ n1, s1.nodes[i]? = some n1 ∧ n1.id = n.id :=
  ⟨demoState_reachable, reachable_ids_are_indices boxContains demoState demoState_reachable⟩


/-! ## Colours after `setFillColor` -/

theorem fillColorAt_eq_some {nodes : List Node} {i : Int} {c : Color} :
    fillColorAt nodes i = some c ↔ ∃ n, 0 ≤ i ∧ nodes[i.toNat]? = some n ∧ n.shape.fillColor = c := by
  unfold fillColorAt
  cases h : nodeAt nodes i with
  | error e =>
    constructor
    · intro hc; cases hc
    · rintro ⟨n, hn0, hn, _⟩
      rw [nodeAt_eq_ok.mpr ⟨hn0, hn⟩] at h
      cases h
  | ok n =>
    obtain ⟨h0, hn⟩ := nodeAt_eq_ok.mp h
    simp only [Option.some.injEq]
    constructor
    · intro hc; exact ⟨n, h0, hn, hc⟩
    · rintro ⟨m, _, hm, hc⟩
      rw [hn] at hm
      cases hm
      exact hc

/-- In bounds, `setFillColor` succeeds; the result has the new colour at `i`, is the old
store at every other index, and differs from it in fill colours only. -/
theorem setFillColor_ok (nodes : List Node) {i : Int} (c : Color) (h0 : 0 ≤ i)
    (h1 : i < (nodes.length : Int)) :
    ∃ nodes1, setFillColor nodes i c = .ok nodes1 ∧
      nodes1.map Node.uncoloured = nodes.map Node.uncoloured ∧
      fillColorAt nodes1 i = some c ∧
      ∀ k : Nat, (k : Int) ≠ i → nodes1[k]? = nodes[k]? := by
  obtain ⟨n, _, hn⟩ := nodeAt_ok_of_lt nodes h0 h1
  have hlt : i.toNat < nodes.length := by omega
  have hok : setFillColor nodes i c = .ok
      (nodes.set i.toNat { n with shape := { n.shape with fillColor := c } }) :=
    setFillColor_eq_ok.mpr ⟨n, h0, hn, rfl⟩
  refine ⟨_, hok, setFillColor_uncoloured hok, ?_, ?_⟩
  · rw [fillColorAt_eq_some]
    refine ⟨{ n with shape := { n.shape with fillColor := c } }, h0, ?_, rfl⟩
    simp [List.getElem?_set, hlt]
  · intro k hk
    have : i.toNat ≠ k := by omega
    simp [List.getElem?_set, this]

theorem nodeAt_neighbors_of_uncoloured {nodes nodes1 : List Node}
    (hu : nodes1.map Node.uncoloured = nodes.map Node.uncoloured) {i : Int} {n : Node}
    (h : nodeAt nodes1 i = .ok n) : n.neighbors = neighborsOf nodes i := by
  rw [← neighborsOf_congr (map_neighbors_of_uncoloured hu) i]
  obtain ⟨h0, hn⟩ := nodeAt_eq_ok.mp h
  exact (neighborsOf_of_getElem? h0 hn).symm

/-! ## Effects -/

theorem colouredWith_append (c : Color) (t1 t2 : List Effect) :
    colouredWith c (t1 ++ t2) = colouredWith c t1 ++ colouredWith c t2 := by
  unfold colouredWith
  exact List.filterMap_append _ _ _

theorem frames_append (t1 t2 : List Effect) : frames (t1 ++ t2) = frames t1 ++ frames t2 := by
  unfold frames
  exact List.filterMap_append _ _ _

/-! ## The inner loop of `runBFS` -/

/-- With all entries of the neighbor list in bounds the inner loop succeeds.  It enqueues,
in order, the entries `new` not yet in `visited` (each once), inserts them into `visited`,
colours no node green, and changes the store at the indices in `new` only. -/
theorem bfsVisitNeighbors_spec :
    ∀ (l : List Int) (st : BfsState), (∀ x ∈ l, 0 ≤ x ∧ x < (st.nodes.length : Int)) →
      ∃ (st1 : BfsState) (new : List Int) (t : List Effect),
        bfsVisitNeighbors l st = .ok st1 ∧
        st1.q = st.q ++ new ∧ st1.visited = new.reverse ++ st.visited ∧ new.Nodup ∧
        (∀ x ∈ new, x ∈ l ∧ x ∉ st.visited) ∧ (∀ x ∈ l, x ∈ st.visited ∨ x ∈ new) ∧
        st1.nodes.map Node.uncoloured = st.nodes.map Node.uncoloured ∧
        (∀ k : Nat, (k : Int) ∉ new → st1.nodes[k]? = st.nodes[k]?) ∧
        st1.trace = st.trace ++ t ∧ colouredWith Color.Green t = [] := by
  intro l
  induction l with
  | nil =>
    intro st _
    exact ⟨st, [], [], rfl, by simp, by simp, List.nodup_nil, by simp, by simp, rfl,
      fun _ _ => rfl, by simp, rfl⟩
  | cons x rest ih =>
    intro st hl
    have hrest : ∀ y ∈ rest, 0 ≤ y ∧ y < (st.nodes.length : Int) :=
      fun y hy => hl y (List.mem_cons_of_mem _ hy)
    by_cases hx : x ∈ st.visited
    · obtain ⟨st1, new, t, h1, h2, h3, h4, h5, h6, h7, h8, h9, h10⟩ := ih st hrest
      refine ⟨st1, new, t, ?_, h2, h3, h4, ?_, ?_, h7, h8, h9, h10⟩
      · rw [bfsVisitNeighbors, if_pos hx]; exact h1
      · intro y hy; exact ⟨List.mem_cons_of_mem _ (h5 y hy).1, (h5 y hy).2⟩
      · intro y hy
        rcases List.mem_cons.mp hy with rfl | hy
        · exact Or.inl hx
        · exact h6 y hy
    · obtain ⟨hx0, hx1⟩ := hl x (List.mem_cons_self _ _)
      obtain ⟨nodes1, e1, e2, _, e4⟩ := setFillColor_ok st.nodes Color.Yellow hx0 hx1
      have hlen : nodes1.length = st.nodes.length := length_of_uncoloured e2
      obtain ⟨st1, new, t, h1, h2, h3, h4, h5, h6, h7, h8, h9, h10⟩ := ih
        { nodes := nodes1
          q := st.q ++ [x]
          visited := st.visited.insert x
          trace := st.trace ++ [Effect.setFillColor x Color.Yellow,
                                Effect.render (shapes nodes1)] }
        (by intro y hy; show _ ∧ _ < (nodes1.length : Int); rw [hlen]; exact hrest y hy)
      simp only [List.insert_of_not_mem hx] at h3 h5 h6
      refine ⟨st1, x :: new, [Effect.setFillColor x Color.Yellow,
        Effect.render (shapes nodes1)] ++ t, ?_, ?_, ?_, ?_, ?_, ?_, ?_, ?_, ?_, ?_⟩
      · rw [bfsVisitNeighbors, if_neg hx]
        simp only [e1, bind, Except.bind]
        exact h1
      · rw [h2]; simp
      · rw [h3]; simp
      · refine List.nodup_cons.mpr ⟨?_, h4⟩
        intro hxn
        exact (h5 x hxn).2 (List.mem_cons_self _ _)
      · intro y hy
        rcases List.mem_cons.mp hy with rfl | hy
        · exact ⟨List.mem_cons_self _ _, hx⟩
        · exact ⟨List.mem_cons_of_mem _ (h5 y hy).1,
            fun hv => (h5 y hy).2 (List.mem_cons_of_mem _ hv)⟩
      · intro y hy
        rcases List.mem_cons.mp hy with rfl | hy
        · exact Or.inr (List.mem_cons_self _ _)
        · rcases h6 y hy with h | h
          · rcases List.mem_cons.mp h with rfl | h
            · exact Or.inr (List.mem_cons_self _ _)
            · exact Or.inl h
          · exact Or.inr (List.mem_cons_of_mem _ h)
      · rw [h7]; exact e2
      · intro k hk
        rw [h8 k (fun h => hk (List.mem_cons_of_mem _ h))]
        exact e4 k (fun h => hk (h ▸ List.mem_cons_self _ _))
      · rw [h9]; simp
      · rw [colouredWith_append, h10]
        simp [colouredWith]


/-! ## Reachability and distance -/

theorem reach_refl (nodes : List Node) (a : Int) : Reach nodes a a := ⟨0, ReachIn.refl a⟩

theorem reach_step {nodes : List Node} {a b c : Int} (h : Reach nodes a b)
    (hc : c ∈ neighborsOf nodes b) : Reach nodes a c := by
  obtain ⟨k, hk⟩ := h
  exact ⟨k + 1, ReachIn.step hk hc⟩

theorem exists_isDist {nodes : List Node} {v : Int} (h : Reach nodes 0 v) :
    ∃ d, IsDist nodes v d := by
  classical
  exact ⟨Nat.find h, Nat.find_spec h, fun k hk => Nat.find_min' h hk⟩

theorem isDist_unique {nodes : List Node} {v : Int} {d1 d2 : Nat} (h1 : IsDist nodes v d1)
    (h2 : IsDist nodes v d2) : d1 = d2 :=
  Nat.le_antisymm (h1.2 _ h2.1) (h2.2 _ h1.1)

theorem exists_distSpec (nodes : List Node) : ∃ dist, DistSpec nodes dist := by
  classical
  refine ⟨fun v => if h : Reach nodes 0 v then Classical.choose (exists_isDist h) else 0, ?_⟩
  intro v hv
  simp only [hv, dif_pos]
  exact Classical.choose_spec (exists_isDist hv)

theorem DistSpec.step {nodes : List Node} {dist : Int → Nat} (hD : DistSpec nodes dist)
    {v w : Int} (hv : Reach nodes 0 v) (hw : w ∈ neighborsOf nodes v) :
    dist w ≤ dist v + 1 :=
  (hD w (reach_step hv hw)).2 _ (ReachIn.step (hD v hv).1 hw)

theorem DistSpec.pred {nodes : List Node} {dist : Int → Nat} (hD : DistSpec nodes dist)
    {w : Int} {k : Nat} (hw : Reach nodes 0 w) (hk : dist w = k + 1) :
    ∃ u, Reach nodes 0 u ∧ dist u = k ∧ w ∈ neighborsOf nodes u := by
  have h1 := (hD w hw).1
  rw [hk] at h1
  cases h1 with
  | step hu hn =>
    rename_i u
    have hru : Reach nodes 0 u := ⟨k, hu⟩
    refine ⟨u, hru, ?_, hn⟩
    have h2 := (hD u hru).2 k hu
    have h3 := hD.step hru hn
    omega

theorem DistSpec.eq_zero {nodes : List Node} {dist : Int → Nat} (hD : DistSpec nodes dist)
    {w : Int} (hw : Reach nodes 0 w) (hk : dist w = 0) : w = 0 := by
  have h1 := (hD w hw).1
  rw [hk] at h1
  cases h1
  rfl

/-! ## The loop invariant of `runBFS` -/

theorem fillColorAt_congr {nodes nodes1 : List Node} {i : Int}
    (h : nodes1[i.toNat]? = nodes[i.toNat]?) : fillColorAt nodes1 i = fillColorAt nodes i := by
  unfold fillColorAt nodeAt
  rw [h]

/-- One iteration of the loop keeps the invariant and dequeues `c`. -/
theorem bfsStep_inv {nodes0 : List Node} {dist : Int → Nat} (hv : ValidGraph nodes0)
    (hD : DistSpec nodes0 dist) {st : BfsState} {c : Int} {q1 : List Int}
    (hi : BfsInv nodes0 dist st) (hq : st.q = c :: q1) :
    ∃ (st1 : BfsState) (nodesG : List Node) (t : List Effect), bfsStep st c q1 = .ok st1 ∧
      BfsInv nodes0 dist st1 ∧
      colouredWith Color.Green st1.trace = colouredWith Color.Green st.trace ++ [c] ∧
      setFillColor st.nodes c Color.Green = .ok nodesG ∧
      st1.trace = st.trace ++ ([Effect.setFillColor c Color.Green,
        Effect.render (shapes nodesG), Effect.sleep 500] ++ t) := by
  have hlen : st.nodes.length = nodes0.length := length_of_uncoloured hi.unc
  have hcq : c ∈ colouredWith Color.Green st.trace ++ st.q := by
    rw [hq]; exact List.mem_append_right _ (List.mem_cons_self _ _)
  have hcv : c ∈ st.visited := hi.perm.subset hcq
  obtain ⟨hc0, hc1⟩ := hi.vis_range c hcv
  obtain ⟨nodes1, e1, e2, e3, e4⟩ := setFillColor_ok st.nodes Color.Green hc0
    (by rw [hlen]; exact hc1)
  have hlen1 : nodes1.length = nodes0.length := by rw [length_of_uncoloured e2, hlen]
  obtain ⟨cur, hcur, _⟩ := nodeAt_ok_of_lt nodes1 hc0 (by rw [hlen1]; exact hc1)
  have hunc1 : nodes1.map Node.uncoloured = nodes0.map Node.uncoloured := by rw [e2, hi.unc]
  have hnb : cur.neighbors = neighborsOf nodes0 c := nodeAt_neighbors_of_uncoloured hunc1 hcur
  have hrange : ∀ x ∈ cur.neighbors, 0 ≤ x ∧ x < (nodes1.length : Int) := by
    intro x hx
    rw [hlen1]
    rw [hnb] at hx
    exact (validGraph_iff _).mp hv c x hx
  obtain ⟨st1, new, t, h1, h2, h3, h4, h5, h6, h7, h8, h9, h10⟩ :=
    bfsVisitNeighbors_spec cur.neighbors
      { nodes := nodes1
        q := q1
        visited := st.visited
        trace := st.trace ++ [Effect.setFillColor c Color.Green,
                              Effect.render (shapes nodes1), Effect.sleep 500] } hrange
  simp only at h2 h3 h5 h6 h7 h8 h9
  have hdone : colouredWith Color.Green st1.trace =
      colouredWith Color.Green st.trace ++ [c] := by
    rw [h9, colouredWith_append, colouredWith_append, h10]
    simp [colouredWith]
  have hS : colouredWith Color.Green st1.trace ++ st1.q =
      (colouredWith Color.Green st.trace ++ st.q) ++ new := by
    rw [hdone, h2, hq]; simp
  have hreachc : Reach nodes0 0 c := hi.reach c hcv
  -- every newly discovered node is one layer below `c`
  have hnewdist : ∀ x ∈ new, dist x = dist c + 1 := by
    intro x hx
    obtain ⟨hxl, hxv⟩ := h5 x hx
    rw [hnb] at hxl
    have hle := hD.step hreachc hxl
    have hgt : ¬ dist x ≤ dist c := fun hle' =>
      hxv (hi.complete c q1 hq x (reach_step hreachc hxl) hle')
    omega
  have hsorted : (colouredWith Color.Green st1.trace ++ st1.q).Pairwise
      fun u v => dist u ≤ dist v := by
    rw [hS, List.pairwise_append]
    refine ⟨hi.sorted, ?_, ?_⟩
    · rw [List.pairwise_iff_forall_sublist]
      intro a b hab
      have ha := hnewdist a (hab.subset (List.mem_cons_self _ _))
      have hb := hnewdist b (hab.subset (List.mem_cons_of_mem _ (List.mem_cons_self _ _)))
      omega
    · intro a ha b hb
      have := hi.window c q1 hq a ha
      have := hnewdist b hb
      omega
  have hvis_sub : ∀ x ∈ st.visited, x ∈ st1.visited := by
    intro x hx; rw [h3]; exact List.mem_append_right _ hx
  have hclosed : ∀ v ∈ colouredWith Color.Green st1.trace, ∀ w ∈ neighborsOf nodes0 v,
      w ∈ st1.visited := by
    intro v hvd w hw
    rw [hdone] at hvd
    rcases List.mem_append.mp hvd with hvd | hvd
    · exact hvis_sub w (hi.closed v hvd w hw)
    · simp only [List.mem_singleton] at hvd
      subst hvd
      rw [← hnb] at hw
      rw [h3]
      rcases h6 w hw with h | h
      · exact List.mem_append_right _ h
      · exact List.mem_append_left _ (List.mem_reverse.mpr h)
  have hperm : (colouredWith Color.Green st1.trace ++ st1.q).Perm st1.visited := by
    rw [hS, h3]
    exact (List.perm_append_comm.trans
      (List.Perm.append (List.reverse_perm new).symm hi.perm))
  -- the head of the new queue is at most one layer below `c`
  have hhead : ∀ c1 q2, st1.q = c1 :: q2 → dist c ≤ dist c1 ∧ dist c1 ≤ dist c + 1 := by
    intro c1 q2 hq2
    have hc1q : c1 ∈ q1 ++ new := by rw [← h2, hq2]; exact List.mem_cons_self _ _
    constructor
    · have hp := hsorted
      rw [hdone, List.pairwise_append] at hp
      exact hp.2.2 c (List.mem_append_right _ (List.mem_singleton_self c)) c1
        (by rw [hq2]; exact List.mem_cons_self _ _)
    · rcases List.mem_append.mp hc1q with h | h
      · exact hi.window c q1 hq c1 (by
          rw [hq]; exact List.mem_append_right _ (List.mem_cons_of_mem _ h))
      · exact le_of_eq (hnewdist c1 h)
  refine ⟨st1, nodes1, t, ?_, ?_, hdone, e1, by rw [h9]; simp⟩
  · unfold bfsStep
    simp only [e1, hcur, bind, Except.bind]
    exact h1
  · refine ⟨by rw [h7]; exact hunc1, ?_, ?_, hperm, ?_, ?_, ?_, hclosed, hsorted, ?_, ?_,
      hvis_sub 0 hi.start⟩
    · intro v hvv
      rw [h3] at hvv
      rcases List.mem_append.mp hvv with h | h
      · have := hrange v (h5 v (List.mem_reverse.mp h)).1
        rw [hlen1] at this
        exact this
      · exact hi.vis_range v h
    · rw [h3]
      refine List.Nodup.append (List.nodup_reverse.mpr h4) hi.vis_nodup ?_
      intro x hx1 hx2
      exact (h5 x (List.mem_reverse.mp hx1)).2 hx2
    · intro k hk
      rw [h3] at hk
      have hk1 : (k : Int) ∉ new := fun h => hk (List.mem_append_left _ (List.mem_reverse.mpr h))
      have hk2 : (k : Int) ∉ st.visited := fun h => hk (List.mem_append_right _ h)
      rw [h8 k hk1, e4 k (fun h => hk2 (h ▸ hcv))]
      exact hi.untouched k hk2
    · intro v hvd
      rw [hdone] at hvd
      have hvv : v ∈ st.visited := by
        rcases List.mem_append.mp hvd with h | h
        · exact hi.perm.subset (List.mem_append_left _ h)
        · simp only [List.mem_singleton] at h; rw [h]; exact hcv
      have hv0 := (hi.vis_range v hvv).1
      have hvn : ((v.toNat : Nat) : Int) ∉ new := by
        rw [Int.toNat_of_nonneg hv0]
        exact fun h => (h5 v h).2 hvv
      rw [fillColorAt_congr (h8 v.toNat hvn)]
      rcases List.mem_append.mp hvd with h | h
      · by_cases hvc : v = c
        · rw [hvc]; exact e3
        · rw [fillColorAt_congr (e4 v.toNat (by rw [Int.toNat_of_nonneg hv0]; exact hvc))]
          exact hi.green v h
      · simp only [List.mem_singleton] at h
        rw [h]; exact e3
    · intro v hvv
      rw [h3] at hvv
      rcases List.mem_append.mp hvv with h | h
      · have := (h5 v (List.mem_reverse.mp h)).1
        rw [hnb] at this
        exact reach_step hreachc this
      · exact hi.reach v h
    · intro c1 q2 hq2 x hx
      obtain ⟨hlo, _⟩ := hhead c1 q2 hq2
      rw [hS] at hx
      rcases List.mem_append.mp hx with h | h
      · have := hi.window c q1 hq x h
        omega
      · have := hnewdist x h
        omega
    · intro c1 q2 hq2 w hw hwd
      obtain ⟨_, hhi⟩ := hhead c1 q2 hq2
      by_cases hwc : dist w ≤ dist c
      · exact hvis_sub w (hi.complete c q1 hq w hw hwc)
      · have hwk : dist w = dist c + 1 := by omega
        obtain ⟨u, hu, hud, hwu⟩ := hD.pred hw hwk
        have huv : u ∈ st.visited := hi.complete c q1 hq u hu (le_of_eq hud)
        have hu' := hi.perm.symm.subset huv
        rw [hq] at hu'
        have hudone : u ∈ colouredWith Color.Green st1.trace := by
          rw [hdone]
          rcases List.mem_append.mp hu' with h | h
          · exact List.mem_append_left _ h
          · rcases List.mem_cons.mp h with h | h
            · rw [h]; exact List.mem_append_right _ (List.mem_singleton_self c)
            · exfalso
              -- `u` is still queued behind the head `c1`, which is a layer further
              have huq : u ∈ st1.q := by rw [h2]; exact List.mem_append_left _ h
              have hp := hsorted
              rw [List.pairwise_append] at hp
              have hpq := hp.2.1
              rw [hq2] at hpq huq
              rcases List.mem_cons.mp huq with h' | h'
              · rw [h'] at hud; omega
              · have := (List.pairwise_cons.mp hpq).1 u h'
                omega
        exact hclosed u hudone w hwu


/-! ## The loop of `runBFS` -/

theorem bfsLoop_nil (fuel : Nat) {st : BfsState} (hq : st.q = []) :
    bfsLoop fuel st = .ok st := by
  cases fuel <;> simp [bfsLoop, hq]

theorem bfsLoop_cons (fuel : Nat) {st : BfsState} {c : Int} {q1 : List Int}
    (hq : st.q = c :: q1) :
    bfsLoop (fuel + 1) st = bfsStep st c q1 >>= bfsLoop fuel := by
  rw [bfsLoop]
  simp [hq]

/-- More fuel does not change the result of the loop. -/
theorem bfsLoop_mono : ∀ (fuel : Nat) (st st1 : BfsState), bfsLoop fuel st = .ok st1 →
    ∀ fuel1, fuel ≤ fuel1 → bfsLoop fuel1 st = .ok st1 := by
  intro fuel
  induction fuel with
  | zero =>
    intro st st1 h fuel1 _
    cases hq : st.q with
    | nil => rw [bfsLoop_nil 0 hq] at h; rw [bfsLoop_nil fuel1 hq]; exact h
    | cons c q1 => simp [bfsLoop, hq] at h
  | succ fuel ih =>
    intro st st1 h fuel1 hle
    cases hq : st.q with
    | nil => rw [bfsLoop_nil _ hq] at h; rw [bfsLoop_nil fuel1 hq]; exact h
    | cons c q1 =>
      rw [bfsLoop_cons fuel hq] at h
      obtain ⟨st2, h1, h2⟩ := bind_eq_ok.mp h
      obtain ⟨f, rfl⟩ : ∃ f, fuel1 = f + 1 := ⟨fuel1 - 1, by omega⟩
      rw [bfsLoop_cons f hq]
      exact bind_eq_ok.mpr ⟨st2, h1, ih st2 st1 h2 f (by omega)⟩

theorem nodup_range_length_le {l : List Int} {n : Nat} (hnd : l.Nodup)
    (hr : ∀ v ∈ l, 0 ≤ v ∧ v < (n : Int)) : l.length ≤ n := by
  have h1 : (l.map Int.toNat).Nodup := by
    refine List.Nodup.map_on ?_ hnd
    intro x hx y hy hxy
    have := (hr x hx).1
    have := (hr y hy).1
    omega
  have h2 : l.map Int.toNat ⊆ List.range n := by
    intro k hk
    obtain ⟨v, hv, rfl⟩ := List.mem_map.mp hk
    have := hr v hv
    exact List.mem_range.mpr (by omega)
  have := (List.subperm_of_subset h1 h2).length_le
  simpa using this

/-- From a state satisfying the invariant the loop terminates, within one iteration per
node not yet dequeued, in a state that satisfies the invariant and has an empty queue. -/
theorem bfsLoop_inv {nodes0 : List Node} {dist : Int → Nat} (hv : ValidGraph nodes0)
    (hD : DistSpec nodes0 dist) :
    ∀ (fuel : Nat) (st : BfsState), BfsInv nodes0 dist st →
      nodes0.length - (colouredWith Color.Green st.trace).length ≤ fuel →
      ∃ (st1 : BfsState) (t : List Effect), bfsLoop fuel st = .ok st1 ∧
        BfsInv nodes0 dist st1 ∧ st1.q = [] ∧ st1.trace = st.trace ++ t := by
  intro fuel
  induction fuel with
  | zero =>
    intro st hi hf
    have hlen := nodup_range_length_le hi.vis_nodup hi.vis_range
    rw [← hi.perm.length_eq, List.length_append] at hlen
    have hq : st.q = [] := List.length_eq_zero.mp (by omega)
    exact ⟨st, [], bfsLoop_nil 0 hq, hi, hq, by simp⟩
  | succ fuel ih =>
    intro st hi hf
    cases hq : st.q with
    | nil => exact ⟨st, [], bfsLoop_nil _ hq, hi, hq, by simp⟩
    | cons c q1 =>
      obtain ⟨st2, nodesG, t2, h1, hi2, hd2, _, ht2⟩ := bfsStep_inv hv hD hi hq
      obtain ⟨st1, t1, h3, hi1, hq1, ht1⟩ := ih st2 hi2 (by
        rw [hd2, List.length_append, List.length_singleton]; omega)
      refine ⟨st1, _, ?_, hi1, hq1, by rw [ht1, ht2, List.append_assoc]⟩
      rw [bfsLoop_cons fuel hq]
      exact bind_eq_ok.mpr ⟨st2, h1, h3⟩

theorem bfsInv_start {nodes0 : List Node} {dist : Int → Nat} (hne : nodes0 ≠ [])
    (hD : DistSpec nodes0 dist) :
    BfsInv nodes0 dist
      { nodes := nodes0, q := [0], visited := ([] : List Int).insert 0, trace := [] } := by
  have hpos : 0 < nodes0.length := List.length_pos.mpr hne
  have hd0 : dist 0 = 0 := by
    have := (hD 0 (reach_refl _ 0)).2 0 (ReachIn.refl 0)
    omega
  refine ⟨rfl, ?_, ?_, ?_, ?_, ?_, ?_, ?_, ?_, ?_, ?_, by simp⟩
  · intro v hvv
    simp at hvv
    subst hvv
    omega
  · simp
  · simp [colouredWith]
  · intro k _; rfl
  · intro v hvv; simp [colouredWith] at hvv
  · intro v hvv
    simp at hvv
    subst hvv
    exact reach_refl _ 0
  · intro v hvv; simp [colouredWith] at hvv
  · simp [colouredWith]
  · intro c q1 hq x hx
    simp only [List.cons.injEq] at hq
    simp [colouredWith] at hx
    rw [hx, ← hq.1]
    omega
  · intro c q1 hq w hw hwd
    simp only [List.cons.injEq] at hq
    rw [← hq.1, hd0] at hwd
    have := hD.eq_zero hw (by omega)
    simp [this]

/-- What a run of `runBFS(0)` on a non-empty store with valid neighbor ids does.  It returns
for every fuel of at least one unit per node.  The nodes it colours green, in order, are
pairwise distinct, are exactly the nodes reachable from node `0`, and are in order of
non-decreasing `dist`; they are green in the final store; the final store is the initial one
at every other index and differs from it in fill colours only; and the first three effects
are the colouring of node `0`, a frame and a pause. -/
theorem runBFS_spec {nodes : List Node} {dist : Int → Nat} (hne : nodes ≠ [])
    (hv : ValidGraph nodes) (hD : DistSpec nodes dist) :
    ∃ (nodes1 : List Node) (tr : List Effect),
      (∀ fuel, nodes.length ≤ fuel → runBFS fuel nodes 0 = .ok (nodes1, tr)) ∧
      (colouredWith Color.Green tr).Nodup ∧
      (∀ v, v ∈ colouredWith Color.Green tr ↔ Reach nodes 0 v) ∧
      (colouredWith Color.Green tr).Pairwise (fun u v => dist u ≤ dist v) ∧
      (∀ v ∈ colouredWith Color.Green tr, fillColorAt nodes1 v = some Color.Green) ∧
      (∀ k : Nat, (k : Int) ∉ colouredWith Color.Green tr → nodes1[k]? = nodes[k]?) ∧
      nodes1.map Node.uncoloured = nodes.map Node.uncoloured ∧
      ∃ (nodesG : List Node) (t : List Effect),
        setFillColor nodes 0 Color.Green = .ok nodesG ∧
        tr = [Effect.setFillColor 0 Color.Green, Effect.render (shapes nodesG),
          Effect.sleep 500] ++ t := by
  have hpos : 0 < nodes.length := List.length_pos.mpr hne
  obtain ⟨st2, nodesG, t2, hs1, hi2, hd2, hG, ht2⟩ :=
    bfsStep_inv hv hD (bfsInv_start hne hD) (rfl : _ = (0 : Int) :: [])
  obtain ⟨st1, t, hl1, hi, hq, ht1⟩ := bfsLoop_inv hv hD (nodes.length - 1) st2 hi2 (by
    rw [hd2]; simp [colouredWith])
  have h1 : bfsLoop nodes.length
      { nodes := nodes, q := [0], visited := ([] : List Int).insert 0, trace := [] }
      = .ok st1 := by
    obtain ⟨f, hf⟩ : ∃ f, nodes.length = f + 1 := ⟨nodes.length - 1, by omega⟩
    rw [hf, bfsLoop_cons f (rfl : _ = (0 : Int) :: [])]
    refine bind_eq_ok.mpr ⟨st2, hs1, ?_⟩
    have : nodes.length - 1 = f := by omega
    rw [← this]
    exact hl1
  have hperm := hi.perm
  rw [hq, List.append_nil] at hperm
  have hclosed : ∀ k a v, ReachIn nodes k a v → a ∈ st1.visited → v ∈ st1.visited := by
    intro k a v hk
    induction hk with
    | refl => exact fun h => h
    | step _ hn ih => exact fun h => hi.closed _ (hperm.symm.subset (ih h)) _ hn
  refine ⟨st1.nodes, st1.trace, ?_, ?_, ?_, ?_, hi.green, ?_, hi.unc,
    ⟨nodesG, t2 ++ t, hG, by rw [ht1, ht2]; simp⟩⟩
  · intro fuel hf
    unfold runBFS
    exact bind_eq_ok.mpr ⟨st1, bfsLoop_mono _ _ _ h1 fuel hf, rfl⟩
  · exact hperm.nodup_iff.mpr hi.vis_nodup
  · intro v
    constructor
    · intro h; exact hi.reach v (hperm.subset h)
    · rintro ⟨k, hk⟩; exact hperm.symm.subset (hclosed k 0 v hk hi.start)
  · have := hi.sorted
    rw [hq, List.append_nil] at this
    exact this
  · intro k hk
    exact hi.untouched k (fun h => hk (hperm.symm.subset h))


theorem DfsPost.refl (nodes0 : List Node) (st : DfsState) : DfsPost nodes0 st [] st :=
  ⟨rfl, by simp, by simp, List.nodup_nil, by simp, by simp, by simp,
    fun _ _ => rfl, by simp⟩

theorem DfsPost.pre {nodes0 : List Node} {st st1 : DfsState} {block : List Int}
    (hp : DfsPost nodes0 st block st1) (h : DfsPre nodes0 st) : DfsPre nodes0 st1 := by
  refine ⟨by rw [hp.unc, h.unc], ?_, ?_⟩
  · rw [hp.visited]
    refine List.Nodup.append (List.nodup_reverse.mpr hp.nodup) h.vis_nodup ?_
    intro x hx1 hx2
    exact hp.fresh x (List.mem_reverse.mp hx1) hx2
  · intro v hv
    rw [hp.visited] at hv
    rcases List.mem_append.mp hv with hv | hv
    · exact hp.range v (List.mem_reverse.mp hv)
    · exact h.vis_range v hv

theorem DfsPost.comp {nodes0 : List Node} {st st2 st1 : DfsState} {b1 b2 : List Int}
    (h1 : DfsPost nodes0 st b1 st2) (h2 : DfsPost nodes0 st2 b2 st1) :
    DfsPost nodes0 st (b1 ++ b2) st1 := by
  have hsub : ∀ x ∈ b1, x ∈ st2.visited := by
    intro x hx; rw [h1.visited]; exact List.mem_append_left _ (List.mem_reverse.mpr hx)
  refine ⟨by rw [h2.unc, h1.unc], by rw [h2.visited, h1.visited]; simp,
    by rw [h2.red, h1.red]; simp, ?_, ?_, ?_, ?_, ?_, ?_⟩
  · refine List.Nodup.append h1.nodup h2.nodup ?_
    intro x hx1 hx2
    exact h2.fresh x hx2 (hsub x hx1)
  · intro x hx
    rcases List.mem_append.mp hx with hx | hx
    · exact h1.fresh x hx
    · intro hv
      apply h2.fresh x hx
      rw [h1.visited]; exact List.mem_append_right _ hv
  · intro x hx
    rcases List.mem_append.mp hx with hx | hx
    · exact h1.range x hx
    · exact h2.range x hx
  · intro x hx
    rcases List.mem_append.mp hx with hx | hx
    · have hx0 := (h1.range x hx).1
      have hxn : ((x.toNat : Nat) : Int) ∉ b2 := by
        rw [Int.toNat_of_nonneg hx0]
        exact fun h => h2.fresh x h (hsub x hx)
      rw [fillColorAt_congr (h2.untouched x.toNat hxn)]
      exact h1.coloured x hx
    · exact h2.coloured x hx
  · intro k hk
    rw [h2.untouched k (fun h => hk (List.mem_append_right _ h)),
      h1.untouched k (fun h => hk (List.mem_append_left _ h))]
  · intro x hx
    rcases List.mem_append.mp hx with hx | hx
    · exact h1.reach x hx
    · exact h2.reach x hx

/-- The `for` loop of `runDFS`, given that the recursive call meets its specification. -/
theorem dfsNeighbors_spec {nodes0 : List Node} (fuel : Nat)
    (recurse : DfsState → Int → Except Err DfsState)
    (hrec : ∀ (st : DfsState) (v : Int), DfsPre nodes0 st →
      nodes0.length - st.visited.length ≤ fuel → v ∉ st.visited →
      (0 ≤ v ∧ v < (nodes0.length : Int)) → Reach nodes0 0 v →
      ∃ (st1 : DfsState) (c : CallForest) (t : List Effect), recurse st v = .ok st1 ∧
        DfsPost nodes0 st (v :: c.preorder) st1 ∧
        (∀ y ∈ v :: c.preorder, ∀ w ∈ neighborsOf nodes0 y, w ∈ st1.visited) ∧
        (CallForest.cons v c CallForest.nil).Follows nodes0 ∧
        CallsRun nodes0 st (CallForest.cons v c CallForest.nil) ∧
        st1.trace = st.trace ++ t) :
    ∀ (l : List Int) (st : DfsState), DfsPre nodes0 st →
      nodes0.length - st.visited.length ≤ fuel →
      (∀ x ∈ l, (0 ≤ x ∧ x < (nodes0.length : Int)) ∧ Reach nodes0 0 x) →
      ∃ (st1 : DfsState) (f : CallForest) (t : List Effect),
        dfsNeighbors recurse l st = .ok st1 ∧ DfsPost nodes0 st f.preorder st1 ∧
        (∀ y ∈ f.preorder, ∀ w ∈ neighborsOf nodes0 y, w ∈ st1.visited) ∧
        f.Follows nodes0 ∧ CallsRun nodes0 st f ∧ f.roots.Sublist l ∧
        (∀ x ∈ l, x ∈ st1.visited) ∧ st1.trace = st.trace ++ t := by
  intro l
  induction l with
  | nil =>
    intro st _ _ _
    exact ⟨st, CallForest.nil, [], rfl, DfsPost.refl nodes0 st, by simp [CallForest.preorder],
      trivial, by intro p hp; simp [CallForest.calls] at hp, List.Sublist.refl _, by simp,
      by simp⟩
  | cons x rest ih =>
    intro st hpre hf hl
    have hrest : ∀ y ∈ rest, (0 ≤ y ∧ y < (nodes0.length : Int)) ∧ Reach nodes0 0 y :=
      fun y hy => hl y (List.mem_cons_of_mem _ hy)
    by_cases hx : x ∈ st.visited
    · obtain ⟨st1, f, t, h1, h2, hcl, h3, hcr, h4, h5, h6⟩ := ih st hpre hf hrest
      refine ⟨st1, f, t, ?_, h2, hcl, h3, hcr, h4.trans (List.sublist_cons_self _ _), ?_, h6⟩
      · rw [dfsNeighbors, if_pos hx]; exact h1
      · intro y hy
        rcases List.mem_cons.mp hy with rfl | hy
        · rw [h2.visited]; exact List.mem_append_right _ hx
        · exact h5 y hy
    · obtain ⟨hxr, hxreach⟩ := hl x (List.mem_cons_self _ _)
      obtain ⟨st2, c, t2, e1, e2, ecl, e3, ecr, e4⟩ := hrec st x hpre hf hx hxr hxreach
      have hpre2 := e2.pre hpre
      have hf2 : nodes0.length - st2.visited.length ≤ fuel := by
        rw [e2.visited, List.length_append]; omega
      obtain ⟨st1, g, t1, h1, h2, hcl, h3, hcr, h4, h5, h6⟩ := ih st2 hpre2 hf2 hrest
      refine ⟨st1, CallForest.cons x c g, t2 ++ t1, ?_, ?_, ?_, ?_, ?_, ?_, ?_, ?_⟩
      · rw [dfsNeighbors, if_neg hx]
        exact bind_eq_ok.mpr ⟨st2, e1, h1⟩
      · have := e2.comp h2
        simpa [CallForest.preorder] using this
      · intro y hy w hw
        have hy' : y ∈ (x :: c.preorder) ++ g.preorder := by
          simpa [CallForest.preorder] using hy
        rcases List.mem_append.mp hy' with hy' | hy'
        · rw [h2.visited]
          exact List.mem_append_right _ (ecl y hy' w hw)
        · exact hcl y hy' w hw
      · exact ⟨e3.1, e3.2.1, h3⟩
      · intro p hp
        simp only [CallForest.calls, List.mem_cons, List.mem_append] at hp
        have hfirst : p ∈ (CallForest.cons x c CallForest.nil).calls ∨ p ∈ g.calls := by
          simp only [CallForest.calls, List.mem_cons, List.mem_append, List.append_nil]
          rcases hp with hp | hp | hp
          · exact Or.inl (Or.inl hp)
          · exact Or.inl (Or.inr hp)
          · exact Or.inr hp
        rcases hfirst with hp1 | hp1
        · obtain ⟨pre, post, fl, stp, stp1, a1, a2, a3, a4, a5, a6⟩ := ecr p hp1
          refine ⟨pre, post ++ g.preorder, fl, stp, stp1, ?_, a2, a3, a4, a5, a6⟩
          simp only [CallForest.preorder, List.append_nil] at a1
          simp only [CallForest.preorder]
          rw [← List.cons_append, a1]
          simp
        · obtain ⟨pre, post, fl, stp, stp1, a1, a2, a3, a4, a5, a6⟩ := hcr p hp1
          refine ⟨(x :: c.preorder) ++ pre, post, fl, stp, stp1, ?_, a2, ?_, ?_, a5, a6⟩
          · simp only [CallForest.preorder]
            rw [a1]
            simp
          · rw [a3, e2.visited]
            simp
          · rw [a4, e2.red]
            simp
      · exact List.Sublist.cons₂ _ h4
      · intro y hy
        rcases List.mem_cons.mp hy with rfl | hy
        · rw [h2.visited, e2.visited]
          simp
        · exact h5 y hy
      · rw [h6, e4]; simp


/-- A call of `runDFS` on an unvisited node `v` in bounds, with one unit of fuel for every
node not yet visited, returns.  It visits a block of nodes that starts with `v` and
continues with the calls of its loop. -/
theorem runDFS_spec {nodes0 : List Node} (hv : ValidGraph nodes0) :
    ∀ (fuel : Nat) (st : DfsState) (v : Int), DfsPre nodes0 st →
      nodes0.length - st.visited.length ≤ fuel → v ∉ st.visited →
      (0 ≤ v ∧ v < (nodes0.length : Int)) → Reach nodes0 0 v →
      ∃ (st1 : DfsState) (c : CallForest) (t : List Effect), runDFS fuel st v = .ok st1 ∧
        DfsPost nodes0 st (v :: c.preorder) st1 ∧
        (∀ y ∈ v :: c.preorder, ∀ w ∈ neighborsOf nodes0 y, w ∈ st1.visited) ∧
        (CallForest.cons v c CallForest.nil).Follows nodes0 ∧
        CallsRun nodes0 st (CallForest.cons v c CallForest.nil) ∧
        st1.trace = st.trace ++ t := by
  intro fuel
  induction fuel with
  | zero =>
    intro st v hpre hf hvis hr _
    exfalso
    have hnd : (v :: st.visited).Nodup := List.nodup_cons.mpr ⟨hvis, hpre.vis_nodup⟩
    have := nodup_range_length_le hnd (by
      intro x hx
      rcases List.mem_cons.mp hx with rfl | hx
      · exact hr
      · exact hpre.vis_range x hx)
    simp only [List.length_cons] at this
    omega
  | succ fuel ih =>
    intro st v hpre hf hvis hr hreach
    have hlen : st.nodes.length = nodes0.length := length_of_uncoloured hpre.unc
    obtain ⟨nodes1, e1, e2, e3, e4⟩ := setFillColor_ok st.nodes Color.Red hr.1
      (by rw [hlen]; exact hr.2)
    have hunc1 : nodes1.map Node.uncoloured = nodes0.map Node.uncoloured := by
      rw [e2, hpre.unc]
    have hlen1 : nodes1.length = nodes0.length := length_of_uncoloured hunc1
    obtain ⟨cur, hcur, _⟩ := nodeAt_ok_of_lt nodes1 hr.1 (by rw [hlen1]; exact hr.2)
    have hnb : cur.neighbors = neighborsOf nodes0 v := nodeAt_neighbors_of_uncoloured hunc1 hcur
    -- the state at the start of the loop
    obtain ⟨st0, hst0⟩ : ∃ st0 : DfsState, st0 =
        { nodes := nodes1
          visited := st.visited.insert v
          trace := st.trace ++ [Effect.setFillColor v Color.Red,
                                Effect.render (shapes nodes1), Effect.sleep 500] } := ⟨_, rfl⟩
    have hvis0 : st0.visited = v :: st.visited := by
      rw [hst0]; exact List.insert_of_not_mem hvis
    have hpre0 : DfsPre nodes0 st0 := by
      refine ⟨by rw [hst0]; exact hunc1, ?_, ?_⟩
      · rw [hvis0]; exact List.nodup_cons.mpr ⟨hvis, hpre.vis_nodup⟩
      · intro x hx
        rw [hvis0] at hx
        rcases List.mem_cons.mp hx with rfl | hx
        · exact hr
        · exact hpre.vis_range x hx
    have hstep : DfsPost nodes0 st [v] st0 := by
      refine ⟨by rw [hst0]; exact e2, by rw [hvis0]; rfl, ?_, List.nodup_singleton v, ?_, ?_,
        ?_, ?_, ?_⟩
      · rw [hst0]
        simp [colouredWith_append, colouredWith]
      · intro x hx; simp only [List.mem_singleton] at hx; rw [hx]; exact hvis
      · intro x hx; simp only [List.mem_singleton] at hx; rw [hx]; exact hr
      · intro x hx; simp only [List.mem_singleton] at hx; rw [hx, hst0]; exact e3
      · intro k hk
        rw [hst0]
        exact e4 k (fun h => hk (by simp [h]))
      · intro x hx; simp only [List.mem_singleton] at hx; rw [hx]; exact hreach
    have hf0 : nodes0.length - st0.visited.length ≤ fuel := by
      rw [hvis0, List.length_cons]; omega
    have hl : ∀ x ∈ cur.neighbors,
        (0 ≤ x ∧ x < (nodes0.length : Int)) ∧ Reach nodes0 0 x := by
      intro x hx
      rw [hnb] at hx
      exact ⟨(validGraph_iff _).mp hv v x hx, reach_step hreach hx⟩
    obtain ⟨st1, c, t, h1, h2, hcl, h3, hcr, h4, h5, h6⟩ :=
      dfsNeighbors_spec fuel (runDFS fuel) (ih) cur.neighbors st0 hpre0 hf0 hl
    have hrun : runDFS (fuel + 1) st v = .ok st1 := by
      rw [runDFS]
      simp only [e1, hcur, bind, Except.bind]
      rw [← hst0]
      exact h1
    have hpost : DfsPost nodes0 st (v :: c.preorder) st1 := hstep.comp h2
    refine ⟨st1, c, [Effect.setFillColor v Color.Red, Effect.render (shapes nodes1),
      Effect.sleep 500] ++ t, hrun, hpost, ?_, ?_, ?_, ?_⟩
    · intro y hy w hw
      rcases List.mem_cons.mp hy with rfl | hy
      · rw [← hnb] at hw
        exact h5 w hw
      · exact hcl y hy w hw
    · exact ⟨by rw [← hnb]; exact h4, h3, trivial⟩
    · intro p hp
      simp only [CallForest.calls, List.mem_cons, List.mem_append, List.append_nil,
        List.not_mem_nil, or_false] at hp
      rcases hp with rfl | hp
      · exact ⟨[], [], fuel + 1, st, st1, by simp [CallForest.preorder], hpre.unc, by simp,
          by simp, hrun, by rw [hpost.red]⟩
      · obtain ⟨pre, post, fl, stp, stp1, a1, a2, a3, a4, a5, a6⟩ := hcr p hp
        refine ⟨v :: pre, post, fl, stp, stp1, ?_, a2, ?_, ?_, a5, a6⟩
        · simp only [CallForest.preorder, List.append_nil]
          rw [a1]
          simp
        · rw [a3, hvis0]
          simp
        · rw [a4, hstep.red]
          simp
    · rw [h6, hst0]; simp


theorem dfsNeighbors_mono (r1 r2 : DfsState → Int → Except Err DfsState)
    (h : ∀ st v st1, r1 st v = .ok st1 → r2 st v = .ok st1) :
    ∀ (l : List Int) (st st1 : DfsState), dfsNeighbors r1 l st = .ok st1 →
      dfsNeighbors r2 l st = .ok st1 := by
  intro l
  induction l with
  | nil => intro st st1 h1; exact h1
  | cons x rest ih =>
    intro st st1 h1
    rw [dfsNeighbors] at h1 ⊢
    split_ifs at h1 ⊢ with hx
    · exact ih st st1 h1
    · obtain ⟨st2, e1, e2⟩ := bind_eq_ok.mp h1
      exact bind_eq_ok.mpr ⟨st2, h st x st2 e1, ih st2 st1 e2⟩

/-- More fuel does not change the result of `runDFS`. -/
theorem runDFS_mono : ∀ (fuel : Nat) (st : DfsState) (v : Int) (st1 : DfsState),
    runDFS fuel st v = .ok st1 → ∀ fuel1, fuel ≤ fuel1 → runDFS fuel1 st v = .ok st1 := by
  intro fuel
  induction fuel with
  | zero => intro st v st1 h; cases h
  | succ fuel ih =>
    intro st v st1 h fuel1 hle
    obtain ⟨f, rfl⟩ : ∃ f, fuel1 = f + 1 := ⟨fuel1 - 1, by omega⟩
    rw [runDFS] at h ⊢
    obtain ⟨nodes1, e1, e2⟩ := bind_eq_ok.mp h
    obtain ⟨cur, e3, e4⟩ := bind_eq_ok.mp e2
    refine bind_eq_ok.mpr ⟨nodes1, e1, bind_eq_ok.mpr ⟨cur, e3, ?_⟩⟩
    exact dfsNeighbors_mono _ _ (fun st v st1 h => ih st v st1 h f (by omega)) _ _ _ e4

theorem dfsNeighbors_trace (recurse : DfsState → Int → Except Err DfsState)
    (hrec : ∀ st v st1, recurse st v = .ok st1 → ∃ t, st1.trace = st.trace ++ t) :
    ∀ (l : List Int) (st st1 : DfsState), dfsNeighbors recurse l st = .ok st1 →
      ∃ t, st1.trace = st.trace ++ t := by
  intro l
  induction l with
  | nil =>
    intro st st1 h
    simp only [dfsNeighbors, Except.ok.injEq] at h
    exact ⟨[], by rw [h]; simp⟩
  | cons x rest ih =>
    intro st st1 h
    rw [dfsNeighbors] at h
    split_ifs at h with hx
    · exact ih st st1 h
    · obtain ⟨st2, e1, e2⟩ := bind_eq_ok.mp h
      obtain ⟨t1, ht1⟩ := hrec st x st2 e1
      obtain ⟨t2, ht2⟩ := ih st2 st1 e2
      exact ⟨t1 ++ t2, by rw [ht2, ht1]; simp⟩

/-- Every returning call of `runDFS` starts by colouring its node red, drawing a frame and
pausing. -/
theorem runDFS_trace : ∀ (fuel : Nat) (st : DfsState) (v : Int) (st1 : DfsState),
    runDFS fuel st v = .ok st1 →
    ∃ (nodesR : List Node) (t : List Effect), setFillColor st.nodes v Color.Red = .ok nodesR ∧
      st1.trace = st.trace ++ ([Effect.setFillColor v Color.Red,
        Effect.render (shapes nodesR), Effect.sleep 500] ++ t) := by
  intro fuel
  induction fuel with
  | zero => intro st v st1 h; cases h
  | succ fuel ih =>
    intro st v st1 h
    rw [runDFS] at h
    obtain ⟨nodes1, e1, e2⟩ := bind_eq_ok.mp h
    obtain ⟨cur, _, e4⟩ := bind_eq_ok.mp e2
    obtain ⟨t, ht⟩ := dfsNeighbors_trace (runDFS fuel) (by
      intro st v st1 h
      obtain ⟨_, t, _, ht⟩ := ih st v st1 h
      exact ⟨_, ht⟩) _ _ _ e4
    exact ⟨nodes1, t, e1, by rw [ht]; simp⟩

/-- What a run of `runDFS(0, {})` on a non-empty store with valid neighbor ids does.  It
returns for every fuel of at least one unit per node.  The nodes it colours red, in order,
are pairwise distinct, are exactly the nodes reachable from node `0`, and are the preorder
of a forest of calls with the single root `0` that follows the neighbor lists; they are red
in the final store; the final store is the initial one at every other index and differs
from it in fill colours only. -/
theorem runDFS_top_spec {nodes : List Node} (hne : nodes ≠ []) (hv : ValidGraph nodes) :
    ∃ (st1 : DfsState) (c : CallForest),
      (∀ fuel, nodes.length ≤ fuel →
        runDFS fuel { nodes := nodes, visited := [], trace := [] } 0 = .ok st1) ∧
      colouredWith Color.Red st1.trace = (CallForest.cons 0 c CallForest.nil).preorder ∧
      (CallForest.cons 0 c CallForest.nil).Follows nodes ∧
      CallsRun nodes { nodes := nodes, visited := [], trace := [] }
        (CallForest.cons 0 c CallForest.nil) ∧
      (colouredWith Color.Red st1.trace).Nodup ∧
      (∀ v, v ∈ colouredWith Color.Red st1.trace ↔ Reach nodes 0 v) ∧
      (∀ v ∈ colouredWith Color.Red st1.trace, fillColorAt st1.nodes v = some Color.Red) ∧
      (∀ k : Nat, (k : Int) ∉ colouredWith Color.Red st1.trace → st1.nodes[k]? = nodes[k]?) ∧
      st1.nodes.map Node.uncoloured = nodes.map Node.uncoloured := by
  have hpos : 0 < nodes.length := List.length_pos.mpr hne
  obtain ⟨st1, c, t, h1, h2, hcl, h3, hcr, _⟩ := runDFS_spec hv nodes.length
    { nodes := nodes, visited := [], trace := [] } 0
    ⟨rfl, List.nodup_nil, by simp⟩ (by simp) (by simp) ⟨le_refl 0, by omega⟩ (reach_refl _ 0)
  have hred : colouredWith Color.Red st1.trace = 0 :: c.preorder := by
    rw [h2.red]; simp [colouredWith]
  have hvis : ∀ x, x ∈ st1.visited ↔ x ∈ (0 : Int) :: c.preorder := by
    intro x; rw [h2.visited]; simp [or_comm]
  have hclosed : ∀ k a v, ReachIn nodes k a v → a ∈ st1.visited → v ∈ st1.visited := by
    intro k a v hk
    induction hk with
    | refl => exact fun h => h
    | step _ hn ih => exact fun h => hcl _ ((hvis _).mp (ih h)) _ hn
  refine ⟨st1, c, ?_, ?_, h3, hcr, ?_, ?_, ?_, ?_, h2.unc⟩
  · intro fuel hf
    exact runDFS_mono _ _ _ _ h1 fuel hf
  · rw [hred]; simp [CallForest.preorder]
  · rw [hred]; exact h2.nodup
  · intro v
    rw [hred]
    constructor
    · intro h; exact h2.reach v h
    · rintro ⟨k, hk⟩
      exact (hvis v).mp (hclosed k 0 v hk ((hvis 0).mpr (List.mem_cons_self _ _)))
  · rw [hred]; exact h2.coloured
  · rw [hred]; exact h2.untouched


/-! ## Consequences for whole runs -/

theorem runBFS_mono {fuel fuel1 : Nat} {nodes : List Node} {start : Int}
    {r : List Node × List Effect} (h : runBFS fuel nodes start = .ok r) (hle : fuel ≤ fuel1) :
    runBFS fuel1 nodes start = .ok r := by
  unfold runBFS at h ⊢
  obtain ⟨st, h1, h2⟩ := bind_eq_ok.mp h
  exact bind_eq_ok.mpr ⟨st, bfsLoop_mono _ _ _ h1 fuel1 hle, h2⟩

theorem runBFS_ok_ne_nil {fuel : Nat} {nodes : List Node} {r : List Node × List Effect}
    (h : runBFS fuel nodes 0 = .ok r) : nodes ≠ [] := by
  intro hnil
  subst hnil
  unfold runBFS at h
  obtain ⟨st, h1, _⟩ := bind_eq_ok.mp h
  cases fuel with
  | zero => simp [bfsLoop] at h1
  | succ f =>
    rw [bfsLoop_cons f (rfl : _ = (0 : Int) :: [])] at h1
    obtain ⟨st2, h2, _⟩ := bind_eq_ok.mp h1
    unfold bfsStep at h2
    obtain ⟨n1, h3, _⟩ := bind_eq_ok.mp h2
    simp [setFillColor] at h3

theorem runDFS_ok_ne_nil {fuel : Nat} {nodes : List Node} {vis : List Int}
    {tr : List Effect} {st1 : DfsState}
    (h : runDFS fuel { nodes := nodes, visited := vis, trace := tr } 0 = .ok st1) :
    nodes ≠ [] := by
  intro hnil
  subst hnil
  cases fuel with
  | zero => cases h
  | succ f =>
    rw [runDFS] at h
    obtain ⟨n1, h3, _⟩ := bind_eq_ok.mp h
    simp [setFillColor] at h3

theorem fillColorAt_of_getElem?_eq {P : Int → Prop} {nodes nodes1 : List Node}
    (h : ∀ k : Nat, ¬ P (k : Int) → nodes1[k]? = nodes[k]?) (v : Int) (hv : ¬ P v) :
    fillColorAt nodes1 v = fillColorAt nodes v := by
  by_cases h0 : 0 ≤ v
  · apply fillColorAt_congr
    apply h
    rw [Int.toNat_of_nonneg h0]
    exact hv
  · simp [fillColorAt, nodeAt, h0]

theorem CallForest.preorder_eq_calls (f : CallForest) :
    f.preorder = f.calls.map Prod.fst := by
  induction f with
  | nil => rfl
  | cons v c s ihc ihs => simp [CallForest.preorder, CallForest.calls, ihc, ihs]

/-! ## C1 -/

/-- C1: on a non-empty store with valid neighbor ids `runBFS(0)` returns; the nodes it
colours green are exactly the nodes reachable from node `0` along neighbor lists, they are
green in the final store, and every other node has its colour, indeed is, as before the
run. -/
theorem runBFS_visits_reachable (nodes : List Node) (hne : nodes ≠ [])
    (hv : ValidGraph nodes) :
    ∃ (nodes1 : List Node) (tr : List Effect),
      (∀ fuel, nodes.length ≤ fuel → runBFS fuel nodes 0 = .ok (nodes1, tr)) ∧
      (∀ v, v ∈ colouredWith Color.Green tr ↔ Reach nodes 0 v) ∧
      (∀ v, Reach nodes 0 v → fillColorAt nodes1 v = some Color.Green) ∧
      (∀ v, ¬ Reach nodes 0 v → fillColorAt nodes1 v = fillColorAt nodes v) ∧
      (∀ k : Nat, ¬ Reach nodes 0 (k : Int) → nodes1[k]? = nodes[k]?) := by
  obtain ⟨dist, hD⟩ := exists_distSpec nodes
  obtain ⟨nodes1, tr, h1, _, h3, _, h5, h6, _⟩ := runBFS_spec hne hv hD
  have h7 : ∀ k : Nat, ¬ Reach nodes 0 (k : Int) → nodes1[k]? = nodes[k]? :=
    fun k hk => h6 k (fun h => hk ((h3 _).mp h))
  exact ⟨nodes1, tr, h1, h3, fun v hr => h5 v ((h3 v).mpr hr),
    fillColorAt_of_getElem?_eq h7, h7⟩

/-- The previous theorem on nodes `0`, `1`, `2` with the single edge `(0, 1)`: the run
colours `0` and `1` and leaves node `2` white. -/
theorem runBFS_visits_reachable_witness :
    (runBFS 3 demoNodes 0).toOption.map (fun r => (colouredWith Color.Green r.2,
      r.1.map fun n => n.shape.fillColor)) =
      some ([0, 1], [Color.Green, Color.Green, Color.White]) ∧
    ∃ (nodes1 : List Node) (tr : List Effect),
      (∀ fuel, demoNodes.length ≤ fuel → runBFS fuel demoNodes 0 = .ok (nodes1, tr)) ∧
      (∀ v, v ∈ colouredWith Color.Green tr ↔ Reach demoNodes 0 v) ∧
      (∀ v, Reach demoNodes 0 v → fillColorAt nodes1 v = some Color.Green) ∧
      (∀ v, ¬ Reach demoNodes 0 v → fillColorAt nodes1 v = fillColorAt demoNodes v) ∧
      (∀ k : Nat, ¬ Reach demoNodes 0 (k : Int) → nodes1[k]? = demoNodes[k]?) :=
  ⟨by decide, runBFS_visits_reachable demoNodes (by decide) (by decide)⟩

/-! ## C2 -/

/-- C2: on a non-empty store with valid neighbor ids `runDFS(0, {})` returns; the nodes it
colours are the nodes `runBFS(0)` colours green, namely the nodes reachable from node `0`;
they are red in the final store, and every other node has its colour, indeed is, as before
the run. -/
theorem runDFS_visits_reachable (nodes : List Node) (hne : nodes ≠ [])
    (hv : ValidGraph nodes) :
    ∃ (st1 : DfsState) (nodesB : List Node) (trB : List Effect),
      (∀ fuel, nodes.length ≤ fuel →
        runDFS fuel { nodes := nodes, visited := [], trace := [] } 0 = .ok st1) ∧
      (∀ fuel, nodes.length ≤ fuel → runBFS fuel nodes 0 = .ok (nodesB, trB)) ∧
      (∀ v, v ∈ colouredWith Color.Red st1.trace ↔ v ∈ colouredWith Color.Green trB) ∧
      (∀ v, v ∈ colouredWith Color.Red st1.trace ↔ Reach nodes 0 v) ∧
      (∀ v, Reach nodes 0 v → fillColorAt st1.nodes v = some Color.Red) ∧
      (∀ v, ¬ Reach nodes 0 v → fillColorAt st1.nodes v = fillColorAt nodes v) ∧
      (∀ k : Nat, ¬ Reach nodes 0 (k : Int) → st1.nodes[k]? = nodes[k]?) := by
  obtain ⟨dist, hD⟩ := exists_distSpec nodes
  obtain ⟨nodesB, trB, b1, _, b3, _⟩ := runBFS_spec hne hv hD
  obtain ⟨st1, c, d1, _, _, _, _, d5, d6, d7, _⟩ := runDFS_top_spec hne hv
  have h7 : ∀ k : Nat, ¬ Reach nodes 0 (k : Int) → st1.nodes[k]? = nodes[k]? :=
    fun k hk => d7 k (fun h => hk ((d5 _).mp h))
  exact ⟨st1, nodesB, trB, d1, b1, fun v => (d5 v).trans (b3 v).symm, d5,
    fun v hr => d6 v ((d5 v).mpr hr), fillColorAt_of_getElem?_eq h7, h7⟩

/-- The previous theorem on nodes `0`, `1`, `2` with the single edge `(0, 1)`: the run
colours `0` and `1` and leaves node `2` white. -/
theorem runDFS_visits_reachable_witness :
    (runDFS 3 { nodes := demoNodes, visited := [], trace := [] } 0).toOption.map
      (fun r => (colouredWith Color.Red r.trace, r.nodes.map fun n => n.shape.fillColor)) =
      some ([0, 1], [Color.Red, Color.Red, Color.White]) ∧
    ∃ (st1 : DfsState) (nodesB : List Node) (trB : List Effect),
      (∀ fuel, demoNodes.length ≤ fuel →
        runDFS fuel { nodes := demoNodes, visited := [], trace := [] } 0 = .ok st1) ∧
      (∀ fuel, demoNodes.length ≤ fuel → runBFS fuel demoNodes 0 = .ok (nodesB, trB)) ∧
      (∀ v, v ∈ colouredWith Color.Red st1.trace ↔ v ∈ colouredWith Color.Green trB) ∧
      (∀ v, v ∈ colouredWith Color.Red st1.trace ↔ Reach demoNodes 0 v) ∧
      (∀ v, Reach demoNodes 0 v → fillColorAt st1.nodes v = some Color.Red) ∧
      (∀ v, ¬ Reach demoNodes 0 v → fillColorAt st1.nodes v = fillColorAt demoNodes v) ∧
      (∀ k : Nat, ¬ Reach demoNodes 0 (k : Int) → st1.nodes[k]? = demoNodes[k]?) :=
  ⟨by decide, runDFS_visits_reachable demoNodes (by decide) (by decide)⟩

/-! ## C3 -/

/-- C3: on a store with valid neighbor ids, whenever `runBFS(0)` returns, the sequence of
nodes it dequeues and colours green has no node twice, every node in it has a shortest-path
distance from node `0`, and these distances are non-decreasing along the sequence; and on a
non-empty store it does return. -/
theorem runBFS_order_layered (nodes : List Node) (hv : ValidGraph nodes) :
    (∀ (fuel : Nat) (nodes1 : List Node) (tr : List Effect),
      runBFS fuel nodes 0 = .ok (nodes1, tr) →
      (colouredWith Color.Green tr).Nodup ∧
      (∀ v ∈ colouredWith Color.Green tr, ∃ d, IsDist nodes v d) ∧
      (colouredWith Color.Green tr).Pairwise
        (fun u v => ∀ du dv, IsDist nodes u du → IsDist nodes v dv → du ≤ dv)) ∧
    (nodes ≠ [] → ∃ (nodes1 : List Node) (tr : List Effect),
      ∀ fuel, nodes.length ≤ fuel → runBFS fuel nodes 0 = .ok (nodes1, tr)) := by
  obtain ⟨dist, hD⟩ := exists_distSpec nodes
  refine ⟨?_, ?_⟩
  · intro fuel nodes1 tr hrun
    have hne := runBFS_ok_ne_nil hrun
    obtain ⟨nodes2, tr2, h1, h2, h3, h4, _⟩ := runBFS_spec hne hv hD
    have e1 := runBFS_mono hrun (Nat.le_max_left fuel nodes.length)
    rw [h1 _ (Nat.le_max_right fuel nodes.length)] at e1
    simp only [Except.ok.injEq, Prod.mk.injEq] at e1
    rw [← e1.2]
    refine ⟨h2, fun v hvm => ⟨dist v, hD v ((h3 v).mp hvm)⟩, ?_⟩
    refine (List.pairwise_iff_forall_sublist.mpr ?_)
    intro a b hab du dv hdu hdv
    have hle := List.pairwise_iff_forall_sublist.mp h4 hab
    have ha : a ∈ colouredWith Color.Green tr2 := hab.subset (List.mem_cons_self _ _)
    have hb : b ∈ colouredWith Color.Green tr2 :=
      hab.subset (List.mem_cons_of_mem _ (List.mem_cons_self _ _))
    rw [isDist_unique hdu (hD a ((h3 a).mp ha)), isDist_unique hdv (hD b ((h3 b).mp hb))]
    exact hle
  · intro hne
    obtain ⟨nodes2, tr2, h1, _⟩ := runBFS_spec hne hv hD
    exact ⟨nodes2, tr2, h1⟩

/-- The previous theorem on `layeredNodes`: the run dequeues `0`, `1`, `3`, `2`, at distances
`0`, `1`, `1`, `2`. -/
theorem runBFS_order_layered_witness :
    (runBFS 4 layeredNodes 0).toOption.map (fun r => colouredWith Color.Green r.2) =
      some [0, 1, 3, 2] ∧
    (∀ (fuel : Nat) (nodes1 : List Node) (tr : List Effect),
      runBFS fuel layeredNodes 0 = .ok (nodes1, tr) →
      (colouredWith Color.Green tr).Nodup ∧
      (∀ v ∈ colouredWith Color.Green tr, ∃ d, IsDist layeredNodes v d) ∧
      (colouredWith Color.Green tr).Pairwise
        (fun u v => ∀ du dv, IsDist layeredNodes u du → IsDist layeredNodes v dv → du ≤ dv)) ∧
    (layeredNodes ≠ [] → ∃ (nodes1 : List Node) (tr : List Effect),
      ∀ fuel, layeredNodes.length ≤ fuel → runBFS fuel layeredNodes 0 = .ok (nodes1, tr)) :=
  ⟨by decide, runBFS_order_layered layeredNodes (by decide)⟩

/-! ## C4 -/

/-- C4: on a store with valid neighbor ids, whenever `runDFS(0, {})` returns, the sequence
of nodes it visits has no node twice and is the preorder of a forest of calls with the
single root `0`, in which every call makes its recursive calls on entries of its node's
neighbor list in list order.  For every visited node `v` the sequence is `pre`, then the
block of `v`, then `post`, where the block starts with `v` and is exactly what the call of
`runDFS` on `v` visits when it is made with the nodes of `pre` visited; the blocks of the
calls of one loop follow each other in the order of the neighbor list.  On a non-empty
store the run does return. -/
theorem runDFS_order_preorder (nodes : List Node) (hv : ValidGraph nodes) :
    (∀ (fuel : Nat) (st1 : DfsState),
      runDFS fuel { nodes := nodes, visited := [], trace := [] } 0 = .ok st1 →
      (colouredWith Color.Red st1.trace).Nodup ∧
      ∃ c : CallForest,
        colouredWith Color.Red st1.trace = (CallForest.cons 0 c CallForest.nil).preorder ∧
        (CallForest.cons 0 c CallForest.nil).Follows nodes ∧
        ∀ v ∈ colouredWith Color.Red st1.trace,
          ∃ (calls : CallForest) (pre post : List Int) (fuelv : Nat) (stv stv1 : DfsState),
            (v, calls) ∈ (CallForest.cons 0 c CallForest.nil).calls ∧
            colouredWith Color.Red st1.trace = pre ++ (v :: calls.preorder) ++ post ∧
            stv.nodes.map Node.uncoloured = nodes.map Node.uncoloured ∧
            stv.visited = pre.reverse ∧ colouredWith Color.Red stv.trace = pre ∧
            runDFS fuelv stv v = .ok stv1 ∧
            colouredWith Color.Red stv1.trace = pre ++ (v :: calls.preorder)) ∧
    (nodes ≠ [] → ∃ st1 : DfsState, ∀ fuel, nodes.length ≤ fuel →
      runDFS fuel { nodes := nodes, visited := [], trace := [] } 0 = .ok st1) := by
  refine ⟨?_, ?_⟩
  · intro fuel st1 hrun
    have hne := runDFS_ok_ne_nil hrun
    obtain ⟨st2, c, h1, h2, h3, hcr, h4, _⟩ := runDFS_top_spec hne hv
    have e1 := runDFS_mono _ _ _ _ hrun _ (Nat.le_max_left fuel nodes.length)
    rw [h1 _ (Nat.le_max_right fuel nodes.length)] at e1
    simp only [Except.ok.injEq] at e1
    rw [← e1]
    refine ⟨h4, c, h2, h3, ?_⟩
    intro v hvm
    rw [h2, CallForest.preorder_eq_calls] at hvm
    obtain ⟨p, hp, hpv⟩ := List.mem_map.mp hvm
    obtain ⟨pre, post, fl, stp, stp1, a1, a2, a3, a4, a5, a6⟩ := hcr p hp
    simp only [List.append_nil, colouredWith, List.filterMap_nil, List.nil_append] at a3 a4
    refine ⟨p.2, pre, post, fl, stp, stp1, ?_, ?_, a2, a3, a4, ?_, ?_⟩
    · rw [← hpv]; exact hp
    · rw [h2, a1, hpv]
    · rw [← hpv]; exact a5
    · rw [a6, ← hpv]
      unfold colouredWith
      rw [a4]
  · intro hne
    obtain ⟨st2, c, h1, _⟩ := runDFS_top_spec hne hv
    exact ⟨st2, h1⟩

/-- The previous theorem on `layeredNodes`: the run visits `0`, `1`, `2`, `3`, finishing the
branch below node `1` before the later neighbor `3` of node `0`. -/
theorem runDFS_order_preorder_witness :
    (runDFS 4 { nodes := layeredNodes, visited := [], trace := [] } 0).toOption.map
      (fun r => colouredWith Color.Red r.trace) = some [0, 1, 2, 3] ∧
    (∀ (fuel : Nat) (st1 : DfsState),
      runDFS fuel { nodes := layeredNodes, visited := [], trace := [] } 0 = .ok st1 →
      (colouredWith Color.Red st1.trace).Nodup ∧
      ∃ c : CallForest,
        colouredWith Color.Red st1.trace = (CallForest.cons 0 c CallForest.nil).preorder ∧
        (CallForest.cons 0 c CallForest.nil).Follows layeredNodes ∧
        ∀ v ∈ colouredWith Color.Red st1.trace,
          ∃ (calls : CallForest) (pre post : List Int) (fuelv : Nat) (stv stv1 : DfsState),
            (v, calls) ∈ (CallForest.cons 0 c CallForest.nil).calls ∧
            colouredWith Color.Red st1.trace = pre ++ (v :: calls.preorder) ++ post ∧
            stv.nodes.map Node.uncoloured = layeredNodes.map Node.uncoloured ∧
            stv.visited = pre.reverse ∧ colouredWith Color.Red stv.trace = pre ∧
            runDFS fuelv stv v = .ok stv1 ∧
            colouredWith Color.Red stv1.trace = pre ++ (v :: calls.preorder)) ∧
    (layeredNodes ≠ [] → ∃ st1 : DfsState, ∀ fuel, layeredNodes.length ≤ fuel →
      runDFS fuel { nodes := layeredNodes, visited := [], trace := [] } 0 = .ok st1) :=
  ⟨by decide, runDFS_order_preorder layeredNodes (by decide)⟩


/-- Key `B` leads from `demoState` to `demoVisited`. -/
theorem demoVisited_reachable : Reachable boxContains demoVisited :=
  reachable_handleEventList boxContains 3 [Event.KeyPressed Key.B] demoState demoVisited
    demoState_reachable (by decide)

/-! ## C8 -/

/-- C8, as stated, fails: after `demoEvents` and a run of key `B`, which colours node `1`
green, the first frame drawn by a second run of key `B` still shows node `1` green, not
white. -/
theorem handleKeyPress_no_reset :
    ¬ ∀ (s : State), Reachable boxContains s →
      s.nodes ≠ [] → ∀ (code : Key), code = Key.B ∨ code = Key.D →
      ∀ (fuel : Nat) (s1 : State) (tr : List Effect),
        handleKeyPress fuel s code = .ok (s1, tr) →
        ∀ fr, (frames tr).head? = some fr →
          ∀ (i : Nat) (sh : CircleShape), 1 ≤ i → fr[i]? = some sh →
            sh.fillColor = Color.White := by
  intro h
  have hfirst : (handleKeyPress 3 demoVisited Key.B).toOption.map
      (fun r => (frames r.2).head?) = some (some
        [⟨⟨-20, -20⟩, Color.Green⟩, ⟨⟨80, 80⟩, Color.Green⟩, ⟨⟨180, 80⟩, Color.White⟩]) := by
    decide
  cases hrun : handleKeyPress 3 demoVisited Key.B with
  | error e =>
    rw [hrun] at hfirst
    simp [Except.toOption] at hfirst
  | ok r =>
    rw [hrun] at hfirst
    simp only [Except.toOption, Option.map_some', Option.some.injEq] at hfirst
    have h1 := h demoVisited demoVisited_reachable (by decide) Key.B (Or.inl rfl) 3
      r.1 r.2 hrun _ hfirst 1 ⟨⟨80, 80⟩, Color.Green⟩ (le_refl 1) (by decide)
    exact absurd h1 (by decide)

/-- C8, amended: pressing key `B` or key `D` on a non-empty graph resets nothing.  In every
reachable state the run returns, and in the first frame it draws node `0` has the colour of
the traversal (green for `B`, red for `D`) while every other node is drawn as it was before
the key press. -/
theorem handleKeyPress_first_frame (contains : CircleShape → Vector2 → Bool) (s : State)
    (hr : Reachable contains s) (hne : s.nodes ≠ []) (code : Key)
    (hcode : code = Key.B ∨ code = Key.D) :
    ∃ (s1 : State) (tr : List Effect) (fr : List CircleShape) (rest : List (List CircleShape)),
      (∀ fuel, s.nodes.length ≤ fuel → handleKeyPress fuel s code = .ok (s1, tr)) ∧
      frames tr = fr :: rest ∧ fr.length = s.nodes.length ∧
      (fr[0]?).map CircleShape.fillColor =
        some (if code = Key.B then Color.Green else Color.Red) ∧
      ∀ i : Nat, 1 ≤ i → fr[i]? = (shapes s.nodes)[i]? := by
  have hv := (reachable_inv contains hr).valid
  have hframe : ∀ (c : Color) (nodesC : List Node),
      setFillColor s.nodes 0 c = .ok nodesC →
      (shapes nodesC).length = s.nodes.length ∧
      ((shapes nodesC)[0]?).map CircleShape.fillColor = some c ∧
      ∀ i : Nat, 1 ≤ i → (shapes nodesC)[i]? = (shapes s.nodes)[i]? := by
    intro c nodesC hset
    obtain ⟨n, _, hn, rfl⟩ := setFillColor_eq_ok.mp hset
    have hpos : 0 < s.nodes.length := List.length_pos.mpr hne
    refine ⟨by simp [shapes], ?_, ?_⟩
    · simp [shapes, List.getElem?_set, hpos]
    · intro i hi
      have : 0 ≠ i := by omega
      simp [shapes, List.getElem?_set, this]
  rcases hcode with rfl | rfl
  · obtain ⟨dist, hD⟩ := exists_distSpec s.nodes
    obtain ⟨nodes1, tr, h1, _, _, _, _, _, _, nodesG, t, hG, htr⟩ := runBFS_spec hne hv hD
    obtain ⟨f1, f2, f3⟩ := hframe Color.Green nodesG hG
    refine ⟨{ s with currentTraversal := TraversalType.BFS, nodes := nodes1 }, tr,
      shapes nodesG, frames t, ?_, ?_, f1, by simpa using f2, f3⟩
    · intro fuel hf
      simp [handleKeyPress, hne, h1 fuel hf, bind, Except.bind, pure, Except.pure]
    · rw [htr, frames_append]
      simp [frames]
  · obtain ⟨st1, c, h1, _⟩ := runDFS_top_spec hne hv
    obtain ⟨nodesR, t, hR, htr⟩ := runDFS_trace _ _ _ _ (h1 _ (le_refl _))
    obtain ⟨f1, f2, f3⟩ := hframe Color.Red nodesR hR
    refine ⟨{ s with currentTraversal := TraversalType.DFS, nodes := st1.nodes }, st1.trace,
      shapes nodesR, frames t, ?_, ?_, f1, by simpa using f2, f3⟩
    · intro fuel hf
      simp [handleKeyPress, hne, h1 fuel hf, bind, Except.bind, pure, Except.pure]
    · rw [htr, frames_append]
      simp [frames]

/-- The previous theorem on key `D` pressed after a run of key `B`. -/
theorem handleKeyPress_first_frame_witness :
    ∃ (s1 : State) (tr : List Effect) (fr : List CircleShape) (rest : List (List CircleShape)),
      (∀ fuel, demoVisited.nodes.length ≤ fuel →
        handleKeyPress fuel demoVisited Key.D = .ok (s1, tr)) ∧
      frames tr = fr :: rest ∧ fr.length = demoVisited.nodes.length ∧
      (fr[0]?).map CircleShape.fillColor =
        some (if Key.D = Key.B then Color.Green else Color.Red) ∧
      ∀ i : Nat, 1 ≤ i → fr[i]? = (shapes demoVisited.nodes)[i]? :=
  handleKeyPress_first_frame boxContains demoVisited demoVisited_reachable (by decide) Key.D
    (Or.inr rfl)

/-! ## C11 -/

theorem reachable_of_reachableBy (contains : CircleShape → Vector2 → Bool) {es : List Event}
    {s : State} (h : ReachableBy contains es s) : Reachable contains s := by
  induction h with
  | initial => exact Reachable.initial
  | step _ hstep ih => exact Reachable.step ih hstep

theorem reachableBy_of_reachable (contains : CircleShape → Vector2 → Bool) {s : State}
    (h : Reachable contains s) : ∃ es, ReachableBy contains es s := by
  induction h with
  | initial => exact ⟨[], ReachableBy.initial⟩
  | step _ hstep ih =>
    obtain ⟨es, hes⟩ := ih
    exact ⟨_, ReachableBy.step hes hstep⟩

/-- Every handler changes the two mode flags as `FlagsStep` says. -/
theorem handleEvent_flags (contains : CircleShape → Vector2 → Bool) (fuel : Nat) (s s1 : State)
    (e : Event) (tr : List Effect) (h : handleEvent contains fuel s e = .ok (s1, tr)) :
    FlagsStep e s s1 := by
  unfold FlagsStep
  cases e with
  | Closed =>
    simp only [handleEvent, Except.ok.injEq, Prod.mk.injEq] at h
    rw [← h.1]; exact ⟨rfl, rfl⟩
  | Other =>
    simp only [handleEvent, Except.ok.injEq, Prod.mk.injEq] at h
    rw [← h.1]; exact ⟨rfl, rfl⟩
  | MouseButtonPressed button p ctrl =>
    simp only [handleEvent, Except.ok.injEq, Prod.mk.injEq] at h
    rw [← h.1]
    cases button with
    | Left =>
      by_cases hc : getNodeAtPosition contains s.nodes p = -1
      · simp [handleMousePress, hc]
      · cases ctrl <;> simp [handleMousePress, hc]
    | Right => simp [handleMousePress]
    | Middle => simp [handleMousePress]
  | MouseButtonReleased button p =>
    simp only [handleEvent] at h
    obtain ⟨s2, h1, h2⟩ := bind_eq_ok.mp h
    simp only [pure, Except.pure, Except.ok.injEq, Prod.mk.injEq] at h2
    rw [← h2.1]
    cases button with
    | Left =>
      simp only [handleMouseRelease, if_true] at h1
      obtain ⟨s3, h3, h4⟩ := bind_eq_ok.mp h1
      simp only [pure, Except.pure, Except.ok.injEq] at h4
      obtain ⟨_, _, _, hm⟩ := finishEdge_change contains s s3 p h3
      rw [← h4]
      exact ⟨rfl, hm⟩
    | Right =>
      simp [handleMouseRelease] at h1
      rw [← h1]; exact ⟨rfl, rfl⟩
    | Middle =>
      simp [handleMouseRelease] at h1
      rw [← h1]; exact ⟨rfl, rfl⟩
  | MouseMoved x y =>
    simp only [handleEvent] at h
    obtain ⟨s2, h1, h2⟩ := bind_eq_ok.mp h
    simp only [pure, Except.pure, Except.ok.injEq, Prod.mk.injEq] at h2
    rw [← h2.1]
    unfold handleMouseMove at h1
    split_ifs at h1 with hc
    · obtain ⟨nodes1, _, h3⟩ := bind_eq_ok.mp h1
      obtain ⟨es, _, h4⟩ := bind_eq_ok.mp h3
      simp only [pure, Except.pure, Except.ok.injEq] at h4
      rw [← h4]; exact ⟨rfl, rfl⟩
    · simp only [Except.ok.injEq] at h1
      rw [← h1]; exact ⟨rfl, rfl⟩
  | KeyPressed code =>
    simp only [handleEvent] at h
    unfold handleKeyPress at h
    cases code with
    | B =>
      simp only at h
      split_ifs at h with hne
      · obtain ⟨r, _, h2⟩ := bind_eq_ok.mp h
        simp only [pure, Except.pure, Except.ok.injEq, Prod.mk.injEq] at h2
        rw [← h2.1]; exact ⟨rfl, rfl⟩
      · simp only [Except.ok.injEq, Prod.mk.injEq] at h
        rw [← h.1]; exact ⟨rfl, rfl⟩
    | D =>
      simp only at h
      split_ifs at h with hne
      · obtain ⟨r, _, h2⟩ := bind_eq_ok.mp h
        simp only [pure, Except.pure, Except.ok.injEq, Prod.mk.injEq] at h2
        rw [← h2.1]; exact ⟨rfl, rfl⟩
      · simp only [Except.ok.injEq, Prod.mk.injEq] at h
        rw [← h.1]; exact ⟨rfl, rfl⟩
    | other c =>
      simp only [Except.ok.injEq, Prod.mk.injEq] at h
      rw [← h.1]; exact ⟨rfl, rfl⟩

/-- Along a history whose left-button presses and releases alternate, both flags are off
while the button is up, and at most one is on while it is down. -/
theorem flags_of_alternate (contains : CircleShape → Vector2 → Bool) {es : List Event}
    {s : State} (h : ReachableBy contains es s) :
    ∀ d, es.foldl trackLeftButton (some false) = some d →
      (d = false → s.isDragging = false ∧ s.isCreatingEdge = false) ∧
      ¬ (s.isDragging = true ∧ s.isCreatingEdge = true) := by
  induction h with
  | initial =>
    intro d _
    simp [State.initial]
  | @step es s s1 fuel e tr _ hstep ih =>
    intro d hd
    rw [List.foldl_append] at hd
    simp only [List.foldl_cons, List.foldl_nil] at hd
    have hfl := handleEvent_flags contains fuel s s1 e tr hstep
    cases hprev : es.foldl trackLeftButton (some false) with
    | none => rw [hprev] at hd; simp [trackLeftButton] at hd
    | some d0 =>
      rw [hprev] at hd
      obtain ⟨ih1, ih2⟩ := ih d0 hprev
      cases e with
      | MouseButtonPressed button p ctrl =>
        cases button with
        | Left =>
          cases d0 with
          | true => simp [trackLeftButton] at hd
          | false =>
            simp [trackLeftButton] at hd
            obtain ⟨i1, i2⟩ := ih1 rfl
            simp only [FlagsStep] at hfl
            rw [i1, i2] at hfl
            subst hd
            refine ⟨by simp, ?_⟩
            rcases hfl with ⟨a, b⟩ | ⟨a, b⟩ | ⟨a, b⟩
            · simp [a, b]
            · simp [a]
            · simp [b]
        | Right =>
          simp [trackLeftButton] at hd
          simp only [FlagsStep] at hfl
          subst hd
          rw [hfl.1, hfl.2]
          exact ⟨ih1, ih2⟩
        | Middle =>
          simp [trackLeftButton] at hd
          simp only [FlagsStep] at hfl
          subst hd
          rw [hfl.1, hfl.2]
          exact ⟨ih1, ih2⟩
      | MouseButtonReleased button p =>
        cases button with
        | Left =>
          simp only [FlagsStep] at hfl
          simp [hfl.1, hfl.2]
        | Right =>
          simp [trackLeftButton] at hd
          simp only [FlagsStep] at hfl
          subst hd
          rw [hfl.1, hfl.2]
          exact ⟨ih1, ih2⟩
        | Middle =>
          simp [trackLeftButton] at hd
          simp only [FlagsStep] at hfl
          subst hd
          rw [hfl.1, hfl.2]
          exact ⟨ih1, ih2⟩
      | Closed =>
        simp [trackLeftButton] at hd
        simp only [FlagsStep] at hfl
        subst hd
        rw [hfl.1, hfl.2]
        exact ⟨ih1, ih2⟩
      | Other =>
        simp [trackLeftButton] at hd
        simp only [FlagsStep] at hfl
        subst hd
        rw [hfl.1, hfl.2]
        exact ⟨ih1, ih2⟩
      | MouseMoved x y =>
        simp [trackLeftButton] at hd
        simp only [FlagsStep] at hfl
        subst hd
        rw [hfl.1, hfl.2]
        exact ⟨ih1, ih2⟩
      | KeyPressed code =>
        simp [trackLeftButton] at hd
        simp only [FlagsStep] at hfl
        subst hd
        rw [hfl.1, hfl.2]
        exact ⟨ih1, ih2⟩

/-- Two presses with no release in between lead from `demoState` to `demoBothModes`. -/
theorem demoBothModes_reachable : Reachable boxContains demoBothModes :=
  reachable_handleEventList boxContains 0
    [Event.MouseButtonPressed MouseButton.Left ⟨0, 1⟩ true,
     Event.MouseButtonPressed MouseButton.Left ⟨100, 100⟩ false] demoState demoBothModes
    demoState_reachable (by decide)

/-- C11, as stated, fails: a control-click on node `0` followed, with no release in between,
by a plain click on node `1` leaves both `isDragging` and `isCreatingEdge` true. -/
theorem modes_not_exclusive :
    ¬ ∀ (s : State), Reachable boxContains s →
      ¬ (s.isDragging = true ∧ s.isCreatingEdge = true) := by
  intro h
  exact h demoBothModes demoBothModes_reachable (by decide)

/-- C11, amended: in every state reached by a history of events in which no left-button
press arrives while the left button is down, `isDragging` and `isCreatingEdge` are never
both true. -/
theorem modes_exclusive_of_alternate (contains : CircleShape → Vector2 → Bool)
    (es : List Event) (s : State) (h : ReachableBy contains es s) (ha : PressesAlternate es) :
    ¬ (s.isDragging = true ∧ s.isCreatingEdge = true) := by
  cases hd : es.foldl trackLeftButton (some false) with
  | none => exact absurd hd ha
  | some d => exact (flags_of_alternate contains h d hd).2

/-- A list of events that the handlers accept extends a history. -/
theorem reachableBy_handleEventList (contains : CircleShape → Vector2 → Bool) (fuel : Nat) :
    ∀ (es1 es : List Event) (s s1 : State), ReachableBy contains es s →
      (handleEventList contains fuel s es1).toOption.map Prod.fst = some s1 →
      ReachableBy contains (es ++ es1) s1 := by
  intro es1
  induction es1 with
  | nil =>
    intro es s s1 hs h
    simp [handleEventList, Except.toOption] at h
    rw [← h, List.append_nil]
    exact hs
  | cons e rest ih =>
    intro es s s1 hs h
    rw [handleEventList] at h
    cases h1 : handleEvent contains fuel s e with
    | error err => rw [h1] at h; simp [bind, Except.bind, Except.toOption] at h
    | ok r =>
      rw [h1] at h
      simp only [bind, Except.bind] at h
      cases h2 : handleEventList contains fuel r.1 rest with
      | error err => rw [h2] at h; simp [bind, Except.bind, Except.toOption] at h
      | ok r1 =>
        rw [h2] at h
        simp [bind, Except.bind, Except.toOption, pure, Except.pure] at h
        have := ih (es ++ [e]) r.1 s1 (ReachableBy.step hs
          (show handleEvent contains fuel s e = .ok (r.1, r.2) from h1))
          (by rw [h2]; simp [Except.toOption, h])
        simpa using this

/-- The events `dragEvents` lead from the initial state to `dragState`. -/
theorem dragState_reachableBy : ReachableBy boxContains dragEvents dragState :=
  reachableBy_handleEventList boxContains 0 dragEvents [] State.initial dragState
    ReachableBy.initial (by decide)

/-- The previous theorem on the history `dragEvents`, which ends in the middle of a drag. -/
theorem modes_exclusive_of_alternate_witness :
    ReachableBy boxContains dragEvents dragState ∧ PressesAlternate dragEvents ∧
      dragState.isDragging = true ∧
      ¬ (dragState.isDragging = true ∧ dragState.isCreatingEdge = true) :=
  ⟨dragState_reachableBy, by decide, rfl,
    modes_exclusive_of_alternate boxContains dragEvents dragState dragState_reachableBy
      (by decide)⟩

/-! ## C14 -/

/-- C14: on an empty store key `B` and key `D` run no traversal and raise no error: for every
fuel the handler returns, emits no effect, and changes nothing but `currentTraversal`; in
particular the store stays empty. -/
theorem handleKeyPress_empty (s : State) (code : Key) (hcode : code = Key.B ∨ code = Key.D)
    (hempty : s.nodes = []) (fuel : Nat) :
    handleKeyPress fuel s code =
      .ok ({ s with currentTraversal :=
              if code = Key.B then TraversalType.BFS else TraversalType.DFS }, []) ∧
    ∃ s1, handleKeyPress fuel s code = .ok (s1, []) ∧ s1.nodes = [] := by
  rcases hcode with rfl | rfl
  · have h : handleKeyPress fuel s Key.B =
        .ok ({ s with currentTraversal := TraversalType.BFS }, []) := by
      simp [handleKeyPress, hempty]
    exact ⟨by simpa using h, _, h, hempty⟩
  · have h : handleKeyPress fuel s Key.D =
        .ok ({ s with currentTraversal := TraversalType.DFS }, []) := by
      simp [handleKeyPress, hempty]
    exact ⟨by simpa using h, _, h, hempty⟩

/-- The previous theorem on the constructor's state, with no fuel at all. -/
theorem handleKeyPress_empty_witness :
    handleKeyPress 0 State.initial Key.B =
      .ok ({ State.initial with currentTraversal :=
              if Key.B = Key.B then TraversalType.BFS else TraversalType.DFS }, []) ∧
    ∃ s1, handleKeyPress 0 State.initial Key.B = .ok (s1, []) ∧ s1.nodes = [] :=
  handleKeyPress_empty State.initial Key.B (Or.inl rfl) rfl 0

/-! ## C17 -/

theorem getNodeAtPositionFrom_append_hit (contains : CircleShape → Vector2 → Bool)
    (p : Vector2) (n : Node) (hn : contains n.shape p = true) :
    ∀ (l : List Node) (i : Int), (∀ m ∈ l, contains m.shape p = false) →
      getNodeAtPositionFrom contains p (l ++ [n]) i = i + (l.length : Int) := by
  intro l
  induction l with
  | nil => intro i _; simp [getNodeAtPositionFrom, hn]
  | cons a rest ih =>
    intro i h
    have ha := h a (List.mem_cons_self _ _)
    rw [List.cons_append, getNodeAtPositionFrom]
    simp only [ha, Bool.false_eq_true, if_false]
    rw [ih (i + 1) (fun m hm => h m (List.mem_cons_of_mem _ hm))]
    simp only [List.length_cons]
    push_cast
    omega

/-- C17: a left-button press at a point `p` where no node is hit, with the coordinates of
`p` in the range where `mousePos - 20.f` is exact in `float`, appends exactly one node: its
position is `p - (20, 20)`, its neighbor list is empty, its colour is white and its id is
the old size of the store; the existing nodes and all other fields are unchanged.  The
centre of the new shape, position plus radius, is `p`, again without rounding.  When the hit
region of a shape placed at `p - (20, 20)` contains `p`, hit-testing at `p` then returns the
id of the new node. -/
theorem handleMousePress_adds_node (contains : CircleShape → Vector2 → Bool) (s : State)
    (p : Vector2) (ctrl : Bool) (hp : PointerExact p)
    (hmiss : getNodeAtPosition contains s.nodes p = -1)
    (hcentre : contains ⟨⟨p.x - 20, p.y - 20⟩, Color.White⟩ p = true) :
    handleMousePress contains s MouseButton.Left p ctrl =
      { s with nodes := s.nodes ++
          [{ shape := ⟨⟨p.x - 20, p.y - 20⟩, Color.White⟩
             neighbors := []
             position := ⟨p.x - 20, p.y - 20⟩
             id := (s.nodes.length : Int) }] } ∧
    PositionExact ⟨p.x - 20, p.y - 20⟩ ∧
    centreAt (handleMousePress contains s MouseButton.Left p ctrl).nodes
      (s.nodes.length : Int) = p ∧
    getNodeAtPosition contains
      (handleMousePress contains s MouseButton.Left p ctrl).nodes p = (s.nodes.length : Int) := by
  have h1 : handleMousePress contains s MouseButton.Left p ctrl =
      { s with nodes := s.nodes ++ [Node.new (p.x - 20) (p.y - 20) s.nodes.length] } := by
    simp [handleMousePress, hmiss]
  have hexact : PositionExact ⟨p.x - 20, p.y - 20⟩ := by
    unfold PointerExact ExactFloat at hp
    unfold PositionExact ExactFloat
    simp only [sub_add_cancel]
    omega
  have hc : centreAt (s.nodes ++ [Node.new (p.x - 20) (p.y - 20) s.nodes.length])
      (s.nodes.length : Int) = p := by
    unfold centreAt nodeAt
    simp [Node.new]
  refine ⟨by rw [h1]; rfl, hexact, by rw [h1]; exact hc, ?_⟩
  rw [h1]
  have hnone : ∀ m ∈ s.nodes, contains m.shape p = false := by
    rcases getNodeAtPositionFrom_spec contains p s.nodes 0 (le_refl 0) with
      ⟨_, h2⟩ | ⟨k, n, h2, _⟩
    · exact h2
    · unfold getNodeAtPosition at hmiss
      rw [h2] at hmiss
      omega
  unfold getNodeAtPosition
  rw [getNodeAtPositionFrom_append_hit contains p _ hcentre s.nodes 0 hnone]
  simp

/-- The previous theorem on a click at `(300, 300)` in the state built by `demoEvents`: the
new node gets id `3` and is hit at `(300, 300)`. -/
theorem handleMousePress_adds_node_witness :
    handleMousePress boxContains demoState MouseButton.Left ⟨300, 300⟩ false =
      { demoState with nodes := demoState.nodes ++
          [{ shape := ⟨⟨300 - 20, 300 - 20⟩, Color.White⟩
             neighbors := []
             position := ⟨300 - 20, 300 - 20⟩
             id := (demoState.nodes.length : Int) }] } ∧
    PositionExact ⟨300 - 20, 300 - 20⟩ ∧
    centreAt (handleMousePress boxContains demoState MouseButton.Left ⟨300, 300⟩ false).nodes
      (demoState.nodes.length : Int) = ⟨300, 300⟩ ∧
    getNodeAtPosition boxContains
      (handleMousePress boxContains demoState MouseButton.Left ⟨300, 300⟩ false).nodes
      ⟨300, 300⟩ = (demoState.nodes.length : Int) :=
  handleMousePress_adds_node boxContains demoState ⟨300, 300⟩ false (by decide) (by decide)
    (by decide)

/-! ## C18 -/

theorem validGraph_of_map_neighbors {nodes nodes1 : List Node}
    (h : nodes1.map Node.neighbors = nodes.map Node.neighbors) (hv : ValidGraph nodes) :
    ValidGraph nodes1 := by
  have hlen : nodes1.length = nodes.length := by
    have := congrArg List.length h
    simpa using this
  rw [validGraph_iff]
  intro i j hj
  rw [neighborsOf_congr h] at hj
  rw [hlen]
  exact (validGraph_iff _).mp hv i j hj

/-- In a state that satisfies the invariant `handleMouseRelease` indexes the store in
bounds. -/
theorem handleMouseRelease_ok (contains : CircleShape → Vector2 → Bool) (s : State)
    (hi : Inv s) (button : MouseButton) (p : Vector2) :
    ∃ s1, handleMouseRelease contains s button p = .ok s1 := by
  unfold handleMouseRelease
  by_cases hb : button = MouseButton.Left
  · rw [if_pos hb]
    have hfin : ∃ s2, finishEdge contains s p = .ok s2 := by
      by_cases hmode : s.isCreatingEdge = true
      · by_cases ht : getNodeAtPosition contains s.nodes p = -1 ∨
            getNodeAtPosition contains s.nodes p = s.selectedNodeId
        · exact ⟨_, finishEdge_reject contains s p hmode ht⟩
        · obtain ⟨s2, h2, _⟩ := finishEdge_add contains s p hmode hi.valid (hi.sel hmode).1
            (hi.sel hmode).2 (fun e => ht (Or.inl e)) (fun e => ht (Or.inr e))
          exact ⟨s2, h2⟩
      · exact ⟨s, finishEdge_idle contains s p (by simpa using hmode)⟩
    obtain ⟨s2, h2⟩ := hfin
    simp [h2, bind, Except.bind, pure, Except.pure]
  · rw [if_neg hb]
    exact ⟨s, rfl⟩

/-- In a state that satisfies the invariant `handleMouseMove` indexes the store in bounds. -/
theorem handleMouseMove_ok (s : State) (hi : Inv s) (x y : Int) :
    ∃ s1, handleMouseMove s x y = .ok s1 := by
  unfold handleMouseMove
  by_cases hc : s.isDragging = true ∧ s.draggedNodeId ≠ -1
  · rw [if_pos hc]
    obtain ⟨hd0, hd1⟩ := hi.drag hc.1
    obtain ⟨n, _, hn⟩ := nodeAt_ok_of_lt s.nodes hd0 hd1
    obtain ⟨nodes1, hset⟩ : ∃ nodes1,
        setPosition s.nodes s.draggedNodeId ⟨x - 20, y - 20⟩ = .ok nodes1 := by
      simp [setPosition, hd0, hn]
    obtain ⟨es, hes⟩ := updateEdges_ok
      (validGraph_of_map_neighbors (setPosition_frame hset).2 hi.valid)
    simp [hset, hes, bind, Except.bind, pure, Except.pure]
  · rw [if_neg hc]
    exact ⟨s, rfl⟩

/-- C18: in every reachable state every id stored in a neighbor list is an index of the node
store, `selectedNodeId` is one whenever `isCreatingEdge` is true and `draggedNodeId` is one
whenever `isDragging` is true; hence `handleMouseRelease`, `handleMouseMove`, `updateEdges`
and, on a non-empty store, `runBFS(0)` and `runDFS(0, {})` return without indexing the store
out of bounds. -/
theorem reachable_index_safe (contains : CircleShape → Vector2 → Bool) (s : State)
    (h : Reachable contains s) :
    (∀ n ∈ s.nodes, ∀ j ∈ n.neighbors, 0 ≤ j ∧ j < (s.nodes.length : Int)) ∧
    (s.isCreatingEdge = true →
      0 ≤ s.selectedNodeId ∧ s.selectedNodeId < (s.nodes.length : Int)) ∧
    (s.isDragging = true →
      0 ≤ s.draggedNodeId ∧ s.draggedNodeId < (s.nodes.length : Int)) ∧
    (∀ (button : MouseButton) (p : Vector2),
      ∃ s1, handleMouseRelease contains s button p = .ok s1) ∧
    (∀ x y : Int, ∃ s1, handleMouseMove s x y = .ok s1) ∧
    (∃ es, updateEdges s.nodes = .ok es) ∧
    (s.nodes ≠ [] → ∀ fuel, s.nodes.length ≤ fuel →
      (∃ r, runBFS fuel s.nodes 0 = .ok r) ∧
      ∃ st1, runDFS fuel { nodes := s.nodes, visited := [], trace := [] } 0 = .ok st1) := by
  have hi := reachable_inv contains h
  refine ⟨hi.valid, hi.sel, hi.drag, handleMouseRelease_ok contains s hi,
    handleMouseMove_ok s hi, updateEdges_ok hi.valid, ?_⟩
  intro hne fuel hf
  obtain ⟨dist, hD⟩ := exists_distSpec s.nodes
  obtain ⟨nodes1, tr, h1, _⟩ := runBFS_spec hne hi.valid hD
  obtain ⟨st1, c, h2, _⟩ := runDFS_top_spec hne hi.valid
  exact ⟨⟨_, h1 fuel hf⟩, ⟨_, h2 fuel hf⟩⟩

/-- The previous theorem on the state built by `demoEvents` followed by a control-click on
node `0`. -/
theorem reachable_index_safe_witness :
    Reachable boxContains demoLinking ∧
    (∀ n ∈ demoLinking.nodes, ∀ j ∈ n.neighbors,
      0 ≤ j ∧ j < (demoLinking.nodes.length : Int)) ∧
    (demoLinking.isCreatingEdge = true →
      0 ≤ demoLinking.selectedNodeId ∧
        demoLinking.selectedNodeId < (demoLinking.nodes.length : Int)) ∧
    (demoLinking.isDragging = true →
      0 ≤ demoLinking.draggedNodeId ∧
        demoLinking.draggedNodeId < (demoLinking.nodes.length : Int)) ∧
    (∀ (button : MouseButton) (p : Vector2),
      ∃ s1, handleMouseRelease boxContains demoLinking button p = .ok s1) ∧
    (∀ x y : Int, ∃ s1, handleMouseMove demoLinking x y = .ok s1) ∧
    (∃ es, updateEdges demoLinking.nodes = .ok es) ∧
    (demoLinking.nodes ≠ [] → ∀ fuel, demoLinking.nodes.length ≤ fuel →
      (∃ r, runBFS fuel demoLinking.nodes 0 = .ok r) ∧
      ∃ st1, runDFS fuel { nodes := demoLinking.nodes, visited := [], trace := [] } 0
        = .ok st1) :=
  ⟨demoLinking_reachable, reachable_index_safe boxContains demoLinking demoLinking_reachable⟩

/-! ## First occurrences -/

theorem dedupFrom_append_seen (seen : List Int) :
    ∀ (l acc : List Int),
      dedupFrom (acc ++ seen) l = dedupFrom acc (l.filter fun x => decide (x ∉ seen)) := by
  intro l
  induction l with
  | nil => intro acc; rfl
  | cons x rest ih =>
    intro acc
    by_cases hs : x ∈ seen
    · have : x ∈ acc ++ seen := List.mem_append_right _ hs
      simp only [dedupFrom, this, if_true, List.filter_cons, hs, not_true_eq_false,
        decide_False, Bool.false_eq_true, if_false]
      exact ih acc
    · by_cases ha : x ∈ acc
      · have : x ∈ acc ++ seen := List.mem_append_left _ ha
        simp only [dedupFrom, this, if_true, List.filter_cons, hs, not_false_eq_true,
          decide_True, ha]
        exact ih acc
      · have : x ∉ acc ++ seen := by
          intro h
          rcases List.mem_append.mp h with h | h
          · exact ha h
          · exact hs h
        simp only [dedupFrom, this, if_false, List.filter_cons, hs, not_false_eq_true,
          decide_True, if_true, ha, List.cons.injEq, true_and]
        exact ih (x :: acc)

/-- The entries of `l` new with respect to `seen`, at their first occurrence, are the first
occurrences in the list of the entries of `l` that are not in `seen`. -/
theorem dedupFrom_eq_keepFirst (seen l : List Int) :
    dedupFrom seen l = keepFirst (l.filter fun x => decide (x ∉ seen)) := by
  have := dedupFrom_append_seen seen l []
  simpa [keepFirst] using this

theorem dedupFrom_congr {seen1 seen2 : List Int} (h : ∀ x, x ∈ seen1 ↔ x ∈ seen2) :
    ∀ l : List Int, dedupFrom seen1 l = dedupFrom seen2 l := by
  intro l
  induction l generalizing seen1 seen2 with
  | nil => rfl
  | cons x rest ih =>
    by_cases hx : x ∈ seen1
    · have hx2 : x ∈ seen2 := (h x).mp hx
      simp only [dedupFrom, hx, hx2, if_true]
      exact ih h
    · have hx2 : x ∉ seen2 := fun h2 => hx ((h x).mpr h2)
      simp only [dedupFrom, hx, hx2, if_false, List.cons.injEq, true_and]
      apply ih
      intro y
      simp only [List.mem_cons, h y]

/-! ## The inner loop of `runBFS`, exactly -/

/-- Whenever the inner loop returns, it has enqueued, inserted into `visited` and coloured
yellow, in this order, the entries of the neighbor list that were not in `visited`, each at
its first occurrence, and it has coloured no node green. -/
theorem bfsVisitNeighbors_exact :
    ∀ (l : List Int) (st st1 : BfsState), bfsVisitNeighbors l st = .ok st1 →
      st1.q = st.q ++ dedupFrom st.visited l ∧
      st1.visited = (dedupFrom st.visited l).reverse ++ st.visited ∧
      ∃ t, st1.trace = st.trace ++ t ∧
        colourChanges t = (dedupFrom st.visited l).map (fun x => (x, Color.Yellow)) ∧
        ∀ e ∈ t, notGreenFill e = true := by
  intro l
  induction l with
  | nil =>
    intro st st1 h
    simp only [bfsVisitNeighbors, Except.ok.injEq] at h
    subst h
    exact ⟨by simp [dedupFrom], by simp [dedupFrom], [], by simp, by simp [dedupFrom, colourChanges],
      by simp⟩
  | cons x rest ih =>
    intro st st1 h
    rw [bfsVisitNeighbors] at h
    by_cases hx : x ∈ st.visited
    · rw [if_pos hx] at h
      obtain ⟨h1, h2, t, h3, h4, h5⟩ := ih st st1 h
      simp only [dedupFrom, hx, if_true]
      exact ⟨h1, h2, t, h3, h4, h5⟩
    · rw [if_neg hx] at h
      obtain ⟨nodes1, _, h0⟩ := bind_eq_ok.mp h
      obtain ⟨h1, h2, t, h3, h4, h5⟩ := ih _ st1 h0
      simp only [List.insert_of_not_mem hx] at h1 h2 h4
      simp only [dedupFrom, hx, if_false]
      refine ⟨by rw [h1]; simp, by rw [h2]; simp, [Effect.setFillColor x Color.Yellow,
        Effect.render (shapes nodes1)] ++ t, by rw [h3]; simp, ?_, ?_⟩
      · have : colourChanges ([Effect.setFillColor x Color.Yellow,
            Effect.render (shapes nodes1)] ++ t) = (x, Color.Yellow) :: colourChanges t := by
          simp [colourChanges]
        rw [this, h4]
        rfl
      · intro e he
        simp only [List.cons_append, List.nil_append, List.mem_cons] at he
        rcases he with rfl | rfl | he
        · rfl
        · rfl
        · exact h5 e he

/-! ## Colour changes and discovery groups -/

theorem colouredWith_eq_colourChanges (c : Color) (t : List Effect) :
    colouredWith c t =
      (colourChanges t).filterMap fun p => if p.2 = c then some p.1 else none := by
  unfold colouredWith colourChanges
  rw [List.filterMap_filterMap]
  congr 1
  funext e
  cases e <;> simp

theorem colouredWith_of_yellow_changes {t : List Effect} {new : List Int}
    (h : colourChanges t = new.map fun x => (x, Color.Yellow)) :
    colouredWith Color.Yellow t = new ∧ colouredWith Color.Green t = [] := by
  rw [colouredWith_eq_colourChanges, colouredWith_eq_colourChanges, h]
  clear h
  constructor
  · induction new with
    | nil => rfl
    | cons x rest ih => simpa using ih
  · induction new with
    | nil => rfl
    | cons x rest ih => simp

theorem discoveredFrom_green (c : Int) (rest : List Effect) :
    discoveredFrom (Effect.setFillColor c Color.Green :: rest) =
      (c, colouredWith Color.Yellow (rest.takeWhile notGreenFill)) :: discoveredFrom rest :=
  rfl

theorem discoveredFrom_skip (e : Effect) (rest : List Effect) (h : notGreenFill e = true) :
    discoveredFrom (e :: rest) = discoveredFrom rest := by
  cases e with
  | setFillColor i c =>
    cases c with
    | Green => simp [notGreenFill] at h
    | White => rfl
    | Yellow => rfl
    | Red => rfl
  | render fr => rfl
  | sleep ms => rfl

theorem takeWhile_append_stop {α : Type} (p : α → Bool) (y : α) (hy : p y = false) :
    ∀ (xs ys : List α), (xs ++ y :: ys).takeWhile p = xs.takeWhile p := by
  intro xs
  induction xs with
  | nil => intro ys; simp [List.takeWhile, hy]
  | cons x xs ih =>
    intro ys
    simp only [List.cons_append, List.takeWhile_cons]
    split
    · rw [ih]
    · rfl

theorem discoveredFrom_of_notGreen :
    ∀ t : List Effect, (∀ e ∈ t, notGreenFill e = true) → discoveredFrom t = [] := by
  intro t
  induction t with
  | nil => intro _; rfl
  | cons e rest ih =>
    intro h
    rw [discoveredFrom_skip e rest (h e (List.mem_cons_self _ _))]
    exact ih (fun x hx => h x (List.mem_cons_of_mem _ hx))

/-- Appending one dequeue and the effects up to the next dequeue to a run appends one
group. -/
theorem discoveredFrom_append (c : Int) (t : List Effect)
    (ht : ∀ e ∈ t, notGreenFill e = true) :
    ∀ tr : List Effect,
      discoveredFrom (tr ++ Effect.setFillColor c Color.Green :: t) =
        discoveredFrom tr ++ [(c, colouredWith Color.Yellow t)] := by
  intro tr
  induction tr with
  | nil =>
    have h1 : t.takeWhile notGreenFill = t := List.takeWhile_eq_self_iff.mpr ht
    rw [List.nil_append, discoveredFrom_green, h1, discoveredFrom_of_notGreen t ht]
    rfl
  | cons e rest ih =>
    rw [List.cons_append]
    by_cases he : notGreenFill e = true
    · rw [discoveredFrom_skip e _ he, discoveredFrom_skip e _ he]
      exact ih
    · obtain ⟨i, rfl⟩ : ∃ i, e = Effect.setFillColor i Color.Green := by
        cases e with
        | setFillColor i col =>
          cases col with
          | Green => exact ⟨i, rfl⟩
          | White => exact absurd rfl he
          | Yellow => exact absurd rfl he
          | Red => exact absurd rfl he
        | render fr => exact absurd rfl he
        | sleep ms => exact absurd rfl he
      rw [discoveredFrom_green, discoveredFrom_green, ih,
        takeWhile_append_stop notGreenFill (Effect.setFillColor c Color.Green) rfl]
      rfl

/-! ## The order of discovery in `runBFS` -/

theorem discoveredBefore_append_le (groups more : List (Int × List Int)) {k : Nat}
    (hk : k ≤ groups.length) :
    discoveredBefore (groups ++ more) k = discoveredBefore groups k := by
  unfold discoveredBefore
  rw [List.take_append_of_le_length hk]

/-- One returning iteration of the loop keeps the order invariant. -/
theorem bfsStep_order {nodes0 : List Node} {st st1 : BfsState} {c : Int} {q1 : List Int}
    (hi : BfsOrder nodes0 st) (hq : st.q = c :: q1) (h : bfsStep st c q1 = .ok st1) :
    BfsOrder nodes0 st1 ∧
      colouredWith Color.Green st1.trace = colouredWith Color.Green st.trace ++ [c] := by
  have hunc := bfsStep_uncoloured h
  unfold bfsStep at h
  obtain ⟨nodes1, e1, h2⟩ := bind_eq_ok.mp h
  obtain ⟨cur, e2, h3⟩ := bind_eq_ok.mp h2
  have hunc1 : nodes1.map Node.uncoloured = nodes0.map Node.uncoloured := by
    rw [setFillColor_uncoloured e1, hi.unc]
  have hnb : cur.neighbors = neighborsOf nodes0 c := nodeAt_neighbors_of_uncoloured hunc1 e2
  obtain ⟨x1, x2, t, x3, x4, x5⟩ := bfsVisitNeighbors_exact _ _ _ h3
  simp only at x1 x2 x3
  obtain ⟨y1, y2⟩ := colouredWith_of_yellow_changes x4
  obtain ⟨new, hnew⟩ : ∃ new, new = dedupFrom st.visited cur.neighbors := ⟨_, rfl⟩
  rw [← hnew] at x1 x2 y1
  have htr : st1.trace = st.trace ++ Effect.setFillColor c Color.Green ::
      ([Effect.render (shapes nodes1), Effect.sleep 500] ++ t) := by
    rw [x3]; simp
  have hng : ∀ e ∈ [Effect.render (shapes nodes1), Effect.sleep 500] ++ t,
      notGreenFill e = true := by
    intro e he
    simp only [List.cons_append, List.nil_append, List.mem_cons] at he
    rcases he with rfl | rfl | he
    · rfl
    · rfl
    · exact x5 e he
  have hY : colouredWith Color.Yellow st1.trace = colouredWith Color.Yellow st.trace ++ new := by
    rw [x3, colouredWith_append, colouredWith_append, y1]
    simp [colouredWith]
  have hG : colouredWith Color.Green st1.trace = colouredWith Color.Green st.trace ++ [c] := by
    rw [x3, colouredWith_append, colouredWith_append, y2]
    simp [colouredWith]
  have hYt : colouredWith Color.Yellow ([Effect.render (shapes nodes1), Effect.sleep 500] ++ t)
      = new := by
    rw [colouredWith_append, y1]
    simp [colouredWith]
  have hD : discoveredFrom st1.trace = discoveredFrom st.trace ++ [(c, new)] := by
    rw [htr, discoveredFrom_append c _ hng, hYt]
  have hmem : ∀ x, x ∈ st.visited ↔
      x ∈ discoveredBefore (discoveredFrom st.trace ++ [(c, new)])
        (discoveredFrom st.trace).length := by
    intro x
    rw [discoveredBefore_append_le _ _ (le_refl _)]
    unfold discoveredBefore
    rw [List.take_length, hi.snd, hi.visited, List.mem_reverse]
  refine ⟨⟨by rw [hunc, hi.unc], ?_, ?_, ?_, ?_, ?_⟩, hG⟩
  · rw [x2, hi.visited, hY]
    simp
  · rw [hG, x1, hY]
    have := hi.queue
    rw [hq] at this
    rw [← List.cons_append, ← this]
    simp
  · rw [hD, hG, List.map_append, hi.fst]
    rfl
  · rw [hD, hY, List.map_append, List.flatten_append, hi.snd]
    simp
  · rw [hD]
    intro k c1 ys hk
    by_cases hlt : k < (discoveredFrom st.trace).length
    · rw [List.getElem?_append_left hlt] at hk
      rw [discoveredBefore_append_le _ _ (le_of_lt hlt)]
      exact hi.follow k c1 ys hk
    · rw [List.getElem?_append_right (by omega)] at hk
      cases hd : k - (discoveredFrom st.trace).length with
      | zero =>
        rw [hd] at hk
        simp only [List.getElem?_cons_zero, Option.some.injEq, Prod.mk.injEq] at hk
        have hk' : k = (discoveredFrom st.trace).length := by omega
        have e : new = keepFirst ((neighborsOf nodes0 c).filter
            fun x => decide (x ∉ st.visited)) := by
          rw [hnew, hnb, dedupFrom_eq_keepFirst]
        rw [← hk.1, ← hk.2, hk']
        refine e.trans ?_
        congr 1
        apply List.filter_congr
        intro x _
        simp only [decide_eq_decide]
        exact not_congr (hmem x)
      | succ d => rw [hd] at hk; simp at hk

theorem bfsLoop_order {nodes0 : List Node} :
    ∀ (fuel : Nat) (st st1 : BfsState), BfsOrder nodes0 st → bfsLoop fuel st = .ok st1 →
      BfsOrder nodes0 st1 ∧ st1.q = [] := by
  intro fuel
  induction fuel with
  | zero =>
    intro st st1 hi h
    cases hq : st.q with
    | nil =>
      rw [bfsLoop_nil 0 hq] at h
      simp only [Except.ok.injEq] at h
      rw [← h]; exact ⟨hi, hq⟩
    | cons c q1 => simp [bfsLoop, hq] at h
  | succ fuel ih =>
    intro st st1 hi h
    cases hq : st.q with
    | nil =>
      rw [bfsLoop_nil _ hq] at h
      simp only [Except.ok.injEq] at h
      rw [← h]; exact ⟨hi, hq⟩
    | cons c q1 =>
      rw [bfsLoop_cons fuel hq] at h
      obtain ⟨st2, h1, h2⟩ := bind_eq_ok.mp h
      exact ih st2 st1 (bfsStep_order hi hq h1).1 h2

theorem bfsOrder_start (nodes : List Node) :
    BfsOrder nodes
      { nodes := nodes, q := [0], visited := ([] : List Int).insert 0, trace := [] } :=
  ⟨rfl, by simp [colouredWith], by simp [colouredWith], rfl, rfl,
    by intro k c ys hk; simp [discoveredFrom] at hk⟩

/-- Whenever `runBFS(0)` returns, the nodes it dequeued are the start node followed by the
nodes it coloured yellow, in the same order, and every dequeued node discovered the first
occurrences of the not yet discovered entries of its neighbor list, in list order. -/
theorem runBFS_order {fuel : Nat} {nodes nodes1 : List Node} {tr : List Effect}
    (h : runBFS fuel nodes 0 = .ok (nodes1, tr)) :
    colouredWith Color.Green tr = 0 :: colouredWith Color.Yellow tr ∧
    (discoveredFrom tr).map Prod.fst = colouredWith Color.Green tr ∧
    ((discoveredFrom tr).map Prod.snd).flatten = colouredWith Color.Yellow tr ∧
    GroupsFollow nodes (discoveredFrom tr) := by
  unfold runBFS at h
  obtain ⟨st, h1, h2⟩ := bind_eq_ok.mp h
  simp only [pure, Except.pure, Except.ok.injEq, Prod.mk.injEq] at h2
  obtain ⟨hi, hq⟩ := bfsLoop_order _ _ _ (bfsOrder_start nodes) h1
  rw [← h2.2]
  have := hi.queue
  rw [hq, List.append_nil] at this
  exact ⟨this, hi.fst, hi.snd, hi.follow⟩

/-- The properties of `runBFS_spec` hold of every returning run, whatever its fuel. -/
theorem runBFS_any {fuel : Nat} {nodes nodes1 : List Node} {tr : List Effect}
    (hv : ValidGraph nodes) (h : runBFS fuel nodes 0 = .ok (nodes1, tr)) :
    nodes ≠ [] ∧ (colouredWith Color.Green tr).Nodup ∧
      (∀ v, v ∈ colouredWith Color.Green tr ↔ Reach nodes 0 v) ∧
      (∀ v ∈ colouredWith Color.Green tr, fillColorAt nodes1 v = some Color.Green) ∧
      (∀ k : Nat, (k : Int) ∉ colouredWith Color.Green tr → nodes1[k]? = nodes[k]?) ∧
      nodes1.map Node.uncoloured = nodes.map Node.uncoloured := by
  have hne := runBFS_ok_ne_nil h
  obtain ⟨dist, hD⟩ := exists_distSpec nodes
  obtain ⟨nodes2, tr2, h1, h2, h3, _, h5, h6, h7, _⟩ := runBFS_spec hne hv hD
  have e1 := runBFS_mono h (Nat.le_max_left fuel nodes.length)
  rw [h1 _ (Nat.le_max_right fuel nodes.length)] at e1
  simp only [Except.ok.injEq, Prod.mk.injEq] at e1
  rw [← e1.1, ← e1.2]
  exact ⟨hne, h2, h3, h5, h6, h7⟩

/-- The properties of `runDFS_top_spec` hold of every returning run, whatever its fuel. -/
theorem runDFS_any {fuel : Nat} {nodes : List Node} {st1 : DfsState}
    (hv : ValidGraph nodes)
    (h : runDFS fuel { nodes := nodes, visited := [], trace := [] } 0 = .ok st1) :
    nodes ≠ [] ∧ (colouredWith Color.Red st1.trace).Nodup ∧
      (∀ v, v ∈ colouredWith Color.Red st1.trace ↔ Reach nodes 0 v) ∧
      (∀ v ∈ colouredWith Color.Red st1.trace, fillColorAt st1.nodes v = some Color.Red) ∧
      (∀ k : Nat, (k : Int) ∉ colouredWith Color.Red st1.trace → st1.nodes[k]? = nodes[k]?) ∧
      st1.nodes.map Node.uncoloured = nodes.map Node.uncoloured := by
  have hne := runDFS_ok_ne_nil h
  obtain ⟨st2, c, h1, _, _, _, h4, h5, h6, h7, h8⟩ := runDFS_top_spec hne hv
  have e1 := runDFS_mono _ _ _ _ h _ (Nat.le_max_left fuel nodes.length)
  rw [h1 _ (Nat.le_max_right fuel nodes.length)] at e1
  simp only [Except.ok.injEq] at e1
  rw [← e1]
  exact ⟨hne, h4, h5, h6, h7, h8⟩

/-- On a non-empty store with valid neighbor ids every node reachable from node `0` is an
index of the store. -/
theorem reach_range {nodes : List Node} (hne : nodes ≠ []) (hv : ValidGraph nodes) {v : Int}
    (h : Reach nodes 0 v) : 0 ≤ v ∧ v < (nodes.length : Int) := by
  have hpos : 0 < nodes.length := List.length_pos.mpr hne
  obtain ⟨k, hk⟩ := h
  have key : ∀ a, ReachIn nodes k a v → (0 ≤ a ∧ a < (nodes.length : Int)) →
      0 ≤ v ∧ v < (nodes.length : Int) := by
    intro a hka
    induction hka with
    | refl => exact fun h => h
    | step _ hn _ => exact fun _ => (validGraph_iff _).mp hv _ _ hn
  exact key 0 hk ⟨le_refl 0, by omega⟩

/-! ## C12 -/

/-- C12: on a store with valid neighbor ids, a returning run of `runBFS(0)` has dequeued at
most `n` nodes and a returning run of `runDFS(0, {})` has made at most `n` calls, where `n`
is the number of nodes (every dequeue colours one node green, every call colours one node
red); and on a non-empty store both runs return, `runBFS` within `n` iterations of its loop
and `runDFS` within recursion depth `n`. -/
theorem traversals_terminate (nodes : List Node) (hv : ValidGraph nodes) :
    (∀ (fuel : Nat) (nodes1 : List Node) (tr : List Effect),
      runBFS fuel nodes 0 = .ok (nodes1, tr) →
      (colouredWith Color.Green tr).length ≤ nodes.length) ∧
    (∀ (fuel : Nat) (st1 : DfsState),
      runDFS fuel { nodes := nodes, visited := [], trace := [] } 0 = .ok st1 →
      (colouredWith Color.Red st1.trace).length ≤ nodes.length) ∧
    (nodes ≠ [] →
      (∃ r, ∀ fuel, nodes.length ≤ fuel → runBFS fuel nodes 0 = .ok r) ∧
      ∃ st1, ∀ fuel, nodes.length ≤ fuel →
        runDFS fuel { nodes := nodes, visited := [], trace := [] } 0 = .ok st1) := by
  refine ⟨?_, ?_, ?_⟩
  · intro fuel nodes1 tr h
    obtain ⟨hne, h2, h3, _⟩ := runBFS_any hv h
    exact nodup_range_length_le h2 (fun v hvm => reach_range hne hv ((h3 v).mp hvm))
  · intro fuel st1 h
    obtain ⟨hne, h2, h3, _⟩ := runDFS_any hv h
    exact nodup_range_length_le h2 (fun v hvm => reach_range hne hv ((h3 v).mp hvm))
  · intro hne
    obtain ⟨dist, hD⟩ := exists_distSpec nodes
    obtain ⟨nodes2, tr2, h1, _⟩ := runBFS_spec hne hv hD
    obtain ⟨st2, c, h2, _⟩ := runDFS_top_spec hne hv
    exact ⟨⟨_, h1⟩, ⟨_, h2⟩⟩

/-- The previous theorem on `dupNodes`, a store with cycles and duplicate neighbor entries:
both runs visit each of the three nodes once. -/
theorem traversals_terminate_witness :
    ((runBFS 3 dupNodes 0).toOption.map fun r => colouredWith Color.Green r.2) =
      some [0, 1, 2] ∧
    ((runDFS 3 { nodes := dupNodes, visited := [], trace := [] } 0).toOption.map
      fun r => colouredWith Color.Red r.trace) = some [0, 1, 2] ∧
    (∀ (fuel : Nat) (nodes1 : List Node) (tr : List Effect),
      runBFS fuel dupNodes 0 = .ok (nodes1, tr) →
      (colouredWith Color.Green tr).length ≤ dupNodes.length) ∧
    (∀ (fuel : Nat) (st1 : DfsState),
      runDFS fuel { nodes := dupNodes, visited := [], trace := [] } 0 = .ok st1 →
      (colouredWith Color.Red st1.trace).length ≤ dupNodes.length) ∧
    (dupNodes ≠ [] →
      (∃ r, ∀ fuel, dupNodes.length ≤ fuel → runBFS fuel dupNodes 0 = .ok r) ∧
      ∃ st1, ∀ fuel, dupNodes.length ≤ fuel →
        runDFS fuel { nodes := dupNodes, visited := [], trace := [] } 0 = .ok st1) :=
  ⟨by decide, by decide, traversals_terminate dupNodes (by decide)⟩

/-! ## C15 -/

/-- C15: on a store with valid neighbor ids, whenever `runBFS(0)` returns, the nodes are
dequeued in exactly the order in which they were discovered (the start node, then the nodes
in the order in which they were coloured yellow), and the nodes discovered from one dequeued
node are the entries of its neighbor list that were not discovered before, in the order of
their first occurrence in that list.  On a non-empty store the run returns. -/
theorem runBFS_discovery_order (nodes : List Node) (hv : ValidGraph nodes) :
    (∀ (fuel : Nat) (nodes1 : List Node) (tr : List Effect),
      runBFS fuel nodes 0 = .ok (nodes1, tr) →
      colouredWith Color.Green tr = 0 :: colouredWith Color.Yellow tr ∧
      (discoveredFrom tr).map Prod.fst = colouredWith Color.Green tr ∧
      ((discoveredFrom tr).map Prod.snd).flatten = colouredWith Color.Yellow tr ∧
      ∀ (k : Nat) (c : Int) (ys : List Int), (discoveredFrom tr)[k]? = some (c, ys) →
        ys = keepFirst ((neighborsOf nodes c).filter
          fun x => decide (x ∉ discoveredBefore (discoveredFrom tr) k))) ∧
    (nodes ≠ [] → ∃ (nodes1 : List Node) (tr : List Effect),
      ∀ fuel, nodes.length ≤ fuel → runBFS fuel nodes 0 = .ok (nodes1, tr)) := by
  refine ⟨?_, ?_⟩
  · intro fuel nodes1 tr h
    obtain ⟨h1, h2, h3, h4⟩ := runBFS_order h
    exact ⟨h1, h2, h3, h4⟩
  · intro hne
    obtain ⟨dist, hD⟩ := exists_distSpec nodes
    obtain ⟨nodes2, tr2, h1, _⟩ := runBFS_spec hne hv hD
    exact ⟨nodes2, tr2, h1⟩

/-- The previous theorem on `orderNodes`, where node `0` has the neighbor list `[2, 1]`: the
nodes are visited in the order `0`, `2`, `1`. -/
theorem runBFS_discovery_order_witness :
    (runBFS 3 orderNodes 0).toOption.map
      (fun r => (colouredWith Color.Green r.2, discoveredFrom r.2)) =
      some ([0, 2, 1], [(0, [2, 1]), (2, []), (1, [])]) ∧
    (∀ (fuel : Nat) (nodes1 : List Node) (tr : List Effect),
      runBFS fuel orderNodes 0 = .ok (nodes1, tr) →
      colouredWith Color.Green tr = 0 :: colouredWith Color.Yellow tr ∧
      (discoveredFrom tr).map Prod.fst = colouredWith Color.Green tr ∧
      ((discoveredFrom tr).map Prod.snd).flatten = colouredWith Color.Yellow tr ∧
      ∀ (k : Nat) (c : Int) (ys : List Int), (discoveredFrom tr)[k]? = some (c, ys) →
        ys = keepFirst ((neighborsOf orderNodes c).filter
          fun x => decide (x ∉ discoveredBefore (discoveredFrom tr) k))) ∧
    (orderNodes ≠ [] → ∃ (nodes1 : List Node) (tr : List Effect),
      ∀ fuel, orderNodes.length ≤ fuel → runBFS fuel orderNodes 0 = .ok (nodes1, tr)) :=
  ⟨by decide, runBFS_discovery_order orderNodes (by decide)⟩

/-! ## C20 -/

/-- C20: on a store with valid neighbor ids in which no node is yellow, whenever `runBFS(0)`
returns, every node reachable from node `0` is green and no node is yellow, and every node
that the run coloured yellow was dequeued and coloured green.  On a non-empty store the run
returns. -/
theorem runBFS_no_frontier_left (nodes : List Node) (hv : ValidGraph nodes)
    (hny : ∀ n ∈ nodes, n.shape.fillColor ≠ Color.Yellow) :
    (∀ (fuel : Nat) (nodes1 : List Node) (tr : List Effect),
      runBFS fuel nodes 0 = .ok (nodes1, tr) →
      (∀ v, Reach nodes 0 v → fillColorAt nodes1 v = some Color.Green) ∧
      (∀ n1 ∈ nodes1, n1.shape.fillColor ≠ Color.Yellow) ∧
      (∀ v ∈ colouredWith Color.Yellow tr, v ∈ colouredWith Color.Green tr)) ∧
    (nodes ≠ [] → ∃ (nodes1 : List Node) (tr : List Effect),
      ∀ fuel, nodes.length ≤ fuel → runBFS fuel nodes 0 = .ok (nodes1, tr)) := by
  refine ⟨?_, ?_⟩
  · intro fuel nodes1 tr h
    obtain ⟨hne, _, h3, h4, h5, _⟩ := runBFS_any hv h
    obtain ⟨o1, _⟩ := runBFS_order h
    refine ⟨fun v hr => h4 v ((h3 v).mpr hr), ?_, ?_⟩
    · intro n1 hn1
      obtain ⟨k, hk⟩ := List.getElem?_of_mem hn1
      by_cases hg : (k : Int) ∈ colouredWith Color.Green tr
      · obtain ⟨m, _, hm, hc⟩ := fillColorAt_eq_some.mp (h4 _ hg)
        simp only [Int.toNat_ofNat] at hm
        rw [hk] at hm
        cases hm
        rw [hc]
        decide
      · rw [h5 k hg] at hk
        exact hny n1 (List.getElem?_mem hk)
    · intro v hvm
      rw [o1]
      exact List.mem_cons_of_mem _ hvm
  · intro hne
    obtain ⟨dist, hD⟩ := exists_distSpec nodes
    obtain ⟨nodes2, tr2, h1, _⟩ := runBFS_spec hne hv hD
    exact ⟨nodes2, tr2, h1⟩

/-- The previous theorem on nodes `0`, `1`, `2` with the single edge `(0, 1)`: node `1` is
coloured yellow and ends green. -/
theorem runBFS_no_frontier_left_witness :
    (runBFS 3 demoNodes 0).toOption.map
      (fun r => (colouredWith Color.Yellow r.2, r.1.map fun n => n.shape.fillColor)) =
      some ([1], [Color.Green, Color.Green, Color.White]) ∧
    (∀ (fuel : Nat) (nodes1 : List Node) (tr : List Effect),
      runBFS fuel demoNodes 0 = .ok (nodes1, tr) →
      (∀ v, Reach demoNodes 0 v → fillColorAt nodes1 v = some Color.Green) ∧
      (∀ n1 ∈ nodes1, n1.shape.fillColor ≠ Color.Yellow) ∧
      (∀ v ∈ colouredWith Color.Yellow tr, v ∈ colouredWith Color.Green tr)) ∧
    (demoNodes ≠ [] → ∃ (nodes1 : List Node) (tr : List Effect),
      ∀ fuel, demoNodes.length ≤ fuel → runBFS fuel demoNodes 0 = .ok (nodes1, tr)) :=
  ⟨by decide, runBFS_no_frontier_left demoNodes (by decide) (by decide)⟩

/-! ## What every handler does to the store and the edge list -/

theorem finishEdge_frame (contains : CircleShape → Vector2 → Bool) (s s1 : State)
    (p : Vector2) (h : finishEdge contains s p = .ok s1) : EventFrame s s1 := by
  by_cases hmode : s.isCreatingEdge = true
  · by_cases ht : getNodeAtPosition contains s.nodes p = -1 ∨
        getNodeAtPosition contains s.nodes p = s.selectedNodeId
    · rw [finishEdge_reject contains s p hmode ht] at h
      simp only [Except.ok.injEq] at h
      subst h
      exact EventFrame.same rfl rfl
    · have ht1 : getNodeAtPosition contains s.nodes p ≠ -1 := fun e => ht (Or.inl e)
      have ht2 : getNodeAtPosition contains s.nodes p ≠ s.selectedNodeId :=
        fun e => ht (Or.inr e)
      unfold finishEdge at h
      simp only [hmode, if_true, ne_eq, ht1, ht2, not_false_eq_true, and_self] at h
      obtain ⟨nodes1, e1, h4⟩ := bind_eq_ok.mp h
      obtain ⟨nodes2, e2, h5⟩ := bind_eq_ok.mp h4
      obtain ⟨es, e3, h6⟩ := bind_eq_ok.mp h5
      simp only [pure, Except.pure, bind, Except.bind, Except.ok.injEq] at h6
      subst h6
      obtain ⟨_, f1, _⟩ := pushNeighbor_frame e1
      obtain ⟨_, f2, _⟩ := pushNeighbor_frame e2
      refine EventFrame.redrawn e3 ?_
      have := congrArg (List.map CircleShape.fillColor) (f2.trans f1)
      simpa [List.map_map, Function.comp_def] using this
  · have hmode' : s.isCreatingEdge = false := by simpa using hmode
    rw [finishEdge_idle contains s p hmode'] at h
    simp only [Except.ok.injEq] at h
    subst h
    exact EventFrame.same rfl rfl

theorem handleMouseMove_frame (s s1 : State) (x y : Int)
    (h : handleMouseMove s x y = .ok s1) : EventFrame s s1 := by
  unfold handleMouseMove at h
  split_ifs at h with hc
  · obtain ⟨nodes1, e1, h3⟩ := bind_eq_ok.mp h
    obtain ⟨es, e2, h4⟩ := bind_eq_ok.mp h3
    simp only [pure, Except.pure, Except.ok.injEq] at h4
    subst h4
    refine EventFrame.redrawn e2 ?_
    obtain ⟨n, _, hn, rfl⟩ := setPosition_eq_ok.mp e1
    exact map_set_of_eq _ hn rfl
  · simp only [Except.ok.injEq] at h
    subst h
    exact EventFrame.same rfl rfl

theorem handleKeyPress_frame (fuel : Nat) (s s1 : State) (code : Key) (tr : List Effect)
    (hv : ValidGraph s.nodes) (h : handleKeyPress fuel s code = .ok (s1, tr)) :
    EventFrame s s1 := by
  unfold handleKeyPress at h
  cases code with
  | B =>
    simp only at h
    split_ifs at h with hne
    · obtain ⟨r, h1, h2⟩ := bind_eq_ok.mp h
      simp only [pure, Except.pure, Except.ok.injEq, Prod.mk.injEq] at h2
      rw [← h2.1]
      obtain ⟨_, _, a3, _, a5, a6⟩ := runBFS_any hv
        (show runBFS fuel s.nodes 0 = .ok (r.1, r.2) from h1)
      exact EventFrame.recoloured rfl a6 (fun k hk => a5 k (fun hm => hk ((a3 _).mp hm)))
    · simp only [Except.ok.injEq, Prod.mk.injEq] at h
      rw [← h.1]
      exact EventFrame.same rfl rfl
  | D =>
    simp only at h
    split_ifs at h with hne
    · obtain ⟨r, h1, h2⟩ := bind_eq_ok.mp h
      simp only [pure, Except.pure, Except.ok.injEq, Prod.mk.injEq] at h2
      rw [← h2.1]
      obtain ⟨_, _, a3, _, a5, a6⟩ := runDFS_any hv h1
      exact EventFrame.recoloured rfl a6 (fun k hk => a5 k (fun hm => hk ((a3 _).mp hm)))
    · simp only [Except.ok.injEq, Prod.mk.injEq] at h
      rw [← h.1]
      exact EventFrame.same rfl rfl
  | other c =>
    simp only [Except.ok.injEq, Prod.mk.injEq] at h
    rw [← h.1]
    exact EventFrame.same rfl rfl

/-- Every handler changes the store and the edge list in one of the four ways of
`EventFrame`. -/
theorem handleEvent_frame (contains : CircleShape → Vector2 → Bool) (fuel : Nat) (s s1 : State)
    (e : Event) (tr : List Effect) (hv : ValidGraph s.nodes)
    (h : handleEvent contains fuel s e = .ok (s1, tr)) : EventFrame s s1 := by
  cases e with
  | Closed =>
    simp only [handleEvent, Except.ok.injEq, Prod.mk.injEq] at h
    rw [← h.1]
    exact EventFrame.same rfl rfl
  | Other =>
    simp only [handleEvent, Except.ok.injEq, Prod.mk.injEq] at h
    rw [← h.1]
    exact EventFrame.same rfl rfl
  | MouseButtonPressed button p ctrl =>
    simp only [handleEvent, Except.ok.injEq, Prod.mk.injEq] at h
    rw [← h.1]
    unfold handleMousePress
    by_cases hb : button = MouseButton.Left
    · rw [if_pos hb]
      by_cases hc : getNodeAtPosition contains s.nodes p = -1
      · simp only [hc, if_true]
        exact EventFrame.added _ _ rfl rfl
      · simp only [hc, if_false]
        cases ctrl
        · exact EventFrame.same rfl rfl
        · exact EventFrame.same rfl rfl
    · rw [if_neg hb]
      exact EventFrame.same rfl rfl
  | MouseButtonReleased button p =>
    simp only [handleEvent] at h
    obtain ⟨s2, h1, h2⟩ := bind_eq_ok.mp h
    simp only [pure, Except.pure, Except.ok.injEq, Prod.mk.injEq] at h2
    rw [← h2.1]
    unfold handleMouseRelease at h1
    split_ifs at h1 with hb
    · obtain ⟨s3, h3, h4⟩ := bind_eq_ok.mp h1
      simp only [pure, Except.pure, Except.ok.injEq] at h4
      rw [← h4]
      cases finishEdge_frame contains s s3 p h3 with
      | same a b => exact EventFrame.same a b
      | added x y a b => exact EventFrame.added x y a b
      | redrawn a b => exact EventFrame.redrawn a b
      | recoloured a b c => exact EventFrame.recoloured a b c
    · simp only [Except.ok.injEq] at h1
      rw [← h1]
      exact EventFrame.same rfl rfl
  | MouseMoved x y =>
    simp only [handleEvent] at h
    obtain ⟨s2, h1, h2⟩ := bind_eq_ok.mp h
    simp only [pure, Except.pure, Except.ok.injEq, Prod.mk.injEq] at h2
    rw [← h2.1]
    exact handleMouseMove_frame s s2 x y h1
  | KeyPressed code =>
    simp only [handleEvent] at h
    exact handleKeyPress_frame fuel s s1 code tr hv h

/-! ## C19 -/

theorem reachIn_mono {nodes nodes1 : List Node}
    (h : ∀ i, neighborsOf nodes i ⊆ neighborsOf nodes1 i) {k : Nat} {a b : Int}
    (hr : ReachIn nodes k a b) : ReachIn nodes1 k a b := by
  induction hr with
  | refl => exact ReachIn.refl _
  | step _ hn ih => exact ReachIn.step ih (h _ hn)

theorem reach_mono {nodes nodes1 : List Node}
    (h : ∀ i, neighborsOf nodes i ⊆ neighborsOf nodes1 i) {a b : Int}
    (hr : Reach nodes a b) : Reach nodes1 a b := by
  obtain ⟨k, hk⟩ := hr
  exact ⟨k, reachIn_mono h hk⟩

/-- No event removes an entry from a neighbor list. -/
theorem StoreChange.mono {s s1 : State} (hc : StoreChange s s1) :
    ∀ i, neighborsOf s.nodes i ⊆ neighborsOf s1.nodes i := by
  intro i
  cases hc with
  | same _ hnb => rw [neighborsOf_congr hnb]; exact fun _ h => h
  | added x y hn => rw [hn, neighborsOf_append_new]; exact fun _ h => h
  | linked a b _ _ _ _ _ _ _ hnb =>
    rw [hnb i]
    intro j hj
    split_ifs
    · exact List.mem_append_left _ hj
    · exact List.mem_append_left _ hj
    · exact hj

theorem getElem?_fillColor_of_map {nodes nodes1 : List Node}
    (h : nodes1.map (fun n => n.shape.fillColor) = nodes.map (fun n => n.shape.fillColor))
    {k : Nat} {n1 : Node} (hk : nodes1[k]? = some n1) :
    ∃ n, nodes[k]? = some n ∧ n1.shape.fillColor = n.shape.fillColor := by
  have h1 : (nodes1.map fun n => n.shape.fillColor)[k]? = some n1.shape.fillColor := by
    rw [List.getElem?_map, hk]; rfl
  rw [h, List.getElem?_map] at h1
  cases hn : nodes[k]? with
  | none => rw [hn] at h1; cases h1
  | some n =>
    rw [hn] at h1
    simp only [Option.map_some', Option.some.injEq] at h1
    exact ⟨n, rfl, h1.symm⟩

/-- One event keeps every unreachable node white. -/
theorem unreachedWhite_step {s s1 : State} (hc : StoreChange s s1) (hf : EventFrame s s1)
    (h : UnreachedWhite s.nodes) : UnreachedWhite s1.nodes := by
  intro k n1 hk hnr
  have hnr0 : ¬ Reach s.nodes 0 (k : Int) := fun hr => hnr (reach_mono hc.mono hr)
  cases hf with
  | same hn _ =>
    rw [hn] at hk
    exact h k n1 hk hnr0
  | added x y hn _ =>
    rw [hn] at hk
    by_cases hlt : k < s.nodes.length
    · rw [List.getElem?_append_left hlt] at hk
      exact h k n1 hk hnr0
    · rw [List.getElem?_append_right (by omega)] at hk
      cases hd : k - s.nodes.length with
      | zero =>
        rw [hd] at hk
        simp only [List.getElem?_cons_zero, Option.some.injEq] at hk
        rw [← hk]
        rfl
      | succ d => rw [hd] at hk; simp at hk
  | redrawn _ hcol =>
    obtain ⟨n, hn, hc1⟩ := getElem?_fillColor_of_map hcol hk
    rw [hc1]
    exact h k n hn hnr0
  | recoloured _ _ hsame =>
    rw [hsame k hnr0] at hk
    exact h k n1 hk hnr0

/-- C19: in every reachable state every node that is not reachable from node `0` along
neighbor lists is white. -/
theorem reachable_unreached_white (contains : CircleShape → Vector2 → Bool) (s : State)
    (h : Reachable contains s) :
    ∀ (k : Nat) (n : Node), s.nodes[k]? = some n → ¬ Reach s.nodes 0 (k : Int) →
      n.shape.fillColor = Color.White := by
  induction h with
  | initial => intro k n hk; simp [State.initial] at hk
  | @step s s1 fuel e tr hs hstep ih =>
    have hi := reachable_inv contains hs
    exact unreachedWhite_step (handleEvent_inv contains fuel s s1 e tr hi hstep).2
      (handleEvent_frame contains fuel s s1 e tr hi.valid hstep) ih

/-- The previous theorem on the state after `demoEvents` and a run of key `B`: nodes `0` and
`1` are green, node `2` is not reachable and white. -/
theorem reachable_unreached_white_witness :
    Reachable boxContains demoVisited ∧
    demoVisited.nodes.map (fun n => n.shape.fillColor) =
      [Color.Green, Color.Green, Color.White] ∧
    ∀ (k : Nat) (n : Node), demoVisited.nodes[k]? = some n →
      ¬ Reach demoVisited.nodes 0 (k : Int) → n.shape.fillColor = Color.White :=
  ⟨demoVisited_reachable, by decide,
    reachable_unreached_white boxContains demoVisited demoVisited_reachable⟩

/-! ## The edge list in closed form -/

theorem centreAt_of_getElem? {nodes : List Node} {i : Int} {n : Node} (h0 : 0 ≤ i)
    (h : nodes[i.toNat]? = some n) :
    centreAt nodes i = ⟨n.position.x + 20, n.position.y + 20⟩ := by
  unfold centreAt
  rw [nodeAt_eq_ok.mpr ⟨h0, h⟩]

theorem centreAt_eq (nodes : List Node) (i : Int) :
    centreAt nodes i =
      if 0 ≤ i then
        (((nodes.map Node.position)[i.toNat]?).map
          fun p => (⟨p.x + 20, p.y + 20⟩ : Vector2)).getD ⟨0, 0⟩
      else ⟨0, 0⟩ := by
  unfold centreAt nodeAt
  by_cases h : 0 ≤ i
  · cases hn : nodes[i.toNat]? <;> simp [h, hn]
  · simp [h]

theorem centreAt_congr {nodes nodes1 : List Node}
    (h : nodes1.map Node.position = nodes.map Node.position) (i : Int) :
    centreAt nodes1 i = centreAt nodes i := by
  rw [centreAt_eq, centreAt_eq, h]

theorem edgesOfNode_eq (nodes : List Node) (node : Node) :
    ∀ l : List Int, (∀ j ∈ l, 0 ≤ j ∧ j < (nodes.length : Int)) →
      edgesOfNode nodes node l = .ok (l.map fun j =>
        { start := ⟨node.position.x + 20, node.position.y + 20⟩, stop := centreAt nodes j }) := by
  intro l
  induction l with
  | nil => intro _; rfl
  | cons j rest ih =>
    intro h
    obtain ⟨n, hn, hn1⟩ := nodeAt_ok_of_lt nodes (h j (List.mem_cons_self _ _)).1
      (h j (List.mem_cons_self _ _)).2
    have hrest := ih (fun x hx => h x (List.mem_cons_of_mem _ hx))
    rw [edgesOfNode]
    simp only [hn, hrest, bind, Except.bind, pure, Except.pure, List.map_cons]
    rw [centreAt_of_getElem? (h j (List.mem_cons_self _ _)).1 hn1]

theorem updateEdgesFrom_eq (nodes : List Node)
    (hv : ∀ n ∈ nodes, ∀ j ∈ n.neighbors, 0 ≤ j ∧ j < (nodes.length : Int)) :
    ∀ (l : List Node) (i0 : Nat), (∀ (k : Nat) (n : Node), l[k]? = some n →
        nodes[i0 + k]? = some n) →
      updateEdgesFrom nodes l =
        .ok ((edgePairsFrom (l.map Node.neighbors) i0).map (segmentOf (centreAt nodes))) := by
  intro l
  induction l with
  | nil => intro i0 _; rfl
  | cons n rest ih =>
    intro i0 h
    have hn : nodes[i0]? = some n := by
      have := h 0 n (by simp)
      simpa using this
    have h1 := edgesOfNode_eq nodes n n.neighbors (hv n (List.getElem?_mem hn))
    have h2 := ih (i0 + 1) (by
      intro k m hk
      have := h (k + 1) m (by simpa using hk)
      rw [← this]
      congr 1
      omega)
    rw [updateEdgesFrom]
    simp only [h1, h2, bind, Except.bind, pure, Except.pure, List.map_cons, edgePairsFrom,
      List.map_append, List.map_map, Except.ok.injEq, List.append_cancel_right_eq]
    apply List.map_congr_left
    intro j _
    have hc0 : centreAt nodes (i0 : Int) = ⟨n.position.x + 20, n.position.y + 20⟩ :=
      centreAt_of_getElem? (by omega) (by simpa using hn)
    simp only [Function.comp, segmentOf, hc0]

/-- On a store with valid neighbor ids `updateEdges` computes, for every pair of a node and
an entry of its neighbor list, in scan order, the segment between the two centres. -/
theorem updateEdges_eq {nodes : List Node} (hv : ValidGraph nodes) :
    updateEdges nodes = .ok ((edgePairs nodes).map (segmentOf (centreAt nodes))) := by
  unfold updateEdges edgePairs
  exact updateEdgesFrom_eq nodes hv nodes 0 (by intro k n hk; simpa using hk)

theorem mem_edgePairsFrom {ls : List (List Int)} {i0 : Nat} {p : Int × Int} :
    p ∈ edgePairsFrom ls i0 →
      ∃ k : Nat, p.1 = ((i0 + k : Nat) : Int) ∧ ∃ l, ls[k]? = some l ∧ p.2 ∈ l := by
  induction ls generalizing i0 with
  | nil => intro h; simp [edgePairsFrom] at h
  | cons l rest ih =>
    intro h
    simp only [edgePairsFrom, List.mem_append, List.mem_map] at h
    rcases h with ⟨j, hj, rfl⟩ | h
    · exact ⟨0, by simp, l, by simp, hj⟩
    · obtain ⟨k, hk1, l1, hl1, hl2⟩ := ih h
      refine ⟨k + 1, ?_, l1, by simpa using hl1, hl2⟩
      rw [hk1]
      congr 1
      omega

/-- Both nodes of every pair are indices of the store. -/
theorem edgePairs_range {nodes : List Node} (hv : ValidGraph nodes) {p : Int × Int}
    (hp : p ∈ edgePairs nodes) :
    (0 ≤ p.1 ∧ p.1 < (nodes.length : Int)) ∧ (0 ≤ p.2 ∧ p.2 < (nodes.length : Int)) := by
  obtain ⟨k, hk1, l, hl1, hl2⟩ := mem_edgePairsFrom hp
  rw [List.getElem?_map] at hl1
  cases hn : nodes[k]? with
  | none => rw [hn] at hl1; cases hl1
  | some n =>
    rw [hn] at hl1
    simp only [Option.map_some', Option.some.injEq] at hl1
    have hklt : k < nodes.length := by
      by_contra hge
      rw [List.getElem?_eq_none (by omega)] at hn
      cases hn
    refine ⟨by rw [hk1]; omega, hv n (List.getElem?_mem hn) p.2 (by rw [hl1]; exact hl2)⟩

theorem edgePairsFrom_append_nil (ls : List (List Int)) :
    ∀ i0, edgePairsFrom (ls ++ [[]]) i0 = edgePairsFrom ls i0 := by
  induction ls with
  | nil => intro i0; rfl
  | cons l rest ih => intro i0; simp [edgePairsFrom, ih]

/-- In every state with a fresh edge list and the invariant, one event leaves the edge list
fresh. -/
theorem edgesFresh_step {s s1 : State} (hf : EventFrame s s1) (hv : ValidGraph s.nodes)
    (hv1 : ValidGraph s1.nodes) (h : EdgesFresh s) : EdgesFresh s1 := by
  unfold EdgesFresh at h ⊢
  cases hf with
  | same hn he => rw [hn, he]; exact h
  | added x y hn he =>
    rw [he, h, hn]
    have hp : edgePairs (s.nodes ++ [Node.new x y s.nodes.length]) = edgePairs s.nodes := by
      unfold edgePairs
      rw [List.map_append]
      exact edgePairsFrom_append_nil _ 0
    rw [hp]
    apply List.map_congr_left
    intro p hp1
    obtain ⟨⟨a0, a1⟩, ⟨b0, b1⟩⟩ := edgePairs_range hv hp1
    have hc : ∀ i : Int, 0 ≤ i → i < (s.nodes.length : Int) →
        centreAt (s.nodes ++ [Node.new x y s.nodes.length]) i = centreAt s.nodes i := by
      intro i i0 i1
      obtain ⟨n, _, hn1⟩ := nodeAt_ok_of_lt s.nodes i0 i1
      rw [centreAt_of_getElem? i0 hn1, centreAt_of_getElem? i0 (by
        rw [List.getElem?_append_left (by omega)]; exact hn1)]
    simp only [segmentOf, hc p.1 a0 a1, hc p.2 b0 b1]
  | redrawn hu _ =>
    rw [updateEdges_eq hv1] at hu
    simp only [Except.ok.injEq] at hu
    exact hu.symm
  | recoloured he hunc _ =>
    rw [he, h]
    have hnb : s1.nodes.map Node.neighbors = s.nodes.map Node.neighbors :=
      map_neighbors_of_uncoloured hunc
    have hpos : s1.nodes.map Node.position = s.nodes.map Node.position := by
      have := congrArg (List.map Node.position) hunc
      simpa [List.map_map, Function.comp_def, Node.uncoloured] using this
    have hp : edgePairs s1.nodes = edgePairs s.nodes := by
      unfold edgePairs; rw [hnb]
    rw [hp]
    apply List.map_congr_left
    intro p _
    simp only [segmentOf, centreAt_congr hpos]

/-- In every reachable state the edge list is the one `updateEdges` computes from the
store. -/
theorem reachable_edgesFresh (contains : CircleShape → Vector2 → Bool) {s : State}
    (h : Reachable contains s) : EdgesFresh s := by
  induction h with
  | initial => rfl
  | @step s s1 fuel e tr hs hstep ih =>
    have hi := reachable_inv contains hs
    exact edgesFresh_step (handleEvent_frame contains fuel s s1 e tr hi.valid hstep) hi.valid
      (handleEvent_inv contains fuel s s1 e tr hi hstep).1.valid ih

/-! ## C13 -/

theorem centreAt_set {nodes : List Node} {d : Nat} (m : Node) (i : Int)
    (hd : d < nodes.length) :
    centreAt (nodes.set d m) i =
      if i = (d : Int) then ⟨m.position.x + 20, m.position.y + 20⟩ else centreAt nodes i := by
  by_cases hi : i = (d : Int)
  · subst hi
    rw [if_pos rfl]
    exact centreAt_of_getElem? (by omega) (by simp [List.getElem?_set, hd])
  · rw [if_neg hi]
    unfold centreAt nodeAt
    by_cases h0 : 0 ≤ i
    · have hne : d ≠ i.toNat := by omega
      simp [h0, List.getElem?_set, hne]
    · simp [h0]

/-- C13: in every reachable state whose stored positions, and for every pointer position
whose coordinates, lie in the range where the `float` sums and differences of the source are
exact, a pointer-move event while a drag is active returns and overwrites the position (and
shape position) of the dragged node `d` only: the store is the old one with node `d` moved to
the pointer minus `(20, 20)`, so all other nodes, every neighbor list, every colour and the
node count are unchanged, and so are the other fields; the stored positions stay in the
exact range.  The edge list before the event holds, for every pair of a node and an entry of
its neighbor list, the segment between their centres; after the event it holds the same
segments with the centre of `d` replaced by the pointer position, so segments touching `d`
start or end at the new centre of `d` and all others are unchanged.  With no drag active the
event changes nothing. -/
theorem handleMouseMove_drag (contains : CircleShape → Vector2 → Bool) (s : State)
    (hr : Reachable contains s) (hst : ∀ n ∈ s.nodes, PositionExact n.position)
    (x y : Int) (hp : PointerExact ⟨x, y⟩) :
    (s.isDragging = true → ∃ (d : Nat) (n : Node) (s1 : State),
      s.draggedNodeId = (d : Int) ∧ s.nodes[d]? = some n ∧
      handleMouseMove s x y = .ok s1 ∧
      s1.nodes = s.nodes.set d
        { shape := ⟨⟨x - 20, y - 20⟩, n.shape.fillColor⟩
          neighbors := n.neighbors
          position := ⟨x - 20, y - 20⟩
          id := n.id } ∧
      s1.nodes.length = s.nodes.length ∧
      (∀ k : Nat, k ≠ d → s1.nodes[k]? = s.nodes[k]?) ∧
      s1.isCreatingEdge = s.isCreatingEdge ∧ s1.selectedNodeId = s.selectedNodeId ∧
      s1.isDragging = s.isDragging ∧ s1.draggedNodeId = s.draggedNodeId ∧
      s1.currentTraversal = s.currentTraversal ∧
      (∀ n1 ∈ s1.nodes, PositionExact n1.position) ∧
      s.edges = (edgePairs s.nodes).map (segmentOf (centreAt s.nodes)) ∧
      s1.edges = (edgePairs s.nodes).map
        (segmentOf fun i => if i = (d : Int) then ⟨x, y⟩ else centreAt s.nodes i)) ∧
    (s.isDragging = false → handleMouseMove s x y = .ok s) := by
  have hi := reachable_inv contains hr
  refine ⟨?_, ?_⟩
  · intro hdrag
    obtain ⟨hd0, hd1⟩ := hi.drag hdrag
    obtain ⟨n, _, hn⟩ := nodeAt_ok_of_lt s.nodes hd0 hd1
    have hdlt : s.draggedNodeId.toNat < s.nodes.length := by omega
    have hdcast : s.draggedNodeId = (s.draggedNodeId.toNat : Int) := by omega
    obtain ⟨m, hm⟩ : ∃ m : Node, m =
        { shape := ⟨⟨x - 20, y - 20⟩, n.shape.fillColor⟩
          neighbors := n.neighbors
          position := ⟨x - 20, y - 20⟩
          id := n.id } := ⟨_, rfl⟩
    have hset : setPosition s.nodes s.draggedNodeId ⟨x - 20, y - 20⟩ =
        .ok (s.nodes.set s.draggedNodeId.toNat m) := by
      rw [hm]
      exact setPosition_eq_ok.mpr ⟨n, hd0, hn, rfl⟩
    have hv1 : ValidGraph (s.nodes.set s.draggedNodeId.toNat m) :=
      validGraph_of_map_neighbors (setPosition_frame hset).2 hi.valid
    have hpairs : edgePairs (s.nodes.set s.draggedNodeId.toNat m) = edgePairs s.nodes := by
      unfold edgePairs
      rw [(setPosition_frame hset).2]
    have hmove : handleMouseMove s x y = .ok
        { s with nodes := s.nodes.set s.draggedNodeId.toNat m
                 edges := (edgePairs s.nodes).map
                   (segmentOf (centreAt (s.nodes.set s.draggedNodeId.toNat m))) } := by
      have hne : s.draggedNodeId ≠ -1 := by omega
      unfold handleMouseMove
      rw [if_pos ⟨hdrag, hne⟩]
      simp only [hset, updateEdges_eq hv1, hpairs, bind, Except.bind, pure, Except.pure]
    have hexact : PositionExact m.position := by
      rw [hm]
      unfold PointerExact ExactFloat at hp
      unfold PositionExact ExactFloat
      simp only [sub_add_cancel] at hp ⊢
      omega
    refine ⟨s.draggedNodeId.toNat, n, _, hdcast, hn, hmove, by rw [hm], by simp, ?_, rfl, rfl,
      rfl, rfl, rfl, ?_, reachable_edgesFresh contains hr, ?_⟩
    · intro k hk
      simp [List.getElem?_set, Ne.symm hk]
    · intro n1 hn1
      rcases List.mem_or_eq_of_mem_set hn1 with h1 | h1
      · exact hst n1 h1
      · rw [h1]
        exact hexact
    · show List.map _ _ = _
      apply List.map_congr_left
      intro p _
      simp only [segmentOf]
      rw [centreAt_set m p.1 hdlt, centreAt_set m p.2 hdlt, hm]
      simp only [sub_add_cancel]
  · intro hno
    unfold handleMouseMove
    simp [hno]

/-- The state after `demoEvents` followed by a plain click on node `0`: node `0` is being
dragged. -/
theorem demoDragging_reachable : Reachable boxContains demoDragging :=
  reachable_handleEventList boxContains 0
    [Event.MouseButtonPressed MouseButton.Left ⟨0, 1⟩ false] demoState demoDragging
    demoState_reachable (by decide)

/-- The previous theorem on a move to `(40, 60)` while node `0`, which has the edge
`(0, 1)`, is dragged: both segments of that edge now touch `(40, 60)`. -/
theorem handleMouseMove_drag_witness :
    ((handleMouseMove demoDragging 40 60).toOption.map fun s1 => s1.edges) =
      some [⟨⟨40, 60⟩, ⟨100, 100⟩⟩, ⟨⟨100, 100⟩, ⟨40, 60⟩⟩] ∧
    (demoDragging.isDragging = true → ∃ (d : Nat) (n : Node) (s1 : State),
      demoDragging.draggedNodeId = (d : Int) ∧ demoDragging.nodes[d]? = some n ∧
      handleMouseMove demoDragging 40 60 = .ok s1 ∧
      s1.nodes = demoDragging.nodes.set d
        { shape := ⟨⟨40 - 20, 60 - 20⟩, n.shape.fillColor⟩
          neighbors := n.neighbors
          position := ⟨40 - 20, 60 - 20⟩
          id := n.id } ∧
      s1.nodes.length = demoDragging.nodes.length ∧
      (∀ k : Nat, k ≠ d → s1.nodes[k]? = demoDragging.nodes[k]?) ∧
      s1.isCreatingEdge = demoDragging.isCreatingEdge ∧
      s1.selectedNodeId = demoDragging.selectedNodeId ∧
      s1.isDragging = demoDragging.isDragging ∧
      s1.draggedNodeId = demoDragging.draggedNodeId ∧
      s1.currentTraversal = demoDragging.currentTraversal ∧
      (∀ n1 ∈ s1.nodes, PositionExact n1.position) ∧
      demoDragging.edges =
        (edgePairs demoDragging.nodes).map (segmentOf (centreAt demoDragging.nodes)) ∧
      s1.edges = (edgePairs demoDragging.nodes).map
        (segmentOf fun i => if i = (d : Int) then ⟨40, 60⟩
          else centreAt demoDragging.nodes i)) ∧
    (demoDragging.isDragging = false →
      handleMouseMove demoDragging 40 60 = .ok demoDragging) :=
  ⟨by decide, handleMouseMove_drag boxContains demoDragging demoDragging_reachable
    (by decide) 40 60 (by decide)⟩

/-! ## Traversals on the store without duplicate neighbor entries -/

theorem getElem?_dedupGraph (nodes : List Node) (k : Nat) :
    (dedupGraph nodes)[k]? =
      (nodes[k]?).map fun n => { n with neighbors := keepFirst n.neighbors } := by
  unfold dedupGraph
  rw [List.getElem?_map]

theorem setFillColor_dedupGraph (nodes : List Node) (i : Int) (c : Color) :
    setFillColor (dedupGraph nodes) i c = (setFillColor nodes i c).map dedupGraph := by
  unfold setFillColor
  by_cases h0 : 0 ≤ i
  · simp only [h0, if_true, getElem?_dedupGraph]
    cases hn : nodes[i.toNat]? with
    | none => rfl
    | some n =>
      simp only [Option.map_some', Except.map, Except.ok.injEq]
      unfold dedupGraph
      rw [List.map_set]
  · simp [h0, Except.map]

theorem nodeAt_dedupGraph (nodes : List Node) (i : Int) :
    nodeAt (dedupGraph nodes) i =
      (nodeAt nodes i).map fun n => { n with neighbors := keepFirst n.neighbors } := by
  unfold nodeAt
  by_cases h0 : 0 ≤ i
  · simp only [h0, if_true, getElem?_dedupGraph]
    cases hn : nodes[i.toNat]? <;> rfl
  · simp [h0, Except.map]

theorem shapes_dedupGraph (nodes : List Node) : shapes (dedupGraph nodes) = shapes nodes := by
  unfold shapes dedupGraph
  rw [List.map_map]
  rfl

/-- The inner loop of `runBFS` does not read the neighbor lists of the store. -/
theorem bfsVisitNeighbors_deduped :
    ∀ (l : List Int) (st : BfsState),
      bfsVisitNeighbors l st.deduped = (bfsVisitNeighbors l st).map BfsState.deduped := by
  intro l
  induction l with
  | nil => intro st; rfl
  | cons x rest ih =>
    intro st
    rw [bfsVisitNeighbors, bfsVisitNeighbors]
    by_cases hx : x ∈ st.visited
    · have hx' : x ∈ st.deduped.visited := hx
      rw [if_pos hx, if_pos hx']
      exact ih st
    · have hx' : x ∉ st.deduped.visited := hx
      rw [if_neg hx, if_neg hx']
      show (setFillColor (dedupGraph st.nodes) x Color.Yellow >>= _) = _
      rw [setFillColor_dedupGraph]
      cases hs : setFillColor st.nodes x Color.Yellow with
      | error err => rfl
      | ok nodes1 =>
        simp only [Except.map, bind, Except.bind]
        rw [shapes_dedupGraph]
        exact ih
          { nodes := nodes1
            q := st.q ++ [x]
            visited := st.visited.insert x
            trace := st.trace ++ [Effect.setFillColor x Color.Yellow,
                                  Effect.render (shapes nodes1)] }

/-- The inner loop of `runBFS` skips every entry that is in `visited` or occurred before. -/
theorem bfsVisitNeighbors_dedupFrom :
    ∀ (l seen : List Int) (st : BfsState), (∀ x ∈ seen, x ∈ st.visited) →
      bfsVisitNeighbors (dedupFrom seen l) st = bfsVisitNeighbors l st := by
  intro l
  induction l with
  | nil => intro seen st _; rfl
  | cons x rest ih =>
    intro seen st hseen
    by_cases hs : x ∈ seen
    · have hv := hseen x hs
      simp only [dedupFrom, hs, if_true]
      rw [ih seen st hseen]
      conv_rhs => rw [bfsVisitNeighbors, if_pos hv]
    · simp only [dedupFrom, hs, if_false]
      rw [bfsVisitNeighbors, bfsVisitNeighbors]
      by_cases hv : x ∈ st.visited
      · rw [if_pos hv, if_pos hv]
        apply ih
        intro y hy
        rcases List.mem_cons.mp hy with rfl | hy
        · exact hv
        · exact hseen y hy
      · rw [if_neg hv, if_neg hv]
        cases hset : setFillColor st.nodes x Color.Yellow with
        | error err => rfl
        | ok nodes1 =>
          simp only [bind, Except.bind]
          apply ih
          intro y hy
          simp only [List.insert_of_not_mem hv]
          rcases List.mem_cons.mp hy with rfl | hy
          · exact List.mem_cons_self _ _
          · exact List.mem_cons_of_mem _ (hseen y hy)

theorem bfsStep_deduped (st : BfsState) (c : Int) (q1 : List Int) :
    bfsStep st.deduped c q1 = (bfsStep st c q1).map BfsState.deduped := by
  unfold bfsStep
  show (setFillColor (dedupGraph st.nodes) c Color.Green >>= _) = _
  rw [setFillColor_dedupGraph]
  cases hs : setFillColor st.nodes c Color.Green with
  | error err => rfl
  | ok nodes1 =>
    simp only [Except.map, bind, Except.bind]
    rw [nodeAt_dedupGraph]
    cases hn : nodeAt nodes1 c with
    | error err => rfl
    | ok cur =>
      simp only [Except.map]
      rw [shapes_dedupGraph]
      show bfsVisitNeighbors (dedupFrom [] cur.neighbors) _ = _
      rw [bfsVisitNeighbors_dedupFrom _ _ _ (by simp)]
      exact bfsVisitNeighbors_deduped cur.neighbors
        { nodes := nodes1
          q := q1
          visited := st.visited
          trace := st.trace ++ [Effect.setFillColor c Color.Green,
                                Effect.render (shapes nodes1), Effect.sleep 500] }

theorem bfsLoop_deduped :
    ∀ (fuel : Nat) (st : BfsState),
      bfsLoop fuel st.deduped = (bfsLoop fuel st).map BfsState.deduped := by
  intro fuel
  induction fuel with
  | zero =>
    intro st
    cases hq : st.q with
    | nil =>
      rw [bfsLoop_nil 0 hq, bfsLoop_nil 0 (show st.deduped.q = [] from hq)]
      rfl
    | cons c q1 =>
      have hq' : st.deduped.q = c :: q1 := hq
      simp [bfsLoop, hq, hq', Except.map]
  | succ fuel ih =>
    intro st
    cases hq : st.q with
    | nil =>
      rw [bfsLoop_nil _ hq, bfsLoop_nil _ (show st.deduped.q = [] from hq)]
      rfl
    | cons c q1 =>
      rw [bfsLoop_cons fuel hq, bfsLoop_cons fuel (show st.deduped.q = c :: q1 from hq),
        bfsStep_deduped]
      cases hs : bfsStep st c q1 with
      | error err => rfl
      | ok st2 =>
        simp only [Except.map, bind, Except.bind]
        exact ih st2

/-- A run of `runBFS` on the store without duplicate neighbor entries fails or returns as
the run on the store itself does, with the same effects. -/
theorem runBFS_dedupGraph (fuel : Nat) (nodes : List Node) (start : Int) :
    runBFS fuel (dedupGraph nodes) start =
      (runBFS fuel nodes start).map fun r => (dedupGraph r.1, r.2) := by
  unfold runBFS
  have := bfsLoop_deduped fuel
    { nodes := nodes, q := [start], visited := ([] : List Int).insert start, trace := [] }
  simp only [BfsState.deduped] at this
  rw [this]
  cases bfsLoop fuel
    { nodes := nodes, q := [start], visited := ([] : List Int).insert start, trace := [] } with
  | error err => rfl
  | ok st => rfl

theorem dfsNeighbors_visited (recurse : DfsState → Int → Except Err DfsState)
    (hrec : ∀ st v st1, recurse st v = .ok st1 → ∀ x ∈ st.visited, x ∈ st1.visited) :
    ∀ (l : List Int) (st st1 : DfsState), dfsNeighbors recurse l st = .ok st1 →
      ∀ x ∈ st.visited, x ∈ st1.visited := by
  intro l
  induction l with
  | nil =>
    intro st st1 h
    simp only [dfsNeighbors, Except.ok.injEq] at h
    rw [← h]
    exact fun _ hx => hx
  | cons y rest ih =>
    intro st st1 h
    rw [dfsNeighbors] at h
    split_ifs at h with hy
    · exact ih st st1 h
    · obtain ⟨st2, e1, e2⟩ := bind_eq_ok.mp h
      exact fun x hx => ih st2 st1 e2 x (hrec st y st2 e1 x hx)

/-- A returning call of `runDFS` keeps what was visited and has visited its node. -/
theorem runDFS_visited : ∀ (fuel : Nat) (st : DfsState) (v : Int) (st1 : DfsState),
    runDFS fuel st v = .ok st1 → (∀ x ∈ st.visited, x ∈ st1.visited) ∧ v ∈ st1.visited := by
  intro fuel
  induction fuel with
  | zero => intro st v st1 h; cases h
  | succ fuel ih =>
    intro st v st1 h
    rw [runDFS] at h
    obtain ⟨nodes1, _, e2⟩ := bind_eq_ok.mp h
    obtain ⟨cur, _, e4⟩ := bind_eq_ok.mp e2
    have hm := dfsNeighbors_visited (runDFS fuel) (fun a b c hc => (ih a b c hc).1) _ _ _ e4
    simp only at hm
    exact ⟨fun x hx => hm x (by simp [List.mem_insert_iff, hx]),
      hm v (by simp [List.mem_insert_iff])⟩

/-- The loop of `runDFS` skips every entry that is in `visited` or occurred before. -/
theorem dfsNeighbors_dedupFrom (recurse : DfsState → Int → Except Err DfsState)
    (hrec : ∀ st v st1, recurse st v = .ok st1 →
      (∀ x ∈ st.visited, x ∈ st1.visited) ∧ v ∈ st1.visited) :
    ∀ (l seen : List Int) (st : DfsState), (∀ x ∈ seen, x ∈ st.visited) →
      dfsNeighbors recurse (dedupFrom seen l) st = dfsNeighbors recurse l st := by
  intro l
  induction l with
  | nil => intro seen st _; rfl
  | cons x rest ih =>
    intro seen st hseen
    by_cases hs : x ∈ seen
    · have hv := hseen x hs
      simp only [dedupFrom, hs, if_true]
      rw [ih seen st hseen]
      conv_rhs => rw [dfsNeighbors, if_pos hv]
    · simp only [dedupFrom, hs, if_false]
      rw [dfsNeighbors, dfsNeighbors]
      by_cases hv : x ∈ st.visited
      · rw [if_pos hv, if_pos hv]
        apply ih
        intro y hy
        rcases List.mem_cons.mp hy with rfl | hy
        · exact hv
        · exact hseen y hy
      · rw [if_neg hv, if_neg hv]
        cases hcall : recurse st x with
        | error err => rfl
        | ok st2 =>
          simp only [bind, Except.bind]
          obtain ⟨m1, m2⟩ := hrec st x st2 hcall
          apply ih
          intro y hy
          rcases List.mem_cons.mp hy with rfl | hy
          · exact m2
          · exact m1 y (hseen y hy)

/-- The loop of `runDFS` does not read the neighbor lists of the store. -/
theorem dfsNeighbors_deduped (recurse : DfsState → Int → Except Err DfsState)
    (hrec : ∀ st v, recurse st.deduped v = (recurse st v).map DfsState.deduped) :
    ∀ (l : List Int) (st : DfsState),
      dfsNeighbors recurse l st.deduped =
        (dfsNeighbors recurse l st).map DfsState.deduped := by
  intro l
  induction l with
  | nil => intro st; rfl
  | cons x rest ih =>
    intro st
    rw [dfsNeighbors, dfsNeighbors]
    by_cases hx : x ∈ st.visited
    · rw [if_pos hx, if_pos (show x ∈ st.deduped.visited from hx)]
      exact ih st
    · rw [if_neg hx, if_neg (show x ∉ st.deduped.visited from hx), hrec]
      cases hcall : recurse st x with
      | error err => rfl
      | ok st2 =>
        simp only [Except.map, bind, Except.bind]
        exact ih st2

/-- A call of `runDFS` on the store without duplicate neighbor entries fails or returns as
the call on the store itself does, with the same effects. -/
theorem runDFS_deduped : ∀ (fuel : Nat) (st : DfsState) (v : Int),
    runDFS fuel st.deduped v = (runDFS fuel st v).map DfsState.deduped := by
  intro fuel
  induction fuel with
  | zero => intro st v; rfl
  | succ fuel ih =>
    intro st v
    rw [runDFS, runDFS]
    show (setFillColor (dedupGraph st.nodes) v Color.Red >>= _) = _
    rw [setFillColor_dedupGraph]
    cases hs : setFillColor st.nodes v Color.Red with
    | error err => rfl
    | ok nodes1 =>
      simp only [Except.map, bind, Except.bind]
      rw [nodeAt_dedupGraph]
      cases hn : nodeAt nodes1 v with
      | error err => rfl
      | ok cur =>
        simp only [Except.map]
        rw [shapes_dedupGraph]
        show dfsNeighbors (runDFS fuel) (dedupFrom [] cur.neighbors) _ = _
        rw [dfsNeighbors_dedupFrom (runDFS fuel) (runDFS_visited fuel) _ _ _ (by simp)]
        exact dfsNeighbors_deduped (runDFS fuel) ih cur.neighbors
          { nodes := nodes1
            visited := st.visited.insert v
            trace := st.trace ++ [Effect.setFillColor v Color.Red,
                                  Effect.render (shapes nodes1), Effect.sleep 500] }

/-! ## C16 -/

/-- C16: on a store with valid neighbor ids, `runBFS(0)` and `runDFS(0, {})` on the store in
which every neighbor list has lost every occurrence of an id after its first fail or return
exactly as on the store itself, with the same sequence of colour changes (indeed the same
effects); and on a non-empty store all four runs return. -/
theorem traversals_ignore_duplicates (nodes : List Node) (hv : ValidGraph nodes) :
    (∀ fuel, (runBFS fuel (dedupGraph nodes) 0).map (fun r => colourChanges r.2) =
      (runBFS fuel nodes 0).map fun r => colourChanges r.2) ∧
    (∀ fuel,
      (runDFS fuel { nodes := dedupGraph nodes, visited := [], trace := [] } 0).map
        (fun r => colourChanges r.trace) =
      (runDFS fuel { nodes := nodes, visited := [], trace := [] } 0).map
        fun r => colourChanges r.trace) ∧
    (nodes ≠ [] → ∃ (nodes1 : List Node) (tr : List Effect) (st1 : DfsState),
      ∀ fuel, nodes.length ≤ fuel →
        runBFS fuel nodes 0 = .ok (nodes1, tr) ∧
        runBFS fuel (dedupGraph nodes) 0 = .ok (dedupGraph nodes1, tr) ∧
        runDFS fuel { nodes := nodes, visited := [], trace := [] } 0 = .ok st1 ∧
        runDFS fuel { nodes := dedupGraph nodes, visited := [], trace := [] } 0 =
          .ok { st1 with nodes := dedupGraph st1.nodes }) := by
  have hD : ∀ fuel, runDFS fuel { nodes := dedupGraph nodes, visited := [], trace := [] } 0 =
      (runDFS fuel { nodes := nodes, visited := [], trace := [] } 0).map DfsState.deduped :=
    fun fuel => runDFS_deduped fuel { nodes := nodes, visited := [], trace := [] } 0
  refine ⟨?_, ?_, ?_⟩
  · intro fuel
    rw [runBFS_dedupGraph]
    cases runBFS fuel nodes 0 <;> rfl
  · intro fuel
    rw [hD]
    cases runDFS fuel { nodes := nodes, visited := [], trace := [] } 0 <;> rfl
  · intro hne
    obtain ⟨dist, hDist⟩ := exists_distSpec nodes
    obtain ⟨nodes1, tr, h1, _⟩ := runBFS_spec hne hv hDist
    obtain ⟨st1, c, h2, _⟩ := runDFS_top_spec hne hv
    refine ⟨nodes1, tr, st1, ?_⟩
    intro fuel hf
    refine ⟨h1 fuel hf, ?_, h2 fuel hf, ?_⟩
    · rw [runBFS_dedupGraph, h1 fuel hf]
      rfl
    · rw [hD, h2 fuel hf]
      rfl

/-- The previous theorem on `dupNodes`, whose lists `[1, 1, 2]` and `[0, 0, 2]` have
duplicate entries. -/
theorem traversals_ignore_duplicates_witness :
    (dedupGraph dupNodes).map Node.neighbors = [[1, 2], [0, 2], [0, 1]] ∧
    ((runBFS 3 dupNodes 0).toOption.map fun r => colourChanges r.2) =
      some [(0, Color.Green), (1, Color.Yellow), (2, Color.Yellow), (1, Color.Green),
        (2, Color.Green)] ∧
    (∀ fuel, (runBFS fuel (dedupGraph dupNodes) 0).map (fun r => colourChanges r.2) =
      (runBFS fuel dupNodes 0).map fun r => colourChanges r.2) ∧
    (∀ fuel,
      (runDFS fuel { nodes := dedupGraph dupNodes, visited := [], trace := [] } 0).map
        (fun r => colourChanges r.trace) =
      (runDFS fuel { nodes := dupNodes, visited := [], trace := [] } 0).map
        fun r => colourChanges r.trace) ∧
    (dupNodes ≠ [] → ∃ (nodes1 : List Node) (tr : List Effect) (st1 : DfsState),
      ∀ fuel, dupNodes.length ≤ fuel →
        runBFS fuel dupNodes 0 = .ok (nodes1, tr) ∧
        runBFS fuel (dedupGraph dupNodes) 0 = .ok (dedupGraph nodes1, tr) ∧
        runDFS fuel { nodes := dupNodes, visited := [], trace := [] } 0 = .ok st1 ∧
        runDFS fuel { nodes := dedupGraph dupNodes, visited := [], trace := [] } 0 =
          .ok { st1 with nodes := dedupGraph st1.nodes }) :=
  ⟨by decide, by decide, traversals_ignore_duplicates dupNodes (by decide)⟩

end GraphVisualizer
